import Mathlib

/-!
Triples analytics: a shallow embedding of `src/logic.js` and of the derived
views `fileOnly` and `currentView` of `src/App.jsx`.

Conventions of the embedding.

* A JavaScript number that the code only compares, adds or subtracts is an
  exact number: row positions and counters are `Nat`, differences are `Int`.
  A quotient that the code only reports (`draws / c`, the baseline, `avg`,
  `med`) is the exact quotient in `ℚ` and stands for the double nearest to
  it.  Where the code goes on computing with a quotient (the ratio and the
  thresholds of `classifyRate`, the percentage of a bucket), every operation
  is rounded to the nearest double by `toDouble`.  `null` is `none`.
* A sheet cell is a `Cell`.  The built-ins of the JavaScript run time that the
  code calls on cells and strings (`String`, `trim`, `toUpperCase`, `Number`,
  the `Date` constructor and parser) are the fields of a `Host`; every
  definition that reaches one of them takes the host as its first argument,
  and every theorem holds for all hosts.
* A row object is a record of its six named cells; an absent property reads
  as `Cell.missing`.
-/

namespace Triples

/-! ## Cells, rows and the host -/

/-- A raw cell value: `null`/`undefined`, a finite number, a string, or a
`Date` object with its time value (`none` for an invalid date). -/
inductive Cell where
  | missing
  | num (x : ℚ)
  | str (s : String)
  | date (ms : Option Int)
deriving DecidableEq

/-- The JavaScript built-ins used by `logic.js`. -/
structure Host where
  /-- `String(v)` for a cell that is neither `null` nor `undefined`. -/
  toStr : Cell → String
  /-- `s.trim()`. -/
  trim : String → String
  /-- `s.toUpperCase()`. -/
  toUpperCase : String → String
  /-- `Number(s)`; `none` stands for a result that is not finite. -/
  toNumber : String → Option ℚ
  /-- Time value of `new Date(epoch.getTime() + v * 86400000)`, `none` when
  it is `NaN`. -/
  serialTime : ℚ → Option Int
  /-- The three digit groups (day, month, year) when the date pattern of
  `parseDateSafe` matches the string. -/
  matchDMY : String → Option (Nat × Nat × Nat)
  /-- Time value of `new Date(yy, mm - 1, dd)`, `none` when it is `NaN`. -/
  localTime : Nat → Int → Nat → Option Int
  /-- Time value of `new Date(s)`, `none` when it is `NaN`. -/
  parseTime : String → Option Int

/-- The four card columns, in the fixed order of `vals` in `isTripleRow`. -/
inductive Col where
  | club
  | dia
  | heart
  | spade
deriving DecidableEq

/-- One row of the sheet: `תאריך`, `הגרלה`, `תלתן`, `יהלום`, `לב`, `עלה`. -/
structure Row where
  date : Cell
  draw : Cell
  club : Cell
  dia : Cell
  heart : Cell
  spade : Cell
deriving DecidableEq

/-- The expression `String(v ?? '').trim()`. -/
def cellText (H : Host) (v : Cell) : String :=
  match v with
  | .missing => H.trim ""
  | _ => H.trim (H.toStr v)

/-- The function `normVal`. -/
def normVal (H : Host) (v : Cell) : String :=
  match v with
  | .missing => ""
  | _ =>
    let s := H.toUpperCase (H.trim (H.toStr v))
    if s = "" then ""
    else if s = "ט" ∨ s = "10" then "10"
    else if s = "J" ∨ s = "ג" ∨ s = "ג׳" ∨ s = "ג\"" then "J"
    else if s = "Q" ∨ s = "ק" ∨ s = "ק׳" then "Q"
    else if s = "K" ∨ s = "כ" ∨ s = "כ׳" then "K"
    else if s = "A" ∨ s = "א" then "A"
    else s

/-- The function `parseDateSafe`; the result is the time value of the date
returned, `none` for `null`. -/
def parseDateSafe (H : Host) (v : Cell) : Option Int :=
  match v with
  | .date (some t) => some t
  | .num x => H.serialTime x
  | _ =>
    let s := cellText H v
    if s = "" then none
    else
      match H.matchDMY s with
      | some (dd, mm, yy) =>
        H.localTime (if yy < 100 then yy + 2000 else yy) ((mm : Int) - 1) dd
      | none => H.parseTime s

/-- The expression `Number(String(v ?? '').trim())` on the draw-number cell
`v`, `none` when `Number.isFinite` rejects the result. -/
def drawNumber (H : Host) (v : Cell) : Option ℚ :=
  H.toNumber (cellText H v)

/-- The function `maxDrawNumber`. -/
def maxDrawNumber (H : Host) (rows : List Row) : Option ℚ :=
  rows.foldl
    (fun max r =>
      match drawNumber H r.draw with
      | none => max
      | some n =>
        match max with
        | none => some n
        | some m => if n > m then some n else max)
    none

/-! ## Chronology -/

/-- Result of `detectChronology`. -/
structure Chronology where
  rowsOldToNew : List Row
  wasReversed : Bool
  method : String
deriving DecidableEq

/-- The optional-chaining read `r?.[col]`: the cell of the row, `undefined`
when there is no row. -/
def cellOf (r : Option Row) (col : Row → Cell) : Cell :=
  match r with
  | some x => col x
  | none => .missing

/-- The function `detectChronology`. -/
def detectChronology (H : Host) (rows : List Row) : Chronology :=
  if rows.length < 2 then { rowsOldToNew := rows, wasReversed := false, method := "none" }
  else
    let dFirst := parseDateSafe H (cellOf rows[0]? Row.date)
    let dLast := parseDateSafe H (cellOf rows[rows.length - 1]? Row.date)
    match dFirst, dLast with
    | some tFirst, some tLast =>
      if tFirst > tLast then
        { rowsOldToNew := rows.reverse, wasReversed := true, method := "date" }
      else { rowsOldToNew := rows, wasReversed := false, method := "date" }
    | _, _ =>
      let nFirst := drawNumber H (cellOf rows[0]? Row.draw)
      let nLast := drawNumber H (cellOf rows[rows.length - 1]? Row.draw)
      match nFirst, nLast with
      | some a, some b =>
        if a > b then
          { rowsOldToNew := rows.reverse, wasReversed := true, method := "draw" }
        else { rowsOldToNew := rows, wasReversed := false, method := "draw" }
      | _, _ => { rowsOldToNew := rows, wasReversed := false, method := "unknown" }

/-! ## Event detection -/

/-- The `suits` object of an event: the four normalized values. -/
structure Suits where
  club : String
  dia : String
  heart : String
  spade : String
deriving DecidableEq

/-- The object returned by `isTripleRow` when `isTriple` is `true`. -/
structure TripleInfo where
  value : String
  size : Nat
  matchCols : List Col
  missingCols : List Col
  suits : Suits
deriving DecidableEq

/-- `counts.get(k)` on a `Map` kept as its entries in insertion order. -/
def mapGet (m : List (String × Nat)) (k : String) : Option Nat :=
  match m with
  | [] => none
  | (k', c) :: rest => if k' = k then some c else mapGet rest k

/-- `counts.set(k, c)`: an existing key keeps its place, a new key goes last. -/
def mapSet (m : List (String × Nat)) (k : String) (c : Nat) : List (String × Nat) :=
  match m with
  | [] => [(k, c)]
  | (k', c') :: rest => if k' = k then (k', c) :: rest else (k', c') :: mapSet rest k c

/-- The body of the first loop of `isTripleRow`: a blank value is skipped, any
other value gets its count raised by one. -/
def tallyStep (counts : List (String × Nat)) (x : Col × String) : List (String × Nat) :=
  if x.2 = "" then counts else mapSet counts x.2 ((mapGet counts x.2).getD 0 + 1)

/-- The first loop of `isTripleRow`: the tally of the non-blank values. -/
def tally (vals : List (Col × String)) : List (String × Nat) :=
  vals.foldl tallyStep []

/-- The body of the second loop of `isTripleRow`: a strictly greater count
replaces `(bestVal, bestCount)`. -/
def bestStep (b : Option String × Nat) (e : String × Nat) : Option String × Nat :=
  if e.2 > b.2 then (some e.1, e.2) else b

/-- The second loop of `isTripleRow`: `(bestVal, bestCount)`. -/
def best (counts : List (String × Nat)) : Option String × Nat :=
  counts.foldl bestStep (none, 0)

/-- The normalized value of a card column of a row. -/
def cardValue (H : Host) (r : Row) (col : Col) : String :=
  match col with
  | .club => normVal H r.club
  | .dia => normVal H r.dia
  | .heart => normVal H r.heart
  | .spade => normVal H r.spade

/-- The four normalized card values of a row, in column order. -/
def cardValues (H : Host) (r : Row) : List String :=
  [cardValue H r .club, cardValue H r .dia, cardValue H r .heart, cardValue H r .spade]

/-- The function `isTripleRow`; `none` is the object with `isTriple: false`. -/
def isTripleRow (H : Host) (r : Row) : Option TripleInfo :=
  let club := normVal H r.club
  let dia := normVal H r.dia
  let heart := normVal H r.heart
  let spade := normVal H r.spade
  let vals := [(Col.club, club), (Col.dia, dia), (Col.heart, heart), (Col.spade, spade)]
  let b := best (tally vals)
  match b.1 with
  | some bestVal =>
    if b.2 ≥ 3 ∧ bestVal ≠ "" then
      some
        { value := bestVal
          size := b.2
          matchCols := (vals.filter (fun x => x.2 = bestVal)).map (fun x => x.1)
          missingCols := (vals.filter (fun x => x.2 ≠ bestVal)).map (fun x => x.1)
          suits := { club := club, dia := dia, heart := heart, spade := spade } }
    else none
  | none => none

/-- A triple event, as pushed by `computeTriples`; `drawNum` is `none` when
the draw cell is not a finite number. -/
structure Event where
  idx : Nat
  draw : String
  drawNum : Option ℚ
  date : Cell
  value : String
  size : Nat
  matchCols : List Col
  missingCols : List Col
  suits : Suits
deriving DecidableEq

/-- The loop of `computeTriples` from position `idx` on. -/
def computeTriplesFrom (H : Host) (idx : Nat) (rows : List Row) : List Event :=
  match rows with
  | [] => []
  | r :: rest =>
    match isTripleRow H r with
    | none => computeTriplesFrom H (idx + 1) rest
    | some t =>
      { idx := idx
        draw := cellText H r.draw
        drawNum := drawNumber H r.draw
        date := r.date
        value := t.value
        size := t.size
        matchCols := t.matchCols
        missingCols := t.missingCols
        suits := t.suits } :: computeTriplesFrom H (idx + 1) rest

/-- The function `computeTriples`. -/
def computeTriples (H : Host) (rowsOldToNew : List Row) : List Event :=
  computeTriplesFrom H 0 rowsOldToNew

/-! ## Gaps and window rates -/

/-- A gap between two consecutive events. -/
structure Gap where
  «from» : Event
  «to» : Event
  gap : Int
deriving DecidableEq

/-- The function `gapsBetweenTriples`. -/
def gapsBetweenTriples (events : List Event) : List Gap :=
  match events with
  | prev :: cur :: rest =>
    { «from» := prev, «to» := cur, gap := (cur.idx : Int) - prev.idx } ::
      gapsBetweenTriples (cur :: rest)
  | _ => []

/-- Result of `rateInWindow` and of `simRate`. -/
structure WindowRate where
  draws : Int
  triples : Nat
  every : Option ℚ
deriving DecidableEq

/-- The function `rateInWindow`. -/
def rateInWindow (rowsOldToNew : List Row) (events : List Event) (windowSize : Int) :
    WindowRate :=
  let n : Int := rowsOldToNew.length
  let start : Int := max 0 (n - windowSize)
  let c : Nat := events.foldl (fun c ev => if (ev.idx : Int) ≥ start ∧ (ev.idx : Int) < n then c + 1 else c) 0
  let draws : Int := n - start
  { draws := draws, triples := c, every := if c = 0 then none else some ((draws : ℚ) / c) }

/-- The integer nearest to `x`, a tie going to the even one. -/
def roundHalfEven (x : ℚ) : Int :=
  if x - ⌊x⌋ < 1 / 2 then ⌊x⌋
  else if x - ⌊x⌋ > 1 / 2 then ⌊x⌋ + 1
  else if ⌊x⌋ % 2 = 0 then ⌊x⌋ else ⌊x⌋ + 1

/-- The double nearest to a positive `x`, a tie going to the even significand:
with `2 ^ e ≤ x < 2 ^ (e + 1)` it is the nearest multiple of `2 ^ (e - 52)`.
The exponent range of doubles is not modelled: there is no overflow and no
subnormal number, which no quotient of two array lengths or counters
reaches. -/
def toDoublePos (x : ℚ) : ℚ :=
  (roundHalfEven (x * (2 : ℚ) ^ (52 - Int.log 2 x)) : ℚ) / (2 : ℚ) ^ (52 - Int.log 2 x)

/-- The double nearest to `x`: the value of a JavaScript operation whose exact
result is `x`. -/
def toDouble (x : ℚ) : ℚ :=
  if x = 0 then 0 else if 0 < x then toDoublePos x else -toDoublePos (-x)

/-- The function `baselineEvery`. -/
def baselineEvery (rowsOldToNew : List Row) (events : List Event) : Option ℚ :=
  if rowsOldToNew.length = 0 then none
  else if events.length = 0 then none
  else some ((rowsOldToNew.length : ℚ) / events.length)

/-- The function `classifyRate`.  Its arguments are the doubles nearest to
`windowEvery` and `baseline`; `ratio` is their quotient as a double, compared
with the doubles `0.9` and `1.1`.  A zero baseline makes the ratio `Infinity`,
`-Infinity` or `NaN`, which the two comparisons send to the second, the first
and the last label. -/
def classifyRate (windowEvery baseline : Option ℚ) : String :=
  match windowEvery, baseline with
  | some w, some b =>
    if b = 0 then
      if w > 0 then "איטי מהבסיס"
      else if w < 0 then "מהיר מהבסיס"
      else "תואם בסיס"
    else
      let ratio := toDouble (toDouble w / toDouble b)
      if ratio ≤ toDouble (9 / 10) then "מהיר מהבסיס"
      else if ratio ≥ toDouble (11 / 10) then "איטי מהבסיס"
      else "תואם בסיס"
  | _, _ => "לא זמין"

/-! ## Clusters -/

/-- A cluster, as pushed by `detectClusters`. -/
structure Cluster where
  startEvent : Event
  endEvent : Event
  startGapIndex : Nat
  endGapIndex : Nat
  tripleCount : Nat
  drawSpan : Int
  gaps : List Int
deriving DecidableEq

/-- The inner `while` of `detectClusters`: `endGapIndex` grows while the next
gap exists and is at most `clusterMaxGap`.  The value comes with its bounds,
which the outer loop needs to index `gaps` and to terminate. -/
def growEnd (gaps : List Gap) (clusterMaxGap : Int) (endGapIndex : Nat)
    (h : endGapIndex < gaps.length) : { e : Nat // endGapIndex ≤ e ∧ e < gaps.length } :=
  if h1 : endGapIndex + 1 < gaps.length then
    if gaps[endGapIndex + 1].gap ≤ clusterMaxGap then
      let r := growEnd gaps clusterMaxGap (endGapIndex + 1) h1
      ⟨r.1, Nat.le_of_succ_le r.2.1, r.2.2⟩
    else ⟨endGapIndex, Nat.le_refl _, h⟩
  else ⟨endGapIndex, Nat.le_refl _, h⟩
termination_by gaps.length - endGapIndex

/-- The outer `while` of `detectClusters`, from gap index `i` on. -/
def detectLoop (gaps : List Gap) (clusterMaxGap : Int) (i : Nat) : List Cluster :=
  if h : i < gaps.length then
    if gaps[i].gap ≠ 1 then detectLoop gaps clusterMaxGap (i + 1)
    else
      let startGapIndex := i
      let r := growEnd gaps clusterMaxGap i h
      let endGapIndex := r.1
      have hend : endGapIndex < gaps.length := r.2.2
      let startEvent := gaps[startGapIndex].«from»
      let endEvent := gaps[endGapIndex].«to»
      let gapsIn := ((gaps.take (endGapIndex + 1)).drop startGapIndex).map (fun g => g.gap)
      { startEvent := startEvent
        endEvent := endEvent
        startGapIndex := startGapIndex
        endGapIndex := endGapIndex
        tripleCount := gapsIn.length + 1
        drawSpan := (endEvent.idx : Int) - startEvent.idx
        gaps := gapsIn } :: detectLoop gaps clusterMaxGap (endGapIndex + 1)
  else []
termination_by gaps.length - i
decreasing_by
  · omega
  · have hr := (growEnd gaps clusterMaxGap i (by assumption)).2
    omega

/-- The function `detectClusters`. -/
def detectClusters (gaps : List Gap) (clusterMaxGap : Int) : List Cluster :=
  detectLoop gaps clusterMaxGap 0

/-- The shape of a cluster `c` over the list `gaps` with threshold `T`. -/
def ClusterShape (gaps : List Gap) (T : Int) (c : Cluster) : Prop :=
  c.startGapIndex ≤ c.endGapIndex ∧ c.endGapIndex < gaps.length ∧
  (∃ g, gaps[c.startGapIndex]? = some g ∧ g.gap = 1 ∧ c.startEvent = g.«from») ∧
  (∃ g, gaps[c.endGapIndex]? = some g ∧ c.endEvent = g.«to») ∧
  (∀ j g, c.startGapIndex < j → j ≤ c.endGapIndex → gaps[j]? = some g → g.gap ≤ T) ∧
  (∀ g, gaps[c.endGapIndex + 1]? = some g → T < g.gap) ∧
  c.gaps = ((gaps.take (c.endGapIndex + 1)).drop c.startGapIndex).map (fun g => g.gap) ∧
  c.tripleCount = (c.endGapIndex - c.startGapIndex + 1) + 1 ∧
  c.drawSpan = (c.endEvent.idx : Int) - c.startEvent.idx

/-- The object returned by `currentClusterStatus` when `active` is `true`. -/
structure ClusterNow where
  tripleCount : Nat
  drawSpan : Int
  gaps : List Int
  startDraw : String
  endDraw : String
deriving DecidableEq

/-- The function `currentClusterStatus`; `none` is the object with
`active: false`. -/
def currentClusterStatus (events : List Event) (_gaps : List Gap) (clusters : List Cluster) :
    Option ClusterNow :=
  match events.getLast? with
  | none => none
  | some last =>
    match clusters.find? (fun cl => cl.endEvent.idx = last.idx) with
    | none => none
    | some c =>
      some
        { tripleCount := c.tripleCount
          drawSpan := c.drawSpan
          gaps := c.gaps
          startDraw := c.startEvent.draw
          endDraw := c.endEvent.draw }

/-! ## Summaries -/

/-- The function `median`. -/
def median (nums : List Int) : Option ℚ :=
  if nums.length = 0 then none
  else
    let a := nums.insertionSort (fun x y => x ≤ y)
    let mid := a.length / 2
    if a.length % 2 ≠ 0 then some (a.getD mid 0 : Int)
    else some (((a.getD (mid - 1) 0 : Int) + (a.getD mid 0 : Int) : ℚ) / 2)

/-- The `stats` object of a summary. -/
structure Stats where
  avg : ℚ
  med : Option ℚ
  min : Int
  max : Int
deriving DecidableEq

/-- The counter object `b` of the two summaries. -/
structure BucketCounts where
  b1to5 : Nat
  b6to10 : Nat
  b11to20 : Nat
  b21plus : Nat
deriving DecidableEq

/-- The `buckets` object of a summary: the four rounded percentages. -/
structure Buckets where
  b1to5 : Int
  b6to10 : Int
  b11to20 : Int
  b21plus : Int
deriving DecidableEq

/-- The bucket loop `for (const g of next) ...`. -/
def bucketCounts (next : List Int) : BucketCounts :=
  next.foldl
    (fun b g =>
      if g ≤ 5 then { b with b1to5 := b.b1to5 + 1 }
      else if g ≤ 10 then { b with b6to10 := b.b6to10 + 1 }
      else if g ≤ 20 then { b with b11to20 := b.b11to20 + 1 }
      else { b with b21plus := b.b21plus + 1 })
    { b1to5 := 0, b6to10 := 0, b11to20 := 0, b21plus := 0 }

/-- `Math.round`: the nearest integer, halves going up. -/
def jsRound (x : ℚ) : Int :=
  ⌊x + 1 / 2⌋

/-- The percentage `Math.round((v / next.length) * 100)`: the quotient is
rounded to a double, then the product with 100 is rounded to a double, then
`Math.round` takes the nearest integer. -/
def bucketPercent (v : Nat) (len : Nat) : Int :=
  jsRound (toDouble (toDouble ((v : ℚ) / len) * 100))

/-- The `Object.fromEntries(Object.entries(b).map(...))` step. -/
def bucketPercents (b : BucketCounts) (len : Nat) : Buckets :=
  { b1to5 := bucketPercent b.b1to5 len
    b6to10 := bucketPercent b.b6to10 len
    b11to20 := bucketPercent b.b11to20 len
    b21plus := bucketPercent b.b21plus len }

/-- The four statistics `avg`, `med`, `min`, `max` of a non-empty list whose
first element is `x`. -/
def statsOf (x : Int) (rest : List Int) : Stats :=
  let next := x :: rest
  { avg := ((next.foldl (fun a b => a + b) 0 : Int) : ℚ) / next.length
    med := median next
    min := rest.foldl (fun a b => if b < a then b else a) x
    max := rest.foldl (fun a b => if b > a then b else a) x }

/-- What a summary reports about the buckets of the collected gaps `next`:
the four counters of the code are the numbers of gaps in the four disjoint
ranges, they add up to `count`, each reported percentage is `Math.round` of
the double product `(counter / count) * 100`, lies in `[0, 100]`, and is
within `1/2 + 2 ^ -45` of the exact percentage `100 * counter / count`. -/
def BucketReport (next : List Int) (count : Nat) (p : Buckets) : Prop :=
  (bucketCounts next).b1to5 = next.countP (fun g => decide (g ≤ 5)) ∧
  (bucketCounts next).b6to10 = next.countP (fun g => decide (5 < g ∧ g ≤ 10)) ∧
  (bucketCounts next).b11to20 = next.countP (fun g => decide (10 < g ∧ g ≤ 20)) ∧
  (bucketCounts next).b21plus = next.countP (fun g => decide (20 < g)) ∧
  (bucketCounts next).b1to5 + (bucketCounts next).b6to10 + (bucketCounts next).b11to20 +
    (bucketCounts next).b21plus = count ∧
  p.b1to5 = jsRound (toDouble (toDouble (((bucketCounts next).b1to5 : ℚ) / count) * 100)) ∧
  p.b6to10 = jsRound (toDouble (toDouble (((bucketCounts next).b6to10 : ℚ) / count) * 100)) ∧
  p.b11to20 = jsRound (toDouble (toDouble (((bucketCounts next).b11to20 : ℚ) / count) * 100)) ∧
  p.b21plus = jsRound (toDouble (toDouble (((bucketCounts next).b21plus : ℚ) / count) * 100)) ∧
  (0 ≤ p.b1to5 ∧ p.b1to5 ≤ 100) ∧ (0 ≤ p.b6to10 ∧ p.b6to10 ≤ 100) ∧
  (0 ≤ p.b11to20 ∧ p.b11to20 ≤ 100) ∧ (0 ≤ p.b21plus ∧ p.b21plus ≤ 100) ∧
  |(p.b1to5 : ℚ) - 100 * ((bucketCounts next).b1to5 : ℚ) / count| ≤ 1 / 2 + 1 / 2 ^ 45 ∧
  |(p.b6to10 : ℚ) - 100 * ((bucketCounts next).b6to10 : ℚ) / count| ≤ 1 / 2 + 1 / 2 ^ 45 ∧
  |(p.b11to20 : ℚ) - 100 * ((bucketCounts next).b11to20 : ℚ) / count| ≤ 1 / 2 + 1 / 2 ^ 45 ∧
  |(p.b21plus : ℚ) - 100 * ((bucketCounts next).b21plus : ℚ) / count| ≤ 1 / 2 + 1 / 2 ^ 45

/-- Result of `summarizeNextGapsForExactLag`. -/
structure LagSummary where
  lag : Int
  count : Nat
  stats : Option Stats
  buckets : Option Buckets
deriving DecidableEq

/-- The collecting loop of `summarizeNextGapsForExactLag`: for each index `i`
below `gaps.length - 1` whose gap is `lagX`, the gap at `i + 1`. -/
def nextGapsForLag (gaps : List Gap) (lagX : Int) : List Int :=
  match gaps with
  | g :: g' :: rest =>
    if g.gap = lagX then g'.gap :: nextGapsForLag (g' :: rest) lagX
    else nextGapsForLag (g' :: rest) lagX
  | _ => []

/-- The function `summarizeNextGapsForExactLag`. -/
def summarizeNextGapsForExactLag (gaps : List Gap) (lagX : Int) : LagSummary :=
  match nextGapsForLag gaps lagX with
  | [] => { lag := lagX, count := 0, stats := none, buckets := none }
  | x :: rest =>
    let next := x :: rest
    { lag := lagX
      count := next.length
      stats := some (statsOf x rest)
      buckets := some (bucketPercents (bucketCounts next) next.length) }

/-- Result of `summarizeAfterClusters`. -/
structure ClusterSummary where
  count : Nat
  stats : Option Stats
  buckets : Option Buckets
deriving DecidableEq

/-- The collecting loop of `summarizeAfterClusters`: for each cluster, the gap
at `endGapIndex + 1` when there is one. -/
def gapsAfterClusters (gaps : List Gap) (clusters : List Cluster) : List Int :=
  match clusters with
  | [] => []
  | cl :: rest =>
    match gaps[cl.endGapIndex + 1]? with
    | some nextGap => nextGap.gap :: gapsAfterClusters gaps rest
    | none => gapsAfterClusters gaps rest

/-- The function `summarizeAfterClusters`. -/
def summarizeAfterClusters (gaps : List Gap) (clusters : List Cluster) : ClusterSummary :=
  match gapsAfterClusters gaps clusters with
  | [] => { count := 0, stats := none, buckets := none }
  | x :: rest =>
    let after := x :: rest
    { count := after.length
      stats := some (statsOf x rest)
      buckets := some (bucketPercents (bucketCounts after) after.length) }

/-! ## The derived views of `App.jsx` -/

/-- The `windows` object of the file-only view. -/
structure Windows where
  w100 : WindowRate
  w200 : WindowRate
  w400 : WindowRate
  w800 : WindowRate
  w20000 : WindowRate
deriving DecidableEq

/-- The `classify` object of the file-only view. -/
structure Classify where
  w200 : String
  w400 : String
deriving DecidableEq

/-- The object returned by the `fileOnly` memo. -/
structure FileOnly where
  events : List Event
  gaps : List Gap
  baseEvery : Option ℚ
  windows : Windows
  classify : Classify
  lastTriple : Option Event
  currentLag : Int
  maxGap : Option Int
  over100 : List Gap
  clusters : List Cluster
  clusterNow : Option ClusterNow
  afterClusters : ClusterSummary
  last30 : List Event
deriving DecidableEq

/-- The body of the `fileOnly` memo from the line after
`const events = computeTriples(rawRows)` on: everything it returns, computed
from the rows and the events list. -/
def fileOnlyFrom (rawRows : List Row) (events : List Event) : FileOnly :=
  let gaps := gapsBetweenTriples events
  let baseEvery := baselineEvery rawRows events
  let w100 := rateInWindow rawRows events 100
  let w200 := rateInWindow rawRows events 200
  let w400 := rateInWindow rawRows events 400
  let w800 := rateInWindow rawRows events 800
  let w20000 := rateInWindow rawRows events 20000
  let lastTriple := events.getLast?
  let lastIdx : Int := (rawRows.length : Int) - 1
  let currentLag : Int :=
    match lastTriple with
    | some t => lastIdx - t.idx
    | none => rawRows.length
  let maxGap : Option Int :=
    match gaps.map (fun g => g.gap) with
    | [] => none
    | x :: rest => some (rest.foldl (fun a b => if b > a then b else a) x)
  let over100 := gaps.filter (fun g => g.gap > 100)
  let clusters := detectClusters gaps 18
  let clusterNow := currentClusterStatus events gaps clusters
  let afterClusters := summarizeAfterClusters gaps clusters
  let last30 := (events.drop (events.length - 30)).reverse
  { events := events
    gaps := gaps
    baseEvery := baseEvery
    windows := { w100 := w100, w200 := w200, w400 := w400, w800 := w800, w20000 := w20000 }
    classify := { w200 := classifyRate w200.every baseEvery, w400 := classifyRate w400.every baseEvery }
    lastTriple := lastTriple
    currentLag := currentLag
    maxGap := maxGap
    over100 := over100
    clusters := clusters
    clusterNow := clusterNow
    afterClusters := afterClusters
    last30 := last30 }

/-- The `fileOnly` memo of `App`: `null` without rows. -/
def fileOnly (H : Host) (rawRows : List Row) : Option FileOnly :=
  if rawRows.length = 0 then none
  else some (fileOnlyFrom rawRows (computeTriples H rawRows))

/-- A manual entry `{ drawNum, hasTriple, createdAt }`; `addManualEntry` only
stores finite draw numbers. -/
structure ManualEntry where
  drawNum : ℚ
  hasTriple : Bool
  createdAt : Nat
deriving DecidableEq

/-- The placeholder object that labels a manual triple. -/
structure ManualLabel where
  draw : String
  date : String
  value : String
  size : Nat
  missingCols : List Col
deriving DecidableEq

/-- The value of `simLastTripleLabel`: a file event or a placeholder. -/
inductive LastLabel where
  | file (e : Event)
  | manual (l : ManualLabel)
deriving DecidableEq

/-- The variables updated by the `for` loop of `currentView`. -/
structure SimState where
  virtualEvents : List Nat
  simLastTripleIdx : Int
  simLastTripleLabel : Option LastLabel
deriving DecidableEq

/-- The `for (let k = 0; k < manualSorted.length; k++)` loop of `currentView`,
from index `k` on; `rest` is `manualSorted` from `k`. -/
def simLoop (H : Host) (baseN : Nat) (rest : List ManualEntry) (k : Nat) (st : SimState) :
    SimState :=
  match rest with
  | [] => st
  | m :: tail =>
    if m.hasTriple then
      simLoop H baseN tail (k + 1)
        { virtualEvents := st.virtualEvents ++ [baseN + k]
          simLastTripleIdx := ((baseN + k : Nat) : Int)
          simLastTripleLabel :=
            some (.manual
              { draw := H.toStr (.num m.drawNum), date := "ידני", value := "—", size := 3,
                missingCols := [] }) }
    else simLoop H baseN tail (k + 1) st

/-- The inner function `simRate` of `currentView`, with the variables it
closes over as arguments. -/
def simRate (events : List Event) (virtualEvents : List Nat) (baseN simN : Nat)
    (windowSize : Int) (_fileWindow : WindowRate) : WindowRate :=
  let start : Int := max 0 ((simN : Int) - windowSize)
  let cFile : Nat :=
    events.foldl (fun c ev => if (ev.idx : Int) ≥ start ∧ ev.idx < baseN then c + 1 else c) 0
  let cVirtual : Nat :=
    virtualEvents.foldl (fun (c : Nat) (vi : Nat) => if (vi : Int) ≥ start ∧ vi < simN then c + 1 else c) 0
  let c := cFile + cVirtual
  let draws : Int := (simN : Int) - start
  { draws := draws, triples := c, every := if c = 0 then none else some ((draws : ℚ) / c) }

/-- The object returned by the `currentView` memo. -/
structure CurrentView where
  simLag : Int
  w100 : WindowRate
  w200 : WindowRate
  w400 : WindowRate
  baseEvery : Option ℚ
  classify200 : String
  classify400 : String
  manualCount : Nat
  manualNoCount : Nat
  manualYesCount : Nat
  simLastTripleLabel : Option LastLabel
deriving DecidableEq

/-- The sort `[...manualEntries].sort((a, b) => a.drawNum - b.drawNum)`: a
stable sort by ascending draw number. -/
def sortManual (manualEntries : List ManualEntry) : List ManualEntry :=
  manualEntries.insertionSort (fun a b => a.drawNum ≤ b.drawNum)

/-- The `currentView` memo of `App`, a function of its dependencies
`fileOnly`, `manualEntries` and `rawRows.length` (here `baseN`). -/
def currentView (H : Host) (fileOnly : Option FileOnly) (manualEntries : List ManualEntry)
    (baseN : Nat) : Option CurrentView :=
  match fileOnly with
  | none => none
  | some fo =>
    let manualSorted := sortManual manualEntries
    let virtualDraws := manualSorted.length
    let st0 : SimState :=
      { virtualEvents := []
        simLastTripleIdx :=
          match fo.lastTriple with
          | some t => (t.idx : Int)
          | none => -1
        simLastTripleLabel := fo.lastTriple.map LastLabel.file }
    let st := simLoop H baseN manualSorted 0 st0
    let simN := baseN + virtualDraws
    let simLag : Int :=
      if st.simLastTripleIdx ≥ 0 then (simN : Int) - 1 - st.simLastTripleIdx else simN
    let w100 := simRate fo.events st.virtualEvents baseN simN 100 fo.windows.w100
    let w200 := simRate fo.events st.virtualEvents baseN simN 200 fo.windows.w200
    let w400 := simRate fo.events st.virtualEvents baseN simN 400 fo.windows.w400
    let baseEvery := fo.baseEvery
    some
      { simLag := simLag
        w100 := w100
        w200 := w200
        w400 := w400
        baseEvery := baseEvery
        classify200 := classifyRate w200.every baseEvery
        classify400 := classifyRate w400.every baseEvery
        manualCount := manualSorted.length
        manualNoCount := (manualSorted.filter (fun x => !x.hasTriple)).length
        manualYesCount := (manualSorted.filter (fun x => x.hasTriple)).length
        simLastTripleLabel := st.simLastTripleLabel }

/-- The updater passed to `setManualEntries` by `addManualEntry`: drop the
entries with the same draw number, then push the new one. -/
def addManualEntryUpdate (dn : ℚ) (mHasTriple : Bool) (now : Nat) (prev : List ManualEntry) :
    List ManualEntry :=
  prev.filter (fun x => x.drawNum ≠ dn) ++
    [{ drawNum := dn, hasTriple := mHasTriple, createdAt := now }]

/-- The function `addManualEntry` on the manual-entry list: nothing happens
unless the draw field is a finite number and a yes/no choice was made. -/
def addManualEntry (H : Host) (mDraw : String) (mHasTriple : Option Bool) (now : Nat)
    (prev : List ManualEntry) : List ManualEntry :=
  match H.toNumber (H.trim mDraw) with
  | none => prev
  | some dn =>
    match mHasTriple with
    | none => prev
    | some b => addManualEntryUpdate dn b now prev

/-- The updater passed to `setManualEntries` by `onFile`: `prevMax` is
`fileMeta.maxDraw`, `maxDraw` is `maxDrawNumber` of the new sheet. -/
def onFileManualUpdate (prevMax maxDraw : Option ℚ) (prev : List ManualEntry) :
    List ManualEntry :=
  match prevMax, maxDraw with
  | some p, some m => if m > p then [] else prev
  | _, _ => prev

/-! ## The state of `App` touched by `onFile` -/

/-- The `fileMeta` state cell. -/
structure FileMeta where
  wasReversed : Bool
  method : String
  maxDraw : Option ℚ
deriving DecidableEq

/-- The state cells of `App` that `onFile` writes. -/
structure AppState where
  fileName : String
  rawRows : List Row
  fileMeta : FileMeta
  error : String
  manualEntries : List ManualEntry
  showManual : Bool
  mDraw : String
  mHasTriple : Option Bool
  showHist : Bool
deriving DecidableEq

/-- The `catch` branch of `onFile` for an error with message `msg`: the
loaded sheet is dropped, the manual entries stay. -/
def onFileFailed (msg : String) (st : AppState) : AppState :=
  { st with
    error := msg
    fileName := ""
    rawRows := []
    fileMeta := { wasReversed := false, method := "", maxDraw := none } }

/-- The function `onFile` from the sheet rows `json` on: `name` is the file
name, `missingCol` the first required column absent from the first row, and
`st` the state of the render in which the handler was created. -/
def onFile (H : Host) (name : String) (json : List Row) (missingCol : Option String)
    (st : AppState) : AppState :=
  if json.length = 0 then onFileFailed "הקובץ ריק" st
  else
    match missingCol with
    | some col => onFileFailed ("חסרה עמודה חובה: " ++ col) st
    | none =>
      let chrono := detectChronology H json
      let maxDraw := maxDrawNumber H json
      { fileName := name
        rawRows := chrono.rowsOldToNew
        fileMeta :=
          { wasReversed := chrono.wasReversed, method := chrono.method, maxDraw := maxDraw }
        error := ""
        manualEntries := onFileManualUpdate st.fileMeta.maxDraw maxDraw st.manualEntries
        showManual := false
        mDraw := ""
        mHasTriple := none
        showHist := false }

/-! ## The after-cluster report of `doExport` -/

/-- The function `bucketLine` of `App.jsx`; the numbers are written by
`String`. -/
def bucketLine (H : Host) (b : Option Buckets) : String :=
  match b with
  | none => "—"
  | some x =>
    "1–5: " ++ H.toStr (.num x.b1to5) ++ "%  |  6–10: " ++ H.toStr (.num x.b6to10) ++
      "%  |  11–20: " ++ H.toStr (.num x.b11to20) ++ "%  |  21+: " ++ H.toStr (.num x.b21plus) ++
      "%"

/-- The object `behaviorCluster` of `doExport`: its title, the number of
clusters found, and either a message or the four statistics with the
distribution line. -/
structure BehaviorCluster where
  title : String
  found : Nat
  message : Option String
  avg : Option ℚ
  med : Option ℚ
  min : Option Int
  max : Option Int
  distribution : Option String
deriving DecidableEq

/-- The computation of `behaviorCluster` in `doExport`. -/
def behaviorCluster (H : Host) (fileOnly : FileOnly) : BehaviorCluster :=
  let ac := fileOnly.afterClusters
  if fileOnly.clusters.length = 0 then
    { title := "התנהגות היסטורית – אשכול", found := 0, message := some "לא נמצאו אשכולות היסטוריים בקובץ לפי ההגדרה",
      avg := none, med := none, min := none, max := none, distribution := none }
  else if ac.count = 0 ∨ ac.stats = none then
    { title := "התנהגות היסטורית – אשכול", found := fileOnly.clusters.length, message := some "לא ניתן לחשב \"אחרי אשכול\" (אין נתונים לאחר סוף אשכול)",
      avg := none, med := none, min := none, max := none, distribution := none }
  else
    { title := "התנהגות היסטורית – אשכול", found := fileOnly.clusters.length, message := none,
      avg := ac.stats.map (fun st => st.avg), med := ac.stats.bind (fun st => st.med),
      min := ac.stats.map (fun st => st.min), max := ac.stats.map (fun st => st.max),
      distribution := some (bucketLine H ac.buckets) }

/-! ## Collections and statistics, as the specification words them -/

/-- The collection of the lag-conditioned summary in the words of the
specification: for each index `i` with `0 ≤ i < gaps.length - 1` and
`gaps[i].gap = L`, in index order, the gap at `i + 1`. -/
def specNextGaps (gaps : List Gap) (L : Int) : List Int :=
  (List.range (gaps.length - 1)).filterMap
    (fun i =>
      match gaps[i]?, gaps[i + 1]? with
      | some g, some g2 => if g.gap = L then some g2.gap else none
      | _, _ => none)

/-- What a summary reports about the statistics of the collected gaps `next`:
`count` is their number, `avg` their sum divided by `count`, `min` and `max`
their least and greatest elements, `med` the middle element of their
ascending arrangement `a` when `count` is odd and the average of its two
middle elements when `count` is even; `med` and `avg` lie between `min` and
`max`. -/
def StatsReport (next : List Int) (count : Nat) (st : Stats) : Prop :=
  count = next.length ∧
  st.avg = ((next.sum : Int) : ℚ) / count ∧
  (st.min ∈ next ∧ ∀ g ∈ next, st.min ≤ g) ∧
  (st.max ∈ next ∧ ∀ g ∈ next, g ≤ st.max) ∧
  (∃ a : List Int, a.Perm next ∧ a.Sorted (fun x y => x ≤ y)) ∧
  (∀ a : List Int, a.Perm next → a.Sorted (fun x y => x ≤ y) →
    ∃ m : ℚ, st.med = some m ∧
      (count % 2 = 1 → ∃ x : Int, a[count / 2]? = some x ∧ m = x) ∧
      (count % 2 = 0 → ∃ x y : Int, a[count / 2 - 1]? = some x ∧ a[count / 2]? = some y ∧
        m = ((x : ℚ) + y) / 2) ∧
      (st.min : ℚ) ≤ m ∧ m ≤ (st.max : ℚ)) ∧
  (st.min : ℚ) ≤ st.avg ∧ st.avg ≤ (st.max : ℚ)

/-! ## The simulated timeline, as the specification words it -/

/-- A placeholder event at position `idx`: what a manual entry with
`hasTriple = true` stands for on the simulated timeline. -/
def virtualEvent (idx : Nat) : Event :=
  { idx := idx, draw := "", drawNum := none, date := .missing, value := "—", size := 3,
    matchCols := [], missingCols := [],
    suits := { club := "", dia := "", heart := "", spade := "" } }

/-- The positions `baseN + j` of the entries with `hasTriple = true`, `j`
counting the entries of `entries` from `k` on. -/
def virtualPositions (baseN : Nat) (entries : List ManualEntry) (k : Nat) : List Nat :=
  (entries.enumFrom k).filterMap (fun jm => if jm.2.hasTriple then some (baseN + jm.1) else none)

/-- The events of the simulated timeline in the words of the specification:
the historical events, followed by one event at position `baseN + j` for
each `j`-th sorted manual entry with `hasTriple = true`. -/
def specTimelineEvents (events : List Event) (baseN : Nat) (sorted : List ManualEntry) :
    List Event :=
  events ++ (virtualPositions baseN sorted 0).map virtualEvent

/-! ## Sample inputs -/

/-- A host that leaves strings as they are and reads the one-digit numerals. -/
def sampleHost : Host where
  toStr := fun v =>
    match v with
    | .str s => s
    | _ => ""
  trim := id
  toUpperCase := id
  toNumber := fun s =>
    if s = "1" then some 1 else if s = "2" then some 2 else if s = "3" then some 3 else none
  serialTime := fun _ => none
  matchDMY := fun _ => none
  localTime := fun _ _ _ => none
  parseTime := fun _ => none

/-- A row without a triple. -/
def plainRow (t : Int) (n : String) : Row :=
  { date := .date (some t), draw := .str n, club := .str "7", dia := .str "8",
    heart := .str "7", spade := .str "9" }

/-- A row with three sevens. -/
def tripleRow (t : Int) (n : String) : Row :=
  { date := .date (some t), draw := .str n, club := .str "7", dia := .str "7",
    heart := .str "7", spade := .str "9" }

/-- Four events at positions 3, 4, 9 and 40. -/
def sampleEvents : List Event :=
  [virtualEvent 3, virtualEvent 4, virtualEvent 9, virtualEvent 40]

/-- The cluster of `sampleEvents` for the threshold 18. -/
def sampleCluster : Cluster :=
  { startEvent := virtualEvent 3, endEvent := virtualEvent 9, startGapIndex := 0,
    endGapIndex := 1, tripleCount := 3, drawSpan := 6, gaps := [1, 5] }

/-- Ten rows, the fourth and fifth of which hold three sevens. -/
def scenarioRows : List Row :=
  [plainRow 1 "1", plainRow 2 "2", plainRow 3 "3", tripleRow 4 "4", tripleRow 5 "5",
    plainRow 6 "6", plainRow 7 "7", plainRow 8 "8", plainRow 9 "9", plainRow 10 "10"]

/-- Two rows without dates, numbered 2 and 1. -/
def undatedRows : List Row :=
  [{ date := .missing, draw := .str "2", club := .missing, dia := .missing, heart := .missing,
     spade := .missing },
   { date := .missing, draw := .str "1", club := .missing, dia := .missing, heart := .missing,
     spade := .missing }]

/-- Three gaps 1, 7, 1. -/
def sampleGaps : List Gap :=
  [⟨virtualEvent 0, virtualEvent 1, 1⟩, ⟨virtualEvent 1, virtualEvent 8, 7⟩,
    ⟨virtualEvent 8, virtualEvent 9, 1⟩]

/-- Eighty-one events whose gaps are 1, 2 (23 times), then 1, 30 (17
times): the gap 1 is followed 23 times by 2 and 17 times by 30. -/
def fortyEvents : List Event :=
  ((List.range 23).flatMap (fun k => [3 * k, 3 * k + 1]) ++
    (List.range 17).flatMap (fun j => [69 + 31 * j, 69 + 31 * j + 1]) ++ [596]).map virtualEvent

/-! ## Counting loops -/

/-- A counting loop is a `countP`. -/
theorem foldl_count_eq {α : Type} (p : α → Prop) [DecidablePred p] (l : List α) (c0 : Nat) :
    l.foldl (fun c x => if p x then c + 1 else c) c0 = c0 + l.countP (fun x => decide (p x)) := by
  induction l generalizing c0 with
  | nil => simp
  | cons x xs ih =>
    simp only [List.foldl_cons, List.countP_cons]
    rw [ih]
    by_cases hx : p x
    · simp [hx]; omega
    · simp [hx]

/-- The `triples` field of `rateInWindow` as a count. -/
theorem rateInWindow_triples (rows : List Row) (events : List Event) (W : Int) :
    (rateInWindow rows events W).triples =
      events.countP (fun ev =>
        decide ((ev.idx : Int) ≥ max 0 ((rows.length : Int) - W) ∧ (ev.idx : Int) < rows.length)) := by
  simp only [rateInWindow]
  rw [foldl_count_eq]
  simp

/-- With no virtual events and `simN = baseN`, `simRate` is `rateInWindow`. -/
theorem simRate_nil (rows : List Row) (events : List Event) (W : Int) (fw : WindowRate) :
    simRate events [] rows.length rows.length W fw = rateInWindow rows events W := by
  simp [simRate, rateInWindow]

/-! ## C1: the overlay without manual entries -/

/-- C1. With an empty manual-entry list the overlay of a non-empty sheet
returns the file-only current state: `simLag` is `currentLag`; `w100`, `w200`
and `w400` are the file-only `rateInWindow` results for 100, 200 and 400 draws
(all three fields); `baseEvery` and the two `classifyRate` labels are those of
the file-only view. -/
theorem currentView_no_manual (H : Host) (rows : List Row) (hrows : rows ≠ []) :
    ∃ fo v, fileOnly H rows = some fo ∧
      currentView H (fileOnly H rows) [] rows.length = some v ∧
      v.simLag = fo.currentLag ∧
      v.w100 = fo.windows.w100 ∧ v.w100 = rateInWindow rows (computeTriples H rows) 100 ∧
      v.w200 = fo.windows.w200 ∧ v.w200 = rateInWindow rows (computeTriples H rows) 200 ∧
      v.w400 = fo.windows.w400 ∧ v.w400 = rateInWindow rows (computeTriples H rows) 400 ∧
      v.baseEvery = fo.baseEvery ∧
      v.classify200 = fo.classify.w200 ∧ v.classify400 = fo.classify.w400 := by
  have hlen : rows.length ≠ 0 := by
    intro h0
    exact hrows (List.length_eq_zero.mp h0)
  have hfo : fileOnly H rows = some (fileOnlyFrom rows (computeTriples H rows)) := by
    simp [fileOnly, hlen]
  have hw : ∀ W fw, simRate (fileOnlyFrom rows (computeTriples H rows)).events [] rows.length
      rows.length W fw = rateInWindow rows (computeTriples H rows) W := by
    intro W fw
    exact simRate_nil rows _ W fw
  rw [hfo]
  simp only [currentView, sortManual, List.insertionSort, List.foldr_nil, simLoop,
    List.length_nil, Nat.add_zero, hw]
  refine ⟨_, _, rfl, rfl, ?_, rfl, rfl, rfl, rfl, rfl, rfl, rfl, rfl, rfl⟩
  simp only [fileOnlyFrom]
  cases (computeTriples H rows).getLast? with
  | none => simp
  | some t => simp

/-- C1 at a sheet of three rows, the second one a triple. -/
theorem currentView_no_manual_witness :
    [plainRow 10 "1", tripleRow 20 "2", plainRow 30 "3"] ≠ [] ∧
    ∃ fo v, fileOnly sampleHost [plainRow 10 "1", tripleRow 20 "2", plainRow 30 "3"] = some fo ∧
      currentView sampleHost
        (fileOnly sampleHost [plainRow 10 "1", tripleRow 20 "2", plainRow 30 "3"]) [] 3 = some v ∧
      v.simLag = fo.currentLag ∧ v.w100 = fo.windows.w100 ∧ v.w200 = fo.windows.w200 ∧
      v.w400 = fo.windows.w400 ∧ v.baseEvery = fo.baseEvery ∧
      v.classify200 = fo.classify.w200 ∧ v.classify400 = fo.classify.w400 := by
  refine ⟨by simp, ?_⟩
  obtain ⟨fo, v, h1, h2, h3, h4, _, h5, _, h6, _, h7, h8, h9⟩ :=
    currentView_no_manual sampleHost [plainRow 10 "1", tripleRow 20 "2", plainRow 30 "3"]
      (by simp)
  exact ⟨fo, v, h1, h2, h3, h4, h5, h6, h7, h8, h9⟩

/-! ## C2: the overlay against the file-only computation on the simulated timeline -/

/-- The virtual events collected by the overlay loop. -/
theorem simLoop_virtualEvents (H : Host) (baseN : Nat) (rest : List ManualEntry) (k : Nat)
    (st : SimState) :
    (simLoop H baseN rest k st).virtualEvents =
      st.virtualEvents ++ virtualPositions baseN rest k := by
  induction rest generalizing k st with
  | nil => simp [simLoop, virtualPositions]
  | cons m tail ih =>
    unfold simLoop
    by_cases hm : m.hasTriple = true
    · simp only [hm, if_true]
      rw [ih]
      simp [virtualPositions, List.enumFrom_cons, List.filterMap_cons, hm]
    · simp only [hm, Bool.false_eq_true, if_false]
      rw [ih]
      simp [virtualPositions, List.enumFrom_cons, List.filterMap_cons, hm]

/-- The index of the last simulated triple after the overlay loop: the last
virtual position when there is one, else the index before the loop. -/
theorem simLoop_lastIdx (H : Host) (baseN : Nat) (rest : List ManualEntry) (k : Nat)
    (st : SimState) :
    (simLoop H baseN rest k st).simLastTripleIdx =
      match (virtualPositions baseN rest k).getLast? with
      | some q => (q : Int)
      | none => st.simLastTripleIdx := by
  induction rest generalizing k st with
  | nil => simp [simLoop, virtualPositions]
  | cons m tail ih =>
    unfold simLoop
    by_cases hm : m.hasTriple = true
    · simp only [hm, if_true]
      rw [ih]
      have hv : virtualPositions baseN (m :: tail) k =
          (baseN + k) :: virtualPositions baseN tail (k + 1) := by
        simp [virtualPositions, List.enumFrom_cons, List.filterMap_cons, hm]
      rw [hv]
      cases hq : virtualPositions baseN tail (k + 1) with
      | nil => simp
      | cons a l => rw [List.getLast?_cons_cons, List.getLast?_eq_getLast _ (List.cons_ne_nil a l)]
    · simp only [hm, Bool.false_eq_true, if_false]
      rw [ih]
      have hv : virtualPositions baseN (m :: tail) k = virtualPositions baseN tail (k + 1) := by
        simp [virtualPositions, List.enumFrom_cons, List.filterMap_cons, hm]
      rw [hv]

/-- Every virtual position lies in `[baseN, baseN + k + entries.length)`. -/
theorem virtualPositions_bounds (baseN : Nat) (entries : List ManualEntry) (k : Nat) :
    ∀ q ∈ virtualPositions baseN entries k, baseN + k ≤ q ∧ q < baseN + k + entries.length := by
  induction entries generalizing k with
  | nil => simp [virtualPositions]
  | cons m tail ih =>
    intro q hq
    by_cases hm : m.hasTriple = true
    · have hv : virtualPositions baseN (m :: tail) k =
          (baseN + k) :: virtualPositions baseN tail (k + 1) := by
        simp [virtualPositions, List.enumFrom_cons, List.filterMap_cons, hm]
      rw [hv] at hq
      rcases List.mem_cons.mp hq with h | h
      · subst h
        simp
      · have := ih (k + 1) q h
        simp only [List.length_cons]
        omega
    · have hv : virtualPositions baseN (m :: tail) k = virtualPositions baseN tail (k + 1) := by
        simp [virtualPositions, List.enumFrom_cons, List.filterMap_cons, hm]
      rw [hv] at hq
      have := ih (k + 1) q hq
      simp only [List.length_cons]
      omega

/-- The stable sort of entries with distinct draw numbers is the strictly
ascending arrangement. -/
theorem sortManual_eq_of_sorted (manual sorted : List ManualEntry)
    (hperm : sorted.Perm manual)
    (hsorted : sorted.Sorted (fun a b => a.drawNum < b.drawNum)) :
    sortManual manual = sorted := by
  have hnodup : sorted.Pairwise (fun a b => a.drawNum ≠ b.drawNum) :=
    hsorted.imp (fun h => ne_of_lt h)
  have hnodup2 : (sortManual manual).Pairwise (fun a b => a.drawNum ≠ b.drawNum) := by
    have hp : (sortManual manual).Perm sorted :=
      (List.perm_insertionSort _ manual).trans hperm.symm
    exact hp.symm.pairwise hnodup (fun h => Ne.symm h)
  have hle : (sortManual manual).Sorted (fun a b => a.drawNum ≤ b.drawNum) := by
    haveI : IsTotal ManualEntry (fun a b => a.drawNum ≤ b.drawNum) :=
      ⟨fun a b => le_total a.drawNum b.drawNum⟩
    haveI : IsTrans ManualEntry (fun a b => a.drawNum ≤ b.drawNum) :=
      ⟨fun a b c h1 h2 => le_trans h1 h2⟩
    exact List.sorted_insertionSort (fun a b => a.drawNum ≤ b.drawNum) manual
  have hlt : (sortManual manual).Sorted (fun a b => a.drawNum < b.drawNum) := by
    have := List.Pairwise.and hle hnodup2
    exact this.imp (fun h => lt_of_le_of_ne h.1 h.2)
  haveI : IsAntisymm ManualEntry (fun a b => a.drawNum < b.drawNum) :=
    ⟨fun a b h1 h2 => absurd (lt_trans h1 h2) (lt_irrefl _)⟩
  exact List.eq_of_perm_of_sorted ((List.perm_insertionSort _ manual).trans hperm.symm) hlt hsorted

/-- The overlay rate is the file-only rate on the simulated timeline. -/
theorem simRate_eq_rateInWindow (rows rows2 : List Row) (events : List Event)
    (sorted : List ManualEntry) (W : Int) (fw : WindowRate)
    (hidx : ∀ e ∈ events, e.idx < rows.length)
    (hlen : rows2.length = rows.length + sorted.length) :
    simRate events (virtualPositions rows.length sorted 0) rows.length
        (rows.length + sorted.length) W fw =
      rateInWindow rows2 (specTimelineEvents events rows.length sorted) W := by
  have hc : (events.countP fun ev =>
        decide ((ev.idx : Int) ≥ max 0 (((rows.length + sorted.length : Nat) : Int) - W) ∧
          ev.idx < rows.length)) =
      events.countP fun ev =>
        decide ((ev.idx : Int) ≥ max 0 (((rows.length + sorted.length : Nat) : Int) - W) ∧
          (ev.idx : Int) < ((rows.length + sorted.length : Nat) : Int)) := by
    apply List.countP_congr
    intro e he
    have := hidx e he
    simp only [decide_eq_true_eq]
    constructor
    · rintro ⟨h1, h2⟩
      exact ⟨h1, by omega⟩
    · rintro ⟨h1, _⟩
      exact ⟨h1, this⟩
  simp only [simRate, rateInWindow, specTimelineEvents, hlen, List.foldl_append]
  rw [foldl_count_eq, foldl_count_eq, foldl_count_eq, foldl_count_eq, hc]
  simp only [Nat.zero_add, List.countP_map]
  have hv : (List.countP (fun vi : Nat =>
        decide ((vi : Int) ≥ max 0 (((rows.length + sorted.length : Nat) : Int) - W) ∧
          vi < rows.length + sorted.length)) (virtualPositions rows.length sorted 0)) =
      List.countP ((fun ev : Event =>
        decide ((ev.idx : Int) ≥ max 0 (((rows.length + sorted.length : Nat) : Int) - W) ∧
          (ev.idx : Int) < ((rows.length + sorted.length : Nat) : Int))) ∘ virtualEvent)
        (virtualPositions rows.length sorted 0) := by
    apply List.countP_congr
    intro q _
    simp [virtualEvent]
    intro _
    omega
  rw [hv]

/-- The file-only `currentLag` of a timeline, read off its last event. -/
theorem fileOnlyFrom_currentLag (rows : List Row) (events : List Event) :
    (fileOnlyFrom rows events).currentLag =
      match events.getLast? with
      | some t => (rows.length : Int) - 1 - t.idx
      | none => rows.length := by
  simp only [fileOnlyFrom]

/-- C2. For historical events with `idx < baseN` and manual entries with
pairwise distinct draw numbers, `sorted` being their strictly ascending
arrangement, the overlay agrees with the file-only computation on the
simulated timeline of `baseN + k` rows whose events are the historical ones
followed by one event at `baseN + j` for each `j`-th sorted entry with
`hasTriple = true`: `simLag` is its `currentLag`, the three window rates (and
`simRate` at every window size) are its `rateInWindow`, `simLag` is `simN`
when the timeline has no event, and the baseline is the file-only one. -/
theorem currentView_refines_timeline (H : Host) (rows rows2 : List Row) (events : List Event)
    (manual sorted : List ManualEntry)
    (hidx : ∀ e ∈ events, e.idx < rows.length)
    (hperm : sorted.Perm manual)
    (hsorted : sorted.Sorted (fun a b => a.drawNum < b.drawNum))
    (hlen : rows2.length = rows.length + sorted.length) :
    ∃ v, currentView H (some (fileOnlyFrom rows events)) manual rows.length = some v ∧
      v.simLag =
        (fileOnlyFrom rows2 (specTimelineEvents events rows.length sorted)).currentLag ∧
      v.w100 = rateInWindow rows2 (specTimelineEvents events rows.length sorted) 100 ∧
      v.w200 = rateInWindow rows2 (specTimelineEvents events rows.length sorted) 200 ∧
      v.w400 = rateInWindow rows2 (specTimelineEvents events rows.length sorted) 400 ∧
      (∀ (W : Int) (fw : WindowRate) (st : SimState), st.virtualEvents = [] →
        simRate events (simLoop H rows.length (sortManual manual) 0 st).virtualEvents rows.length
            (rows.length + (sortManual manual).length) W fw =
          rateInWindow rows2 (specTimelineEvents events rows.length sorted) W) ∧
      (specTimelineEvents events rows.length sorted = [] →
        v.simLag = ((rows.length + sorted.length : Nat) : Int)) ∧
      v.baseEvery = (fileOnlyFrom rows events).baseEvery ∧
      v.baseEvery = baselineEvery rows events := by
  have hs : sortManual manual = sorted := sortManual_eq_of_sorted manual sorted hperm hsorted
  have hrate : ∀ (W : Int) (fw : WindowRate) (st : SimState), st.virtualEvents = [] →
      simRate events (simLoop H rows.length sorted 0 st).virtualEvents rows.length
          (rows.length + sorted.length) W fw =
        rateInWindow rows2 (specTimelineEvents events rows.length sorted) W := by
    intro W fw st hst
    rw [simLoop_virtualEvents, hst, List.nil_append]
    exact simRate_eq_rateInWindow rows rows2 events sorted W fw hidx hlen
  have hlag : (if (simLoop H rows.length sorted 0
          { virtualEvents := []
            simLastTripleIdx :=
              match (fileOnlyFrom rows events).lastTriple with
              | some t => (t.idx : Int)
              | none => -1
            simLastTripleLabel :=
              (fileOnlyFrom rows events).lastTriple.map LastLabel.file }).simLastTripleIdx ≥ 0
        then ((rows.length + sorted.length : Nat) : Int) - 1 -
          (simLoop H rows.length sorted 0
            { virtualEvents := []
              simLastTripleIdx :=
                match (fileOnlyFrom rows events).lastTriple with
                | some t => (t.idx : Int)
                | none => -1
              simLastTripleLabel :=
                (fileOnlyFrom rows events).lastTriple.map LastLabel.file }).simLastTripleIdx
        else ((rows.length + sorted.length : Nat) : Int)) =
      (fileOnlyFrom rows2 (specTimelineEvents events rows.length sorted)).currentLag := by
    rw [simLoop_lastIdx, fileOnlyFrom_currentLag, hlen]
    have hlt : (fileOnlyFrom rows events).lastTriple = events.getLast? := rfl
    rw [hlt]
    simp only [specTimelineEvents]
    cases hv : virtualPositions rows.length sorted 0 with
    | nil =>
      simp only [List.getLast?_nil, List.map_nil, List.append_nil]
      cases events.getLast? with
      | none => simp
      | some t => simp
    | cons a l =>
      rw [List.getLast?_append, List.getLast?_map,
        List.getLast?_eq_getLast _ (List.cons_ne_nil a l)]
      simp [virtualEvent]
  refine ⟨_, rfl, ?_, ?_, ?_, ?_, ?_, ?_, rfl, rfl⟩
  · simp only [hs]
    exact hlag
  · simp only [hs]
    exact hrate 100 _ _ rfl
  · simp only [hs]
    exact hrate 200 _ _ rfl
  · simp only [hs]
    exact hrate 400 _ _ rfl
  · rw [hs]
    exact hrate
  · intro hnil
    simp only [hs]
    rw [hlag, fileOnlyFrom_currentLag, hnil, hlen]
    simp

/-- C2 at a sheet of three rows (one triple) with two manual entries given
out of order. -/
theorem currentView_refines_timeline_witness :
    (∀ e ∈ computeTriples sampleHost [plainRow 10 "1", tripleRow 20 "2", plainRow 30 "3"],
      e.idx < [plainRow 10 "1", tripleRow 20 "2", plainRow 30 "3"].length) ∧
    List.Perm [(⟨4, false, 0⟩ : ManualEntry), ⟨5, true, 1⟩] [⟨5, true, 1⟩, ⟨4, false, 0⟩] ∧
    List.Sorted (fun a b : ManualEntry => a.drawNum < b.drawNum) [⟨4, false, 0⟩, ⟨5, true, 1⟩] ∧
    ∃ v, currentView sampleHost
        (some (fileOnlyFrom [plainRow 10 "1", tripleRow 20 "2", plainRow 30 "3"]
          (computeTriples sampleHost [plainRow 10 "1", tripleRow 20 "2", plainRow 30 "3"])))
        [⟨5, true, 1⟩, ⟨4, false, 0⟩] 3 = some v ∧
      v.simLag = (fileOnlyFrom (List.replicate 5 (plainRow 0 ""))
        (specTimelineEvents
          (computeTriples sampleHost [plainRow 10 "1", tripleRow 20 "2", plainRow 30 "3"]) 3
          [⟨4, false, 0⟩, ⟨5, true, 1⟩])).currentLag := by
  have hidx : ∀ e ∈ computeTriples sampleHost [plainRow 10 "1", tripleRow 20 "2", plainRow 30 "3"],
      e.idx < [plainRow 10 "1", tripleRow 20 "2", plainRow 30 "3"].length := by
    decide
  have hperm : List.Perm [(⟨4, false, 0⟩ : ManualEntry), ⟨5, true, 1⟩]
      [⟨5, true, 1⟩, ⟨4, false, 0⟩] := List.Perm.swap _ _ _
  have hsorted : List.Sorted (fun a b : ManualEntry => a.drawNum < b.drawNum)
      [⟨4, false, 0⟩, ⟨5, true, 1⟩] := by
    simp [List.Sorted]
    norm_num
  obtain ⟨v, h1, h2, _⟩ :=
    currentView_refines_timeline sampleHost [plainRow 10 "1", tripleRow 20 "2", plainRow 30 "3"]
      (List.replicate 5 (plainRow 0 ""))
      (computeTriples sampleHost [plainRow 10 "1", tripleRow 20 "2", plainRow 30 "3"])
      [⟨5, true, 1⟩, ⟨4, false, 0⟩] [⟨4, false, 0⟩, ⟨5, true, 1⟩] hidx hperm hsorted (by simp)
  exact ⟨hidx, hperm, hsorted, v, h1, h2⟩

/-! ## C7: nested trailing windows -/

/-- C7. For fixed rows and events, a larger window never counts fewer
triples: `W1 ≤ W2` gives `rateInWindow(rows, events, W1).triples ≤
rateInWindow(rows, events, W2).triples`. -/
theorem rateInWindow_triples_mono (rows : List Row) (events : List Event) (W1 W2 : Int)
    (hW : W1 ≤ W2) :
    (rateInWindow rows events W1).triples ≤ (rateInWindow rows events W2).triples := by
  rw [rateInWindow_triples, rateInWindow_triples]
  apply List.countP_mono_left
  intro e _ he
  simp only [decide_eq_true_eq] at he ⊢
  refine ⟨le_trans ?_ he.1, he.2⟩
  exact max_le_max (le_refl 0) (by omega)

/-- C7 at the windows 1 and 2 of a three-row sheet. -/
theorem rateInWindow_triples_mono_witness :
    (1 : Int) ≤ 2 ∧
    (rateInWindow [plainRow 10 "1", tripleRow 20 "2", plainRow 30 "3"]
        (computeTriples sampleHost [plainRow 10 "1", tripleRow 20 "2", plainRow 30 "3"]) 1).triples ≤
      (rateInWindow [plainRow 10 "1", tripleRow 20 "2", plainRow 30 "3"]
        (computeTriples sampleHost [plainRow 10 "1", tripleRow 20 "2", plainRow 30 "3"]) 2).triples :=
  ⟨by decide, rateInWindow_triples_mono _ _ 1 2 (by decide)⟩

/-! ## Events come out in ascending position -/

/-- Every event found from position `k` on has `idx ≥ k`. -/
theorem computeTriplesFrom_ge (H : Host) (k : Nat) (rows : List Row) :
    ∀ e ∈ computeTriplesFrom H k rows, k ≤ e.idx := by
  induction rows generalizing k with
  | nil => simp [computeTriplesFrom]
  | cons r rest ih =>
    intro e he
    unfold computeTriplesFrom at he
    cases ht : isTripleRow H r with
    | none =>
      rw [ht] at he
      have := ih (k + 1) e he
      omega
    | some t =>
      rw [ht] at he
      rcases List.mem_cons.mp he with h | h
      · subst h
        exact le_refl _
      · have := ih (k + 1) e h
        omega

/-- The events found from position `k` on have strictly increasing `idx`. -/
theorem computeTriplesFrom_sorted (H : Host) (k : Nat) (rows : List Row) :
    (computeTriplesFrom H k rows).Pairwise (fun a b => a.idx < b.idx) := by
  induction rows generalizing k with
  | nil => simp [computeTriplesFrom]
  | cons r rest ih =>
    unfold computeTriplesFrom
    cases ht : isTripleRow H r with
    | none => exact ih (k + 1)
    | some t =>
      refine List.Pairwise.cons ?_ (ih (k + 1))
      intro e he
      have := computeTriplesFrom_ge H (k + 1) rest e he
      show k < e.idx
      omega

/-! ## C5: gaps -/

/-- One gap per consecutive pair of events. -/
theorem gapsBetweenTriples_length (events : List Event) :
    (gapsBetweenTriples events).length = events.length - 1 := by
  induction events with
  | nil => simp [gapsBetweenTriples]
  | cons a rest ih =>
    cases rest with
    | nil => simp [gapsBetweenTriples]
    | cons b rest2 =>
      simp only [gapsBetweenTriples, List.length_cons] at ih ⊢
      omega

/-- The gap at index `i` joins the events at `i` and `i + 1`. -/
theorem gapsBetweenTriples_getElem? (events : List Event) (i : Nat) (g : Gap)
    (hg : (gapsBetweenTriples events)[i]? = some g) :
    ∃ a b, events[i]? = some a ∧ events[i + 1]? = some b ∧
      g = { «from» := a, «to» := b, gap := (b.idx : Int) - a.idx } := by
  induction events generalizing i with
  | nil => simp [gapsBetweenTriples] at hg
  | cons a rest ih =>
    cases rest with
    | nil => simp [gapsBetweenTriples] at hg
    | cons b rest2 =>
      simp only [gapsBetweenTriples] at hg
      cases i with
      | zero =>
        simp only [List.getElem?_cons_zero, Option.some.injEq] at hg
        exact ⟨a, b, by simp, by simp, hg.symm⟩
      | succ j =>
        simp only [List.getElem?_cons_succ] at hg
        obtain ⟨x, y, hx, hy, hxy⟩ := ih j hg
        exact ⟨x, y, by simpa using hx, by simpa using hy, hxy⟩

/-- C5. For every row list, with `events = computeTriples(rows)` and
`gaps = gapsBetweenTriples(events)`: `gaps.length = events.length - 1`, `gaps`
is empty when there are zero or one events, the gap at index `i` is
`events[i+1].idx - events[i].idx` (from `events[i]` to `events[i+1]`), and
every gap is at least 1. -/
theorem gaps_count_and_positive (H : Host) (rows : List Row) :
    (gapsBetweenTriples (computeTriples H rows)).length = (computeTriples H rows).length - 1 ∧
    ((computeTriples H rows).length ≤ 1 → gapsBetweenTriples (computeTriples H rows) = []) ∧
    (∀ i g, (gapsBetweenTriples (computeTriples H rows))[i]? = some g →
      ∃ a b, (computeTriples H rows)[i]? = some a ∧ (computeTriples H rows)[i + 1]? = some b ∧
        g.«from» = a ∧ g.«to» = b ∧ g.gap = (b.idx : Int) - a.idx) ∧
    (∀ i, i + 1 < (computeTriples H rows).length →
      ∃ g, (gapsBetweenTriples (computeTriples H rows))[i]? = some g) ∧
    ∀ g ∈ gapsBetweenTriples (computeTriples H rows), 1 ≤ g.gap := by
  have hlen := gapsBetweenTriples_length (computeTriples H rows)
  have hget : ∀ i g, (gapsBetweenTriples (computeTriples H rows))[i]? = some g →
      ∃ a b, (computeTriples H rows)[i]? = some a ∧ (computeTriples H rows)[i + 1]? = some b ∧
        g.«from» = a ∧ g.«to» = b ∧ g.gap = (b.idx : Int) - a.idx := by
    intro i g hg
    obtain ⟨a, b, ha, hb, hab⟩ := gapsBetweenTriples_getElem? _ i g hg
    exact ⟨a, b, ha, hb, by rw [hab], by rw [hab], by rw [hab]⟩
  refine ⟨hlen, ?_, hget, ?_, ?_⟩
  · intro h1
    apply List.eq_nil_of_length_eq_zero
    omega
  · intro i hi
    have hi2 : i < (gapsBetweenTriples (computeTriples H rows)).length := by omega
    exact ⟨_, List.getElem?_eq_getElem hi2⟩
  · intro g hg
    obtain ⟨i, hi, hgi⟩ := List.getElem_of_mem hg
    have hgi2 : (gapsBetweenTriples (computeTriples H rows))[i]? = some g := by
      rw [List.getElem?_eq_getElem hi, hgi]
    obtain ⟨a, b, ha, hb, _, _, hgap⟩ := hget i g hgi2
    have hsorted := computeTriplesFrom_sorted H 0 rows
    have hlt : a.idx < b.idx := by
      have hia : i < (computeTriples H rows).length := by
        by_contra hc
        rw [List.getElem?_eq_none (by omega)] at ha
        exact absurd ha (by simp)
      have hib : i + 1 < (computeTriples H rows).length := by
        by_contra hc
        rw [List.getElem?_eq_none (by omega)] at hb
        exact absurd hb (by simp)
      have h := List.pairwise_iff_getElem.mp hsorted i (i + 1) hia hib (by omega)
      rw [List.getElem?_eq_getElem hia] at ha
      rw [List.getElem?_eq_getElem hib] at hb
      simp only [Option.some.injEq] at ha hb
      rw [← ha, ← hb]
      exact h
    rw [hgap]
    omega

/-! ## C3 and C4: clusters -/

/-- Every gap that the inner loop steps over is at most the threshold. -/
theorem growEnd_within (gaps : List Gap) (T : Int) (e : Nat) (h : e < gaps.length) :
    ∀ j g, e < j → j ≤ (growEnd gaps T e h).1 → gaps[j]? = some g → g.gap ≤ T := by
  induction e, h using growEnd.induct gaps T with
  | case1 e h h1 hle ih =>
    intro j g hej hj hg
    rw [growEnd] at hj
    simp only [h1, hle, dite_true, if_true] at hj
    by_cases hje : j = e + 1
    · subst hje
      rw [List.getElem?_eq_getElem h1] at hg
      simp only [Option.some.injEq] at hg
      rw [← hg]
      exact hle
    · exact ih j g (by omega) hj hg
  | case2 e h h1 hnle =>
    intro j g hej hj hg
    rw [growEnd] at hj
    simp only [h1, hnle, dite_true, if_false] at hj
    omega
  | case3 e h h1 =>
    intro j g hej hj hg
    rw [growEnd] at hj
    simp only [h1, dite_false] at hj
    omega

/-- The inner loop stops at the end of the list or before a gap above the
threshold. -/
theorem growEnd_stop (gaps : List Gap) (T : Int) (e : Nat) (h : e < gaps.length) :
    ∀ g, gaps[(growEnd gaps T e h).1 + 1]? = some g → T < g.gap := by
  induction e, h using growEnd.induct gaps T with
  | case1 e h h1 hle ih =>
    intro g hg
    rw [growEnd] at hg
    simp only [h1, hle, dite_true, if_true] at hg
    exact ih g hg
  | case2 e h h1 hnle =>
    intro g hg
    rw [growEnd] at hg
    simp only [h1, hnle, dite_true, if_false] at hg
    rw [List.getElem?_eq_getElem h1] at hg
    simp only [Option.some.injEq] at hg
    rw [← hg]
    omega
  | case3 e h h1 =>
    intro g hg
    rw [growEnd] at hg
    simp only [h1, dite_false] at hg
    rw [List.getElem?_eq_none (by omega)] at hg
    exact absurd hg (by simp)

/-- Every cluster found from gap index `i` on starts at or after `i` and has
the cluster shape. -/
theorem detectLoop_shape (gaps : List Gap) (T : Int) (i : Nat) :
    ∀ c ∈ detectLoop gaps T i, i ≤ c.startGapIndex ∧ ClusterShape gaps T c := by
  induction i using detectLoop.induct gaps T with
  | case1 x h hne ih =>
    intro c hc
    rw [detectLoop, dif_pos h, if_pos hne] at hc
    have := ih c hc
    exact ⟨by omega, this.2⟩
  | case2 x h heq r endGapIndex hend ih =>
    intro c hc
    have h1 := (growEnd gaps T x h).2.1
    have h2 := (growEnd gaps T x h).2.2
    rw [detectLoop, dif_pos h, if_neg heq] at hc
    rcases List.mem_cons.mp hc with hc1 | hc2
    · subst hc1
      refine ⟨le_refl _, h1, h2, ?_, ?_, ?_, ?_, rfl, ?_, rfl⟩
      · exact ⟨gaps[x], List.getElem?_eq_getElem h, by simpa using heq, rfl⟩
      · exact ⟨gaps[endGapIndex], List.getElem?_eq_getElem hend, rfl⟩
      · exact growEnd_within gaps T x h
      · exact growEnd_stop gaps T x h
      · simp only [List.length_map, List.length_drop, List.length_take]
        omega
    · have := ih c hc2
      exact ⟨by omega, this.2⟩
  | case3 x h =>
    intro c hc
    rw [detectLoop, dif_neg h] at hc
    simp at hc

/-- With a threshold of at least 1, each cluster found from `i` on starts more
than one gap index after the end of every cluster listed before it. -/
theorem detectLoop_separated (gaps : List Gap) (T : Int) (hT : 1 ≤ T) (i : Nat) :
    (detectLoop gaps T i).Pairwise (fun c1 c2 => c1.endGapIndex + 1 < c2.startGapIndex) := by
  induction i using detectLoop.induct gaps T with
  | case1 x h hne ih =>
    rw [detectLoop, dif_pos h, if_pos hne]
    exact ih
  | case2 x h heq r endGapIndex hend ih =>
    rw [detectLoop, dif_pos h, if_neg heq]
    refine List.Pairwise.cons ?_ ih
    intro c hc
    obtain ⟨hge, hshape⟩ := detectLoop_shape gaps T _ c hc
    obtain ⟨g, hg, hg1, _⟩ := hshape.2.2.1
    show (growEnd gaps T x h).1 + 1 < c.startGapIndex
    by_contra hcon
    have heq2 : c.startGapIndex = (growEnd gaps T x h).1 + 1 := by omega
    rw [heq2] at hg
    have := growEnd_stop gaps T x h g hg
    omega
  | case3 x h =>
    rw [detectLoop, dif_neg h]
    exact List.Pairwise.nil

/-- C4. Every cluster returned by `detectClusters(gaps, T)`, for any gaps
list and threshold: the gap at `startGapIndex` is 1 and is the gap that
`startEvent` opens; every gap at an index in `(startGapIndex, endGapIndex]`
is at most `T`; `endGapIndex` is the last gap index or the next gap exceeds
`T`; the `gaps` field lists the gap values at `startGapIndex..endGapIndex`;
`tripleCount = (endGapIndex - startGapIndex + 1) + 1`; `endEvent` closes the
gap at `endGapIndex`; and `drawSpan = endEvent.idx - startEvent.idx`. -/
theorem detectClusters_shape (gaps : List Gap) (T : Int) :
    ∀ c ∈ detectClusters gaps T,
      c.startGapIndex ≤ c.endGapIndex ∧ c.endGapIndex < gaps.length ∧
      (∃ g, gaps[c.startGapIndex]? = some g ∧ g.gap = 1 ∧ c.startEvent = g.«from») ∧
      (∀ j g, c.startGapIndex < j → j ≤ c.endGapIndex → gaps[j]? = some g → g.gap ≤ T) ∧
      (c.endGapIndex + 1 = gaps.length ∨ ∃ g, gaps[c.endGapIndex + 1]? = some g ∧ T < g.gap) ∧
      c.gaps.length = c.endGapIndex - c.startGapIndex + 1 ∧
      (∀ k, k ≤ c.endGapIndex - c.startGapIndex →
        c.gaps[k]? = (gaps[c.startGapIndex + k]?).map (fun g => g.gap)) ∧
      c.tripleCount = (c.endGapIndex - c.startGapIndex + 1) + 1 ∧
      (∃ g, gaps[c.endGapIndex]? = some g ∧ c.endEvent = g.«to») ∧
      c.drawSpan = (c.endEvent.idx : Int) - c.startEvent.idx := by
  intro c hc
  obtain ⟨_, hse, hlt, hstart, hend, hin, hstop, hgaps, hcount, hspan⟩ :=
    detectLoop_shape gaps T 0 c hc
  refine ⟨hse, hlt, hstart, hin, ?_, ?_, ?_, hcount, hend, hspan⟩
  · by_cases hlast : c.endGapIndex + 1 = gaps.length
    · exact Or.inl hlast
    · right
      have hlt2 : c.endGapIndex + 1 < gaps.length := by omega
      exact ⟨gaps[c.endGapIndex + 1], List.getElem?_eq_getElem hlt2,
        hstop _ (List.getElem?_eq_getElem hlt2)⟩
  · rw [hgaps]
    simp only [List.length_map, List.length_drop, List.length_take]
    omega
  · intro k hk
    rw [hgaps, List.getElem?_map, List.getElem?_drop, List.getElem?_take]
    have : c.startGapIndex + k < c.endGapIndex + 1 := by omega
    simp [this]

/-- C4 at the cluster of four events at positions 3, 4, 9 and 40. -/
theorem detectClusters_shape_witness :
    sampleCluster ∈ detectClusters (gapsBetweenTriples sampleEvents) 18 ∧
    sampleCluster.tripleCount =
      (sampleCluster.endGapIndex - sampleCluster.startGapIndex + 1) + 1 ∧
    (sampleCluster.endGapIndex + 1 = (gapsBetweenTriples sampleEvents).length ∨
      ∃ g, (gapsBetweenTriples sampleEvents)[sampleCluster.endGapIndex + 1]? = some g ∧
        18 < g.gap) := by
  have hmem : sampleCluster ∈ detectClusters (gapsBetweenTriples sampleEvents) 18 := by
    simp [detectClusters, detectLoop, growEnd, sampleEvents, sampleCluster, gapsBetweenTriples,
      virtualEvent]
  have h := detectClusters_shape (gapsBetweenTriples sampleEvents) 18 sampleCluster hmem
  exact ⟨hmem, h.2.2.2.2.2.2.2.1, h.2.2.2.2.1⟩

/-- C3. For events with strictly increasing `idx`, their gaps and a
threshold `T ≥ 1`, the clusters of `detectClusters` come in strictly ascending
`startGapIndex`; each cluster starts at a gap index greater than
`endGapIndex + 1` of the cluster before it (and of every earlier one), so its
first event lies strictly after the last event of that cluster, and no gap
index `startGapIndex..endGapIndex` and no event position
`startGapIndex..endGapIndex + 1` belongs to two clusters. -/
theorem detectClusters_disjoint (events : List Event) (T : Int)
    (hsorted : events.Pairwise (fun a b => a.idx < b.idx)) (hT : 1 ≤ T) :
    (detectClusters (gapsBetweenTriples events) T).Pairwise
      (fun c1 c2 => c1.startGapIndex < c2.startGapIndex) ∧
    (detectClusters (gapsBetweenTriples events) T).Chain'
      (fun c1 c2 => c1.endGapIndex + 1 < c2.startGapIndex) ∧
    (detectClusters (gapsBetweenTriples events) T).Pairwise
      (fun c1 c2 => c1.endGapIndex + 1 < c2.startGapIndex ∧
        c1.endEvent.idx < c2.startEvent.idx ∧
        ∀ k, ¬ (c1.startGapIndex ≤ k ∧ k ≤ c1.endGapIndex + 1 ∧
          c2.startGapIndex ≤ k ∧ k ≤ c2.endGapIndex + 1)) := by
  have hsep := detectLoop_separated (gapsBetweenTriples events) T hT 0
  have hshape := detectLoop_shape (gapsBetweenTriples events) T 0
  refine ⟨?_, ?_, ?_⟩
  · refine List.Pairwise.imp_of_mem ?_ hsep
    intro c1 c2 h1 _ h12
    have := (hshape c1 h1).2.1
    omega
  · exact List.Pairwise.chain' hsep
  · refine List.Pairwise.imp_of_mem ?_ hsep
    intro c1 c2 h1 h2 h12
    refine ⟨h12, ?_, ?_⟩
    · obtain ⟨g1, hg1, hto⟩ := (hshape c1 h1).2.2.2.2.1
      obtain ⟨g2, hg2, _, hfrom⟩ := (hshape c2 h2).2.2.2.1
      obtain ⟨a1, b1, _, hb1, hgb1⟩ := gapsBetweenTriples_getElem? events _ g1 hg1
      obtain ⟨a2, b2, ha2, _, hgb2⟩ := gapsBetweenTriples_getElem? events _ g2 hg2
      rw [hto, hfrom, hgb1, hgb2]
      show b1.idx < a2.idx
      have hi1 : c1.endGapIndex + 1 < events.length := by
        by_contra hcon
        rw [List.getElem?_eq_none (by omega)] at hb1
        exact absurd hb1 (by simp)
      have hi2 : c2.startGapIndex < events.length := by
        by_contra hcon
        rw [List.getElem?_eq_none (by omega)] at ha2
        exact absurd ha2 (by simp)
      have h := List.pairwise_iff_getElem.mp hsorted _ _ hi1 hi2 h12
      rw [List.getElem?_eq_getElem hi1] at hb1
      rw [List.getElem?_eq_getElem hi2] at ha2
      simp only [Option.some.injEq] at hb1 ha2
      rw [← hb1, ← ha2]
      exact h
    · intro k hk
      omega

/-- C3 at four events at positions 3, 4, 9 and 40 with the threshold 18. -/
theorem detectClusters_disjoint_witness :
    sampleEvents.Pairwise (fun a b => a.idx < b.idx) ∧ (1 : Int) ≤ 18 ∧
    (detectClusters (gapsBetweenTriples sampleEvents) 18).Pairwise
      (fun c1 c2 => c1.startGapIndex < c2.startGapIndex) ∧
    (detectClusters (gapsBetweenTriples sampleEvents) 18).Chain'
      (fun c1 c2 => c1.endGapIndex + 1 < c2.startGapIndex) := by
  have hs : sampleEvents.Pairwise (fun a b => a.idx < b.idx) := by
    simp [sampleEvents, virtualEvent]
  have h := detectClusters_disjoint sampleEvents 18 hs (by decide)
  exact ⟨hs, by decide, h.1, h.2.1⟩

/-! ## C8 and C9: chronology -/

/-- On at least two rows whose first and last dates parse, the dates decide. -/
theorem detectChronology_date (H : Host) (rows : List Row) (h2 : 2 ≤ rows.length) (a b : Int)
    (hF : parseDateSafe H (cellOf rows[0]? Row.date) = some a)
    (hL : parseDateSafe H (cellOf rows[rows.length - 1]? Row.date) = some b) :
    detectChronology H rows =
      if a > b then { rowsOldToNew := rows.reverse, wasReversed := true, method := "date" }
      else { rowsOldToNew := rows, wasReversed := false, method := "date" } := by
  have : ¬ rows.length < 2 := by omega
  simp only [detectChronology, this, if_false, hF, hL]

/-- On at least two rows with a date that does not parse and two finite draw
numbers, the draw numbers decide. -/
theorem detectChronology_draw (H : Host) (rows : List Row) (h2 : 2 ≤ rows.length) (a b : ℚ)
    (hd : parseDateSafe H (cellOf rows[0]? Row.date) = none ∨
      parseDateSafe H (cellOf rows[rows.length - 1]? Row.date) = none)
    (hF : drawNumber H (cellOf rows[0]? Row.draw) = some a)
    (hL : drawNumber H (cellOf rows[rows.length - 1]? Row.draw) = some b) :
    detectChronology H rows =
      if a > b then { rowsOldToNew := rows.reverse, wasReversed := true, method := "draw" }
      else { rowsOldToNew := rows, wasReversed := false, method := "draw" } := by
  have : ¬ rows.length < 2 := by omega
  rcases hd with hd | hd
  · simp only [detectChronology, this, if_false, hd, hF, hL]
  · cases hdF : parseDateSafe H (cellOf rows[0]? Row.date) <;>
      simp only [detectChronology, this, if_false, hd, hdF, hF, hL]

/-- On at least two rows with a date that does not parse and a draw number
that is not finite, nothing decides. -/
theorem detectChronology_unknown (H : Host) (rows : List Row) (h2 : 2 ≤ rows.length)
    (hd : parseDateSafe H (cellOf rows[0]? Row.date) = none ∨
      parseDateSafe H (cellOf rows[rows.length - 1]? Row.date) = none)
    (hn : drawNumber H (cellOf rows[0]? Row.draw) = none ∨
      drawNumber H (cellOf rows[rows.length - 1]? Row.draw) = none) :
    detectChronology H rows = { rowsOldToNew := rows, wasReversed := false, method := "unknown" } := by
  have : ¬ rows.length < 2 := by omega
  cases hdF : parseDateSafe H (cellOf rows[0]? Row.date) <;>
    cases hdL : parseDateSafe H (cellOf rows[rows.length - 1]? Row.date) <;>
    cases hnF : drawNumber H (cellOf rows[0]? Row.draw) <;>
    cases hnL : drawNumber H (cellOf rows[rows.length - 1]? Row.draw) <;>
    simp_all [detectChronology]

/-- Fewer than two rows are returned as they are. -/
theorem detectChronology_short (H : Host) (rows : List Row) (h2 : rows.length < 2) :
    detectChronology H rows = { rowsOldToNew := rows, wasReversed := false, method := "none" } := by
  simp only [detectChronology, h2, if_true]

/-- The first and last rows of a reversed list. -/
theorem reverse_first_last (rows : List Row) (h2 : 2 ≤ rows.length) :
    rows.reverse[0]? = rows[rows.length - 1]? ∧
    rows.reverse[rows.reverse.length - 1]? = rows[0]? := by
  constructor
  · rw [List.getElem?_reverse (by omega)]
    simp
  · rw [List.getElem?_reverse (by simp; omega)]
    simp

/-- Either both dates parse or one of them does not. -/
theorem dates_parse_or_not (dF dL : Option Int) :
    (∃ a b, dF = some a ∧ dL = some b) ∨ (dF = none ∨ dL = none) := by
  cases dF with
  | none => exact Or.inr (Or.inl rfl)
  | some a =>
    cases dL with
    | none => exact Or.inr (Or.inr rfl)
    | some b => exact Or.inl ⟨a, b, rfl, rfl⟩

/-- C8. When `detectChronology` reverses a row list (`wasReversed = true`,
method `m`), applying it to the reversed list it returned gives that list
unchanged, `wasReversed = false` and the same method `m`. -/
theorem detectChronology_roundtrip (H : Host) (rows : List Row)
    (hrev : (detectChronology H rows).wasReversed = true) :
    detectChronology H (detectChronology H rows).rowsOldToNew =
      { rowsOldToNew := (detectChronology H rows).rowsOldToNew
        wasReversed := false
        method := (detectChronology H rows).method } := by
  have h2 : 2 ≤ rows.length := by
    by_contra hc
    rw [detectChronology_short H rows (by omega)] at hrev
    simp at hrev
  have h2r : 2 ≤ rows.reverse.length := by simpa using h2
  obtain ⟨hfirst, hlast⟩ := reverse_first_last rows h2
  rcases dates_parse_or_not (parseDateSafe H (cellOf rows[0]? Row.date))
      (parseDateSafe H (cellOf rows[rows.length - 1]? Row.date)) with ⟨a, b, hdF, hdL⟩ | hd
  · rw [detectChronology_date H rows h2 a b hdF hdL] at hrev ⊢
    by_cases hab : a > b
    · simp only [hab, if_true]
      rw [detectChronology_date H rows.reverse h2r b a (by rw [hfirst]; exact hdL)
        (by rw [hlast]; exact hdF)]
      have : ¬ b > a := by omega
      simp only [this, if_false]
    · simp [hab] at hrev
  · cases hnF : drawNumber H (cellOf rows[0]? Row.draw) with
    | none =>
      rw [detectChronology_unknown H rows h2 hd (Or.inl hnF)] at hrev
      simp at hrev
    | some a =>
      cases hnL : drawNumber H (cellOf rows[rows.length - 1]? Row.draw) with
      | none =>
        rw [detectChronology_unknown H rows h2 hd (Or.inr hnL)] at hrev
        simp at hrev
      | some b =>
        rw [detectChronology_draw H rows h2 a b hd hnF hnL] at hrev ⊢
        by_cases hab : a > b
        · simp only [hab, if_true]
          rw [detectChronology_draw H rows.reverse h2r b a
            (by rw [hfirst, hlast]; exact hd.symm) (by rw [hfirst]; exact hnL)
            (by rw [hlast]; exact hnF)]
          have : ¬ b > a := not_lt.mpr (le_of_lt hab)
          simp only [this, if_false]
        · simp [hab] at hrev

/-- C8 at two rows dated newest first. -/
theorem detectChronology_roundtrip_witness :
    (detectChronology sampleHost [plainRow 30 "3", plainRow 10 "1"]).wasReversed = true ∧
    detectChronology sampleHost
        (detectChronology sampleHost [plainRow 30 "3", plainRow 10 "1"]).rowsOldToNew =
      { rowsOldToNew := (detectChronology sampleHost [plainRow 30 "3", plainRow 10 "1"]).rowsOldToNew
        wasReversed := false
        method := (detectChronology sampleHost [plainRow 30 "3", plainRow 10 "1"]).method } :=
  ⟨by decide, detectChronology_roundtrip sampleHost [plainRow 30 "3", plainRow 10 "1"] (by decide)⟩

/-- C9. `detectChronology` returns the rows as given with `wasReversed = false`
or their reversal with `wasReversed = true`; it reverses exactly when there
are at least two rows and either both the first and the last date parse and
the first is strictly later, or one of the two dates does not parse, both
draw numbers are finite and the first is strictly greater. -/
theorem detectChronology_rule (H : Host) (rows : List Row) :
    ((detectChronology H rows).rowsOldToNew = rows ∧
        (detectChronology H rows).wasReversed = false ∨
      (detectChronology H rows).rowsOldToNew = rows.reverse ∧
        (detectChronology H rows).wasReversed = true) ∧
    ((detectChronology H rows).wasReversed = true ↔
      ∃ first last, rows.head? = some first ∧ rows.getLast? = some last ∧ 2 ≤ rows.length ∧
        ((∃ a b, parseDateSafe H first.date = some a ∧ parseDateSafe H last.date = some b ∧
            a > b) ∨
          ((parseDateSafe H first.date = none ∨ parseDateSafe H last.date = none) ∧
            ∃ a b, drawNumber H first.draw = some a ∧ drawNumber H last.draw = some b ∧
              a > b))) := by
  by_cases h2 : 2 ≤ rows.length
  · have h0 : 0 < rows.length := by omega
    have hl : rows.length - 1 < rows.length := by omega
    have hhead : rows.head? = some rows[0] := by
      rw [List.head?_eq_getElem?, List.getElem?_eq_getElem h0]
    have hlast : rows.getLast? = some rows[rows.length - 1] := by
      rw [List.getLast?_eq_getElem?, List.getElem?_eq_getElem hl]
    have hc0 : ∀ col : Row → Cell, cellOf rows[0]? col = col rows[0] := by
      intro col
      rw [List.getElem?_eq_getElem h0]
      rfl
    have hc1 : ∀ col : Row → Cell, cellOf rows[rows.length - 1]? col = col rows[rows.length - 1] := by
      intro col
      rw [List.getElem?_eq_getElem hl]
      rfl
    have hex : ∀ P : Row → Row → Prop,
        (∃ first last, rows.head? = some first ∧ rows.getLast? = some last ∧ 2 ≤ rows.length ∧
          P first last) ↔ P rows[0] rows[rows.length - 1] := by
      intro P
      constructor
      · rintro ⟨f, l, hf, hl', _, hP⟩
        rw [hhead] at hf
        rw [hlast] at hl'
        simp only [Option.some.injEq] at hf hl'
        rw [hf, hl']
        exact hP
      · intro hP
        exact ⟨_, _, hhead, hlast, h2, hP⟩
    rw [hex]
    rcases dates_parse_or_not (parseDateSafe H (cellOf rows[0]? Row.date))
        (parseDateSafe H (cellOf rows[rows.length - 1]? Row.date)) with ⟨a, b, hdF, hdL⟩ | hd
    · rw [detectChronology_date H rows h2 a b hdF hdL]
      rw [hc0] at hdF
      rw [hc1] at hdL
      by_cases hab : a > b
      · simp [hab, hdF, hdL]
      · simp [hab, hdF, hdL]
    · have hd2 : parseDateSafe H rows[0].date = none ∨
          parseDateSafe H rows[rows.length - 1].date = none := by
        rw [hc0, hc1] at hd
        exact hd
      have hnot : ¬ ∃ a b, parseDateSafe H rows[0].date = some a ∧
          parseDateSafe H rows[rows.length - 1].date = some b ∧ a > b := by
        rintro ⟨a, b, ha, hb, _⟩
        rcases hd2 with h | h
        · rw [h] at ha
          exact absurd ha (by simp)
        · rw [h] at hb
          exact absurd hb (by simp)
      cases hnF : drawNumber H (cellOf rows[0]? Row.draw) with
      | none =>
        rw [detectChronology_unknown H rows h2 hd (Or.inl hnF)]
        rw [hc0] at hnF
        refine ⟨Or.inl ⟨rfl, rfl⟩, ?_⟩
        constructor
        · intro h
          simp at h
        · rintro (h | ⟨_, a, b, ha, _, _⟩)
          · exact absurd h hnot
          · rw [hnF] at ha
            exact absurd ha (by simp)
      | some a =>
        cases hnL : drawNumber H (cellOf rows[rows.length - 1]? Row.draw) with
        | none =>
          rw [detectChronology_unknown H rows h2 hd (Or.inr hnL)]
          rw [hc1] at hnL
          refine ⟨Or.inl ⟨rfl, rfl⟩, ?_⟩
          constructor
          · intro h
            simp at h
          · rintro (h | ⟨_, a, b, _, hb, _⟩)
            · exact absurd h hnot
            · rw [hnL] at hb
              exact absurd hb (by simp)
        | some b =>
          rw [detectChronology_draw H rows h2 a b hd hnF hnL]
          rw [hc0] at hnF
          rw [hc1] at hnL
          by_cases hab : a > b
          · rw [if_pos hab]
            refine ⟨Or.inr ⟨rfl, rfl⟩, ?_⟩
            constructor
            · intro _
              exact Or.inr ⟨hd2, a, b, hnF, hnL, hab⟩
            · intro _
              rfl
          · rw [if_neg hab]
            refine ⟨Or.inl ⟨rfl, rfl⟩, ?_⟩
            constructor
            · intro h
              simp at h
            · rintro (h | ⟨_, x, y, hx, hy, hxy⟩)
              · exact absurd h hnot
              · rw [hnF] at hx
                rw [hnL] at hy
                simp only [Option.some.injEq] at hx hy
                rw [← hx, ← hy] at hxy
                exact absurd hxy hab
  · rw [detectChronology_short H rows (by omega)]
    refine ⟨Or.inl ⟨rfl, rfl⟩, ?_⟩
    constructor
    · intro h
      simp at h
    · rintro ⟨_, _, _, _, h, _⟩
      exact absurd h h2

/-! ## C10: buckets -/

/-- The bucket loop started from `b0` adds to each counter the number of gaps
in its range. -/
theorem bucket_foldl (next : List Int) (b0 : BucketCounts) :
    next.foldl
        (fun b g =>
          if g ≤ 5 then { b with b1to5 := b.b1to5 + 1 }
          else if g ≤ 10 then { b with b6to10 := b.b6to10 + 1 }
          else if g ≤ 20 then { b with b11to20 := b.b11to20 + 1 }
          else { b with b21plus := b.b21plus + 1 })
        b0 =
      { b1to5 := b0.b1to5 + next.countP (fun g => decide (g ≤ 5))
        b6to10 := b0.b6to10 + next.countP (fun g => decide (5 < g ∧ g ≤ 10))
        b11to20 := b0.b11to20 + next.countP (fun g => decide (10 < g ∧ g ≤ 20))
        b21plus := b0.b21plus + next.countP (fun g => decide (20 < g)) } := by
  induction next generalizing b0 with
  | nil => simp
  | cons g rest ih =>
    rw [List.foldl_cons, ih]
    by_cases h5 : g ≤ 5
    · have h1 : ¬ 5 < g := by omega
      have h2 : ¬ 10 < g := by omega
      have h3 : ¬ 20 < g := by omega
      simp [h5, h1, h2, h3, List.countP_cons, Nat.add_assoc, Nat.add_comm]
    · by_cases h10 : g ≤ 10
      · have h1 : 5 < g := by omega
        have h2 : ¬ 10 < g := by omega
        have h3 : ¬ 20 < g := by omega
        simp [h5, h10, h1, h2, h3, List.countP_cons, Nat.add_assoc, Nat.add_comm]
      · by_cases h20 : g ≤ 20
        · have h1 : 5 < g := by omega
          have h2 : 10 < g := by omega
          have h3 : ¬ 20 < g := by omega
          simp [h5, h10, h20, h1, h2, h3, List.countP_cons, Nat.add_assoc, Nat.add_comm]
        · have h1 : 5 < g := by omega
          have h2 : 10 < g := by omega
          have h3 : 20 < g := by omega
          simp [h5, h10, h20, h1, h2, h3, List.countP_cons, Nat.add_assoc, Nat.add_comm]

/-- The four ranges split every list of gaps. -/
theorem bucket_ranges_partition (next : List Int) :
    next.countP (fun g => decide (g ≤ 5)) + next.countP (fun g => decide (5 < g ∧ g ≤ 10)) +
      next.countP (fun g => decide (10 < g ∧ g ≤ 20)) + next.countP (fun g => decide (20 < g)) =
      next.length := by
  induction next with
  | nil => simp
  | cons g rest ih =>
    simp only [List.countP_cons, List.length_cons]
    by_cases h5 : g ≤ 5
    · have h1 : ¬ 5 < g := by omega
      have h2 : ¬ 10 < g := by omega
      have h3 : ¬ 20 < g := by omega
      simp [h5, h1, h2, h3] at ih ⊢
      omega
    · by_cases h10 : g ≤ 10
      · have h1 : 5 < g := by omega
        have h2 : ¬ 10 < g := by omega
        have h3 : ¬ 20 < g := by omega
        simp [h5, h10, h1, h2, h3] at ih ⊢
        omega
      · by_cases h20 : g ≤ 20
        · have h1 : 5 < g := by omega
          have h2 : 10 < g := by omega
          have h3 : ¬ 20 < g := by omega
          simp [h5, h10, h20, h1, h2, h3] at ih ⊢
          omega
        · have h1 : 5 < g := by omega
          have h2 : 10 < g := by omega
          have h3 : 20 < g := by omega
          simp [h5, h10, h20, h1, h2, h3] at ih ⊢
          omega

/-- Rounding to the nearest integer moves a number by at most one half. -/
theorem roundHalfEven_near (x : ℚ) :
    (roundHalfEven x : ℚ) - x ≤ 1 / 2 ∧ x - (roundHalfEven x : ℚ) ≤ 1 / 2 := by
  have h1 := Int.floor_le x
  have h2 := Int.lt_floor_add_one x
  unfold roundHalfEven
  split_ifs with ha hb hc
  · constructor <;> linarith
  · push_cast
    constructor <;> linarith
  · constructor <;> linarith
  · push_cast
    constructor <;> linarith

/-- Rounding to the nearest integer does not cross an integer. -/
theorem roundHalfEven_le_of_le (x : ℚ) (N : Int) (h : x ≤ N) : roundHalfEven x ≤ N := by
  have h1 := Int.floor_le x
  have h2 := Int.lt_floor_add_one x
  have hfl : ⌊x⌋ ≤ N := by
    have : (⌊x⌋ : ℚ) ≤ N := le_trans h1 h
    exact_mod_cast this
  by_cases heq : ⌊x⌋ = N
  · have hx : x = N := by
      have : (N : ℚ) ≤ x := by
        rw [← heq]
        exact h1
      exact le_antisymm h this
    have hr : x - ⌊x⌋ < 1 / 2 := by
      rw [heq, hx]
      norm_num
    simp only [roundHalfEven, hr, if_true]
    exact hfl
  · have hlt : ⌊x⌋ + 1 ≤ N := by omega
    unfold roundHalfEven
    split_ifs <;> omega

/-- Rounding a non-negative number gives a non-negative integer. -/
theorem roundHalfEven_nonneg (x : ℚ) (h : 0 ≤ x) : 0 ≤ roundHalfEven x := by
  have hfl : 0 ≤ ⌊x⌋ := Int.floor_nonneg.mpr h
  unfold roundHalfEven
  split_ifs <;> omega

/-- The binade of a positive number. -/
theorem binade_bounds (x : ℚ) (hx : 0 < x) :
    (2 : ℚ) ^ Int.log 2 x ≤ x ∧ x < (2 : ℚ) ^ (Int.log 2 x + 1) := by
  have h1 := Int.zpow_log_le_self (b := 2) (r := x) (by norm_num) hx
  have h2 := Int.lt_zpow_succ_log_self (b := 2) (by norm_num) x
  simp only [Nat.cast_ofNat] at h1 h2
  exact ⟨h1, h2⟩

/-- The exponent of a positive number from its binade. -/
theorem log_eq_of_bounds (x : ℚ) (e : Int) (h1 : (2 : ℚ) ^ e ≤ x) (h2 : x < (2 : ℚ) ^ (e + 1)) :
    Int.log 2 x = e := by
  have hx : 0 < x := lt_of_lt_of_le (by positivity) h1
  have a1 : e ≤ Int.log 2 x := by
    rw [← Int.zpow_le_iff_le_log (by norm_num) hx]
    simpa using h1
  have a2 : Int.log 2 x < e + 1 := by
    rw [← Int.lt_zpow_iff_log_lt (by norm_num) hx]
    simpa using h2
  omega

/-- The nearest double to a positive number is within a relative `2 ^ -53`. -/
theorem toDoublePos_near (x : ℚ) (hx : 0 < x) :
    toDoublePos x - x ≤ x / 2 ^ 53 ∧ x - toDoublePos x ≤ x / 2 ^ 53 := by
  obtain ⟨hb, _⟩ := binade_bounds x hx
  have hs : (0 : ℚ) < (2 : ℚ) ^ (52 - Int.log 2 x) := by positivity
  have hr := roundHalfEven_near (x * (2 : ℚ) ^ (52 - Int.log 2 x))
  have hsplit : (2 : ℚ) ^ (52 - Int.log 2 x) = 2 ^ (52 : ℤ) / 2 ^ Int.log 2 x :=
    zpow_sub₀ (by norm_num) _ _
  have he : (0 : ℚ) < (2 : ℚ) ^ Int.log 2 x := by positivity
  have hulp : 1 / 2 / (2 : ℚ) ^ (52 - Int.log 2 x) ≤ x / 2 ^ 53 := by
    rw [hsplit]
    rw [div_div_eq_mul_div, div_le_div_iff₀ (by positivity) (by positivity)]
    have : (2 : ℚ) ^ (52 : ℤ) = 2 ^ 52 := by norm_num
    rw [this]
    nlinarith
  unfold toDoublePos
  constructor
  · have : (roundHalfEven (x * (2 : ℚ) ^ (52 - Int.log 2 x)) : ℚ) / (2 : ℚ) ^ (52 - Int.log 2 x) - x =
        ((roundHalfEven (x * (2 : ℚ) ^ (52 - Int.log 2 x)) : ℚ) -
          x * (2 : ℚ) ^ (52 - Int.log 2 x)) / (2 : ℚ) ^ (52 - Int.log 2 x) := by
      rw [sub_div, mul_div_cancel_right₀ x hs.ne']
    rw [this]
    exact le_trans (div_le_div_of_nonneg_right hr.1 hs.le) hulp
  · have : x - (roundHalfEven (x * (2 : ℚ) ^ (52 - Int.log 2 x)) : ℚ) / (2 : ℚ) ^ (52 - Int.log 2 x) =
        (x * (2 : ℚ) ^ (52 - Int.log 2 x) -
          (roundHalfEven (x * (2 : ℚ) ^ (52 - Int.log 2 x)) : ℚ)) / (2 : ℚ) ^ (52 - Int.log 2 x) := by
      rw [sub_div, mul_div_cancel_right₀ x hs.ne']
    rw [this]
    exact le_trans (div_le_div_of_nonneg_right hr.2 hs.le) hulp

/-- The nearest double does not exceed a bound that is itself a multiple of
the unit in the last place. -/
theorem toDoublePos_le (x M : ℚ) (N : Int) (hxM : x ≤ M)
    (hN : M * (2 : ℚ) ^ (52 - Int.log 2 x) = N) : toDoublePos x ≤ M := by
  have hs : (0 : ℚ) < (2 : ℚ) ^ (52 - Int.log 2 x) := by positivity
  have h1 : x * (2 : ℚ) ^ (52 - Int.log 2 x) ≤ N := by
    rw [← hN]
    exact mul_le_mul_of_nonneg_right hxM hs.le
  have h2 := roundHalfEven_le_of_le _ N h1
  unfold toDoublePos
  rw [div_le_iff₀ hs, hN]
  exact_mod_cast h2

/-- The nearest double to a positive number is not negative. -/
theorem toDoublePos_nonneg (x : ℚ) (hx : 0 < x) : 0 ≤ toDoublePos x := by
  have hs : (0 : ℚ) < (2 : ℚ) ^ (52 - Int.log 2 x) := by positivity
  have h := roundHalfEven_nonneg (x * (2 : ℚ) ^ (52 - Int.log 2 x)) (by positivity)
  unfold toDoublePos
  apply div_nonneg _ hs.le
  exact_mod_cast h

/-- A power of two with a natural exponent is an integer. -/
theorem zpow_two_is_int (k : Int) (hk : 0 ≤ k) : ∃ N : Int, (2 : ℚ) ^ k = N := by
  obtain ⟨n, rfl⟩ := Int.eq_ofNat_of_zero_le hk
  exact ⟨2 ^ n, by simp⟩

/-- The nearest double to a number in `[0, 1]` lies in `[0, 1]`. -/
theorem toDouble_unit (x : ℚ) (h0 : 0 ≤ x) (h1 : x ≤ 1) : 0 ≤ toDouble x ∧ toDouble x ≤ 1 := by
  by_cases hx : x = 0
  · simp [toDouble, hx]
  · have hpos : 0 < x := lt_of_le_of_ne h0 (Ne.symm hx)
    simp only [toDouble, hx, if_false, hpos, if_true]
    refine ⟨toDoublePos_nonneg x hpos, ?_⟩
    have he : Int.log 2 x ≤ 0 := by
      have hb := (binade_bounds x hpos).1
      have : (2 : ℚ) ^ Int.log 2 x ≤ (2 : ℚ) ^ (0 : ℤ) := by
        simpa using le_trans hb h1
      exact (zpow_le_zpow_iff_right₀ (by norm_num)).mp this
    obtain ⟨N, hN⟩ := zpow_two_is_int (52 - Int.log 2 x) (by omega)
    exact toDoublePos_le x 1 N h1 (by rw [one_mul, hN])

/-- The nearest double to a number in `[0, 100]` lies in `[0, 100]`. -/
theorem toDouble_hundred (x : ℚ) (h0 : 0 ≤ x) (h1 : x ≤ 100) :
    0 ≤ toDouble x ∧ toDouble x ≤ 100 := by
  by_cases hx : x = 0
  · simp [toDouble, hx]
  · have hpos : 0 < x := lt_of_le_of_ne h0 (Ne.symm hx)
    simp only [toDouble, hx, if_false, hpos, if_true]
    refine ⟨toDoublePos_nonneg x hpos, ?_⟩
    have he : Int.log 2 x < 7 := by
      have hb := (binade_bounds x hpos).1
      have : (2 : ℚ) ^ Int.log 2 x < (2 : ℚ) ^ (7 : ℤ) := by
        have h128 : (2 : ℚ) ^ (7 : ℤ) = 128 := by norm_num
        rw [h128]
        linarith
      exact (zpow_lt_zpow_iff_right₀ (by norm_num)).mp this
    obtain ⟨N, hN⟩ := zpow_two_is_int (52 - Int.log 2 x) (by omega)
    exact toDoublePos_le x 100 (100 * N) h1 (by rw [hN]; push_cast; ring)

/-- A number less than one half above an integer rounds to that integer. -/
theorem roundHalfEven_eq_of_lt (x : ℚ) (n : Int) (h1 : (n : ℚ) ≤ x) (h2 : x - n < 1 / 2) :
    roundHalfEven x = n := by
  have hfl : ⌊x⌋ = n := by
    rw [Int.floor_eq_iff]
    exact ⟨h1, by linarith⟩
  simp only [roundHalfEven, hfl, h2, if_true]

/-- The nearest double to a positive number, computed from its binade when
the scaled number lies less than one half above an integer. -/
theorem toDoublePos_eq_of_lt (x : ℚ) (e n : Int) (h1 : (2 : ℚ) ^ e ≤ x)
    (h2 : x < (2 : ℚ) ^ (e + 1)) (h3 : (n : ℚ) ≤ x * (2 : ℚ) ^ (52 - e))
    (h4 : x * (2 : ℚ) ^ (52 - e) - n < 1 / 2) :
    toDoublePos x = (n : ℚ) / (2 : ℚ) ^ (52 - e) := by
  unfold toDoublePos
  rw [log_eq_of_bounds x e h1 h2, roundHalfEven_eq_of_lt _ n h3 h4]

/-- The percentage of a counter lies in `[0, 100]` and within one half, plus
the error of the two double roundings, of the exact percentage. -/
theorem bucketPercent_bounds (v len : Nat) (hlen : 0 < len) (hv : v ≤ len) :
    (0 ≤ bucketPercent v len ∧ bucketPercent v len ≤ 100) ∧
    (bucketPercent v len : ℚ) - 100 * (v : ℚ) / len ≤ 1 / 2 + 1 / 2 ^ 45 ∧
    100 * (v : ℚ) / len - (bucketPercent v len : ℚ) ≤ 1 / 2 + 1 / 2 ^ 45 := by
  have hl : (0 : ℚ) < len := by exact_mod_cast hlen
  have hq0 : (0 : ℚ) ≤ (v : ℚ) / len := by positivity
  have hq1 : (v : ℚ) / len ≤ 1 := by
    rw [div_le_one hl]
    exact_mod_cast hv
  obtain ⟨ha0, ha1⟩ := toDouble_unit _ hq0 hq1
  have hz0 : (0 : ℚ) ≤ toDouble ((v : ℚ) / len) * 100 := by positivity
  have hz1 : toDouble ((v : ℚ) / len) * 100 ≤ 100 := by linarith
  obtain ⟨hb0, hb1⟩ := toDouble_hundred _ hz0 hz1
  have hfl1 := Int.floor_le (toDouble (toDouble ((v : ℚ) / len) * 100) + 1 / 2)
  have hfl2 := Int.lt_floor_add_one (toDouble (toDouble ((v : ℚ) / len) * 100) + 1 / 2)
  have hnear : ∀ x : ℚ, 0 ≤ x → toDouble x - x ≤ x / 2 ^ 53 ∧ x - toDouble x ≤ x / 2 ^ 53 := by
    intro x hx
    by_cases hx0 : x = 0
    · simp [toDouble, hx0]
    · have hpos : 0 < x := lt_of_le_of_ne hx (Ne.symm hx0)
      simp only [toDouble, hx0, if_false, hpos, if_true]
      exact toDoublePos_near x hpos
  obtain ⟨n1, n2⟩ := hnear _ hq0
  obtain ⟨m1, m2⟩ := hnear _ hz0
  have hx : 100 * (v : ℚ) / len = (v : ℚ) / len * 100 := by ring
  have h53 : (2 : ℚ) ^ 53 = 9007199254740992 := by norm_num
  have h45 : (2 : ℚ) ^ 45 = 35184372088832 := by norm_num
  rw [h53] at n1 n2 m1 m2
  have e1 : (v : ℚ) / len / 9007199254740992 ≤ 1 / 9007199254740992 :=
    div_le_div_of_nonneg_right hq1 (by norm_num)
  have e2 : toDouble ((v : ℚ) / len) * 100 / 9007199254740992 ≤ 100 / 9007199254740992 :=
    div_le_div_of_nonneg_right hz1 (by norm_num)
  refine ⟨⟨?_, ?_⟩, ?_, ?_⟩
  · simp only [bucketPercent, jsRound]
    apply Int.floor_nonneg.mpr
    linarith
  · simp only [bucketPercent, jsRound]
    have : ⌊toDouble (toDouble ((v : ℚ) / len) * 100) + 1 / 2⌋ < 101 := by
      rw [Int.floor_lt]
      push_cast
      linarith
    omega
  · simp only [bucketPercent, jsRound]
    rw [hx, h45]
    linarith
  · simp only [bucketPercent, jsRound]
    rw [hx, h45]
    linarith

/-- Twenty-three of forty: the code reports 57, while the exact percentage
57.5 rounds to 58. -/
theorem bucketPercent_23_40 :
    bucketPercent 23 40 = 57 ∧ jsRound (100 * (23 : ℚ) / 40) = 58 := by
  have h1 : toDouble ((23 : ℚ) / 40) = 5179139571476070 / 2 ^ 53 := by
    have hne : ¬ ((23 : ℚ) / 40 = 0) := by norm_num
    have hpos : (0 : ℚ) < 23 / 40 := by norm_num
    simp only [toDouble, hne, if_false, hpos, if_true]
    rw [toDoublePos_eq_of_lt (23 / 40) (-1) 5179139571476070 (by norm_num) (by norm_num)
      (by norm_num) (by norm_num)]
    norm_num
  have h2 : toDouble ((5179139571476070 : ℚ) / 2 ^ 53 * 100) = 8092405580431359 / 2 ^ 47 := by
    have hne : ¬ ((5179139571476070 : ℚ) / 2 ^ 53 * 100 = 0) := by norm_num
    have hpos : (0 : ℚ) < 5179139571476070 / 2 ^ 53 * 100 := by norm_num
    simp only [toDouble, hne, if_false, hpos, if_true]
    rw [toDoublePos_eq_of_lt _ 5 8092405580431359 (by norm_num) (by norm_num)
      (by norm_num) (by norm_num)]
    norm_num
  constructor
  · simp only [bucketPercent, jsRound]
    have hc : ((23 : ℕ) : ℚ) / ((40 : ℕ) : ℚ) = 23 / 40 := by norm_num
    rw [hc, h1, h2, Int.floor_eq_iff]
    norm_num
  · simp only [jsRound]
    rw [Int.floor_eq_iff]
    norm_num

/-- The percentage of a zero counter is 0. -/
theorem bucketPercent_zero (len : Nat) : bucketPercent 0 len = 0 := by
  simp only [bucketPercent, jsRound, toDouble, Nat.cast_zero, zero_div, if_true, zero_mul]
  rw [Int.floor_eq_iff]
  norm_num

/-- The counters of the bucket loop. -/
theorem bucketCounts_eq (next : List Int) :
    bucketCounts next =
      { b1to5 := next.countP (fun g => decide (g ≤ 5))
        b6to10 := next.countP (fun g => decide (5 < g ∧ g ≤ 10))
        b11to20 := next.countP (fun g => decide (10 < g ∧ g ≤ 20))
        b21plus := next.countP (fun g => decide (20 < g)) } := by
  simp only [bucketCounts]
  rw [bucket_foldl]
  simp

/-- Two one-sided bounds give a bound on the distance. -/
theorem abs_sub_le_of_both (a b e : ℚ) (h1 : a - b ≤ e) (h2 : b - a ≤ e) : |a - b| ≤ e :=
  abs_le.mpr ⟨by linarith, h1⟩

/-- The bucket report of a non-empty list of gaps. -/
theorem bucketReport_of_ne_nil (next : List Int) (hne : next ≠ []) :
    BucketReport next next.length (bucketPercents (bucketCounts next) next.length) := by
  have hlen : 0 < next.length := List.length_pos.mpr hne
  have hsum := bucket_ranges_partition next
  have hb := bucketCounts_eq next
  have h1 : (bucketCounts next).b1to5 = next.countP (fun g => decide (g ≤ 5)) := by rw [hb]
  have h2 : (bucketCounts next).b6to10 = next.countP (fun g => decide (5 < g ∧ g ≤ 10)) := by
    rw [hb]
  have h3 : (bucketCounts next).b11to20 = next.countP (fun g => decide (10 < g ∧ g ≤ 20)) := by
    rw [hb]
  have h4 : (bucketCounts next).b21plus = next.countP (fun g => decide (20 < g)) := by rw [hb]
  have p1 := bucketPercent_bounds (bucketCounts next).b1to5 next.length hlen (by omega)
  have p2 := bucketPercent_bounds (bucketCounts next).b6to10 next.length hlen (by omega)
  have p3 := bucketPercent_bounds (bucketCounts next).b11to20 next.length hlen (by omega)
  have p4 := bucketPercent_bounds (bucketCounts next).b21plus next.length hlen (by omega)
  exact ⟨h1, h2, h3, h4, by omega, rfl, rfl, rfl, rfl, p1.1, p2.1, p3.1, p4.1,
    abs_sub_le_of_both _ _ _ p1.2.1 p1.2.2, abs_sub_le_of_both _ _ _ p2.2.1 p2.2.2,
    abs_sub_le_of_both _ _ _ p3.2.1 p3.2.2, abs_sub_le_of_both _ _ _ p4.2.1 p4.2.2⟩

/-- The gaps collected for the lag 1 from the eighty-one sample events. -/
theorem nextGapsForLag_fortyEvents :
    nextGapsForLag (gapsBetweenTriples fortyEvents) 1 =
      List.replicate 23 2 ++ List.replicate 17 30 := by
  decide

/-- C10, as stated, fails: for the eighty-one sample events the lag 1 is
followed by 40 gaps, 23 of them in the bucket `1-5`; the percentage reported
for that bucket is 57, while `round(100 * 23 / 40)` is 58. -/
theorem bucket_percent_not_exact_round :
    nextGapsForLag (gapsBetweenTriples fortyEvents) 1 ≠ [] ∧
    (summarizeNextGapsForExactLag (gapsBetweenTriples fortyEvents) 1).count = 40 ∧
    (bucketCounts (nextGapsForLag (gapsBetweenTriples fortyEvents) 1)).b1to5 = 23 ∧
    ∃ p, (summarizeNextGapsForExactLag (gapsBetweenTriples fortyEvents) 1).buckets = some p ∧
      p.b1to5 = 57 ∧ jsRound (100 * ((23 : Nat) : ℚ) / ((40 : Nat) : ℚ)) = 58 ∧
      p.b1to5 ≠ jsRound (100 * ((23 : Nat) : ℚ) / ((40 : Nat) : ℚ)) := by
  have hn := nextGapsForLag_fortyEvents
  have hc : (bucketCounts (List.replicate 23 2 ++ List.replicate 17 30)).b1to5 = 23 := by
    decide
  have h58 : jsRound (100 * ((23 : Nat) : ℚ) / ((40 : Nat) : ℚ)) = 58 := by
    have := bucketPercent_23_40.2
    norm_num at this ⊢
    exact this
  have hb : (summarizeNextGapsForExactLag (gapsBetweenTriples fortyEvents) 1).buckets =
      some (bucketPercents (bucketCounts (List.replicate 23 2 ++ List.replicate 17 30)) 40) := by
    unfold summarizeNextGapsForExactLag
    rw [hn]
    rfl
  have hcount : (summarizeNextGapsForExactLag (gapsBetweenTriples fortyEvents) 1).count = 40 := by
    unfold summarizeNextGapsForExactLag
    rw [hn]
    rfl
  have hp : (bucketPercents (bucketCounts (List.replicate 23 2 ++ List.replicate 17 30)) 40).b1to5 =
      57 := by
    show bucketPercent (bucketCounts (List.replicate 23 2 ++ List.replicate 17 30)).b1to5 40 = 57
    rw [hc]
    exact bucketPercent_23_40.1
  refine ⟨?_, hcount, ?_, _, hb, hp, h58, ?_⟩
  · rw [hn]
    decide
  · rw [hn]
    exact hc
  · rw [hp, h58]
    decide

/-- C10, amended. Whenever `summarizeNextGapsForExactLag` or
`summarizeAfterClusters` has collected at least one gap, `count` is the number
of collected gaps, each collected gap is counted in exactly one of the buckets
`g ≤ 5`, `6..10`, `11..20`, `21+` (the four counters are the sizes of these
disjoint ranges and add up to `count`), and each reported percentage is
`Math.round` of the double product `(counter / count) * 100`: an integer
between 0 and 100 that lies within `1/2 + 2 ^ -45` of the exact percentage
`100 * counter / count`. -/
theorem summary_bucket_distribution (gaps : List Gap) (lagX : Int) (clusters : List Cluster) :
    (nextGapsForLag gaps lagX ≠ [] →
      (summarizeNextGapsForExactLag gaps lagX).count = (nextGapsForLag gaps lagX).length ∧
      ∃ p, (summarizeNextGapsForExactLag gaps lagX).buckets = some p ∧
        BucketReport (nextGapsForLag gaps lagX) (summarizeNextGapsForExactLag gaps lagX).count p) ∧
    (gapsAfterClusters gaps clusters ≠ [] →
      (summarizeAfterClusters gaps clusters).count = (gapsAfterClusters gaps clusters).length ∧
      ∃ p, (summarizeAfterClusters gaps clusters).buckets = some p ∧
        BucketReport (gapsAfterClusters gaps clusters)
          (summarizeAfterClusters gaps clusters).count p) := by
  constructor
  · intro hne
    have hr := bucketReport_of_ne_nil _ hne
    unfold summarizeNextGapsForExactLag
    cases hn : nextGapsForLag gaps lagX with
    | nil => exact absurd hn hne
    | cons x rest =>
      rw [hn] at hr
      exact ⟨rfl, _, rfl, hr⟩
  · intro hne
    have hr := bucketReport_of_ne_nil _ hne
    unfold summarizeAfterClusters
    cases hn : gapsAfterClusters gaps clusters with
    | nil => exact absurd hn hne
    | cons x rest =>
      rw [hn] at hr
      exact ⟨rfl, _, rfl, hr⟩

/-- C10, amended, at the eighty-one sample events with the lag 1 (40 gaps
collected) and at the cluster of the four sample events. -/
theorem summary_bucket_distribution_witness :
    nextGapsForLag (gapsBetweenTriples fortyEvents) 1 ≠ [] ∧
    gapsAfterClusters (gapsBetweenTriples sampleEvents) [sampleCluster] ≠ [] ∧
    (∃ p, (summarizeNextGapsForExactLag (gapsBetweenTriples fortyEvents) 1).buckets = some p ∧
      (0 ≤ p.b1to5 ∧ p.b1to5 ≤ 100) ∧
      |(p.b1to5 : ℚ) -
        100 * ((bucketCounts (nextGapsForLag (gapsBetweenTriples fortyEvents) 1)).b1to5 : ℚ) /
          (summarizeNextGapsForExactLag (gapsBetweenTriples fortyEvents) 1).count| ≤
        1 / 2 + 1 / 2 ^ 45) ∧
    ∃ p, (summarizeAfterClusters (gapsBetweenTriples sampleEvents) [sampleCluster]).buckets =
        some p ∧ 0 ≤ p.b21plus ∧ p.b21plus ≤ 100 := by
  have h1 : nextGapsForLag (gapsBetweenTriples fortyEvents) 1 ≠ [] := by
    rw [nextGapsForLag_fortyEvents]
    decide
  have h2 : gapsAfterClusters (gapsBetweenTriples sampleEvents) [sampleCluster] ≠ [] := by
    simp [gapsAfterClusters, gapsBetweenTriples, sampleEvents, sampleCluster]
  obtain ⟨_, p, hp, hr⟩ :=
    (summary_bucket_distribution (gapsBetweenTriples fortyEvents) 1 [sampleCluster]).1 h1
  obtain ⟨_, q, hq, hs⟩ :=
    (summary_bucket_distribution (gapsBetweenTriples sampleEvents) 1 [sampleCluster]).2 h2
  exact ⟨h1, h2, ⟨p, hp, hr.2.2.2.2.2.2.2.2.2.1, hr.2.2.2.2.2.2.2.2.2.2.2.2.2.1⟩,
    ⟨q, hq, hs.2.2.2.2.2.2.2.2.2.2.2.2.1⟩⟩

/-! ## C6: event detection -/

/-- Reading a key after a `set`. -/
theorem mapGet_mapSet (m : List (String × Nat)) (k k2 : String) (c : Nat) :
    mapGet (mapSet m k c) k2 = if k = k2 then some c else mapGet m k2 := by
  induction m with
  | nil => simp [mapSet, mapGet]
  | cons e rest ih =>
    obtain ⟨k1, c1⟩ := e
    by_cases h1 : k1 = k
    · subst h1
      by_cases h2 : k1 = k2 <;> simp [mapSet, mapGet, h2]
    · by_cases h2 : k1 = k2
      · subst h2
        simp [mapSet, mapGet, h1, Ne.symm h1]
      · simp [mapSet, mapGet, h1, h2, ih]

/-- The keys after a `set`: unchanged for a known key, one more otherwise. -/
theorem mapSet_keys (m : List (String × Nat)) (k : String) (c : Nat) :
    (mapSet m k c).map Prod.fst =
      if k ∈ m.map Prod.fst then m.map Prod.fst else m.map Prod.fst ++ [k] := by
  induction m with
  | nil => simp [mapSet]
  | cons e rest ih =>
    obtain ⟨k1, c1⟩ := e
    by_cases h1 : k1 = k
    · subst h1
      simp [mapSet]
    · have h1' : ¬ k = k1 := fun h => h1 h.symm
      simp only [mapSet, h1, if_false, List.map_cons, ih, List.mem_cons, h1', false_or]
      by_cases hk : k ∈ rest.map Prod.fst <;> simp [hk]

/-- A `set` keeps the keys distinct. -/
theorem mapSet_nodup (m : List (String × Nat)) (k : String) (c : Nat)
    (h : (m.map Prod.fst).Nodup) : ((mapSet m k c).map Prod.fst).Nodup := by
  rw [mapSet_keys]
  by_cases hk : k ∈ m.map Prod.fst
  · simp only [hk, if_true]
    exact h
  · simp only [hk, if_false]
    rw [List.nodup_append]
    refine ⟨h, List.nodup_singleton k, ?_⟩
    intro x hx hx2
    rw [List.mem_singleton] at hx2
    subst hx2
    exact hk hx

/-- With distinct keys, every entry is what `get` returns for its key. -/
theorem mapGet_of_mem (m : List (String × Nat)) (h : (m.map Prod.fst).Nodup) (k : String)
    (c : Nat) (hmem : (k, c) ∈ m) : mapGet m k = some c := by
  induction m with
  | nil => simp at hmem
  | cons e rest ih =>
    obtain ⟨k1, c1⟩ := e
    rw [List.map_cons, List.nodup_cons] at h
    rcases List.mem_cons.mp hmem with heq | hrest
    · simp only [Prod.mk.injEq] at heq
      simp [mapGet, heq.1, heq.2]
    · have hne : k1 ≠ k := by
        intro hk
        apply h.1
        rw [hk]
        exact List.mem_map.mpr ⟨(k, c), hrest, rfl⟩
      simp only [mapGet, hne, if_false]
      exact ih h.2 hrest

/-- What `get` returns is an entry. -/
theorem mem_of_mapGet (m : List (String × Nat)) (k : String) (c : Nat)
    (h : mapGet m k = some c) : (k, c) ∈ m := by
  induction m with
  | nil => simp [mapGet] at h
  | cons e rest ih =>
    obtain ⟨k1, c1⟩ := e
    by_cases h1 : k1 = k
    · simp only [mapGet, h1, if_true, Option.some.injEq] at h
      rw [h1, h]
      exact List.mem_cons_self _ _
    · simp only [mapGet, h1, if_false] at h
      exact List.mem_cons_of_mem _ (ih h)

/-- The tally loop keeps the keys distinct and adds, for each key, the number
of its occurrences among the non-blank values. -/
theorem tally_foldl (vals : List (Col × String)) (m : List (String × Nat))
    (h : (m.map Prod.fst).Nodup) :
    ((vals.foldl tallyStep m).map Prod.fst).Nodup ∧
    ∀ k, (mapGet (vals.foldl tallyStep m) k).getD 0 =
      (mapGet m k).getD 0 + (if k = "" then 0 else (vals.map Prod.snd).count k) := by
  induction vals generalizing m with
  | nil => simp [h]
  | cons x rest ih =>
    rw [List.foldl_cons]
    by_cases hx : x.2 = ""
    · have hstep : tallyStep m x = m := by simp [tallyStep, hx]
      rw [hstep]
      refine ⟨(ih m h).1, ?_⟩
      intro k
      rw [(ih m h).2 k]
      by_cases hk : k = ""
      · simp [hk]
      · have : ¬ x.2 = k := by
          rw [hx]
          exact fun h => hk h.symm
        simp [hk, List.count_cons, this]
    · have hstep : tallyStep m x = mapSet m x.2 ((mapGet m x.2).getD 0 + 1) := by
        simp [tallyStep, hx]
      rw [hstep]
      have hnd := mapSet_nodup m x.2 ((mapGet m x.2).getD 0 + 1) h
      refine ⟨(ih _ hnd).1, ?_⟩
      intro k
      rw [(ih _ hnd).2 k, mapGet_mapSet]
      by_cases hk : x.2 = k
      · subst hk
        simp [hx, List.count_cons]
        omega
      · simp [hk, List.count_cons]

/-- The best-value loop returns a count that no entry exceeds, and either its
start value or an entry with a greater count. -/
theorem best_foldl (m : List (String × Nat)) (b0 : Option String × Nat) :
    b0.2 ≤ (m.foldl bestStep b0).2 ∧
    (∀ e ∈ m, e.2 ≤ (m.foldl bestStep b0).2) ∧
    (m.foldl bestStep b0 = b0 ∨
      ∃ e ∈ m, m.foldl bestStep b0 = (some e.1, e.2) ∧ b0.2 < e.2) := by
  induction m generalizing b0 with
  | nil => simp
  | cons x rest ih =>
    rw [List.foldl_cons]
    obtain ⟨h1, h2, h3⟩ := ih (bestStep b0 x)
    have hstep : b0.2 ≤ (bestStep b0 x).2 ∧ x.2 ≤ (bestStep b0 x).2 ∧
        (bestStep b0 x = b0 ∨ (bestStep b0 x = (some x.1, x.2) ∧ b0.2 < x.2)) := by
      by_cases hx : x.2 > b0.2
      · rw [bestStep, if_pos hx]
        exact ⟨by omega, le_refl _, Or.inr ⟨rfl, hx⟩⟩
      · rw [bestStep, if_neg hx]
        exact ⟨le_refl _, by omega, Or.inl rfl⟩
    refine ⟨by omega, ?_, ?_⟩
    · intro e he
      rcases List.mem_cons.mp he with h | h
      · subst h
        omega
      · exact h2 e h
    · rcases h3 with h3 | ⟨e, he, h3, h4⟩
      · rcases hstep.2.2 with h5 | ⟨h5, h6⟩
        · left
          rw [h3, h5]
        · right
          exact ⟨x, List.mem_cons_self _ _, by rw [h3, h5], h6⟩
      · right
        exact ⟨e, List.mem_cons_of_mem _ he, h3, by omega⟩

/-- What `isTripleRow` computes before its test: `bestCount` is the greatest
number of occurrences of a non-blank value, and `bestVal`, when the count is
positive, is a non-blank value with that many occurrences. -/
theorem best_tally_spec (vals : List (Col × String)) :
    (∀ v, v ≠ "" → (vals.map Prod.snd).count v ≤ (best (tally vals)).2) ∧
    ((best (tally vals) = (none, 0)) ∨
      ∃ v, (best (tally vals)).1 = some v ∧ v ≠ "" ∧
        (best (tally vals)).2 = (vals.map Prod.snd).count v ∧ 0 < (best (tally vals)).2) := by
  have ht := tally_foldl vals [] (by simp)
  have hb := best_foldl (tally vals) (none, 0)
  have hget : ∀ k, (mapGet (tally vals) k).getD 0 =
      if k = "" then 0 else (vals.map Prod.snd).count k := by
    intro k
    have := ht.2 k
    simpa [mapGet] using this
  constructor
  · intro v hv
    by_cases hc : (vals.map Prod.snd).count v = 0
    · omega
    · have hg := hget v
      simp only [hv, if_false] at hg
      cases hm : mapGet (tally vals) v with
      | none =>
        rw [hm] at hg
        simp at hg
        omega
      | some c =>
        rw [hm] at hg
        simp at hg
        have hmem : (v, c) ∈ tally vals := mem_of_mapGet _ v c hm
        have := hb.2.1 (v, c) hmem
        simp only at this
        show _ ≤ (List.foldl bestStep (none, 0) (tally vals)).2
        omega
  · rcases hb.2.2 with h | ⟨e, he, h1, h2⟩
    · left
      exact h
    · right
      have hg := hget e.1
      rw [mapGet_of_mem (tally vals) ht.1 e.1 e.2 he] at hg
      simp only [Option.getD_some] at hg
      have hne : e.1 ≠ "" := by
        intro h0
        simp only [h0, if_true] at hg
        omega
      simp only [hne, if_false] at hg
      refine ⟨e.1, ?_, hne, ?_, ?_⟩
      · show (List.foldl bestStep (none, 0) (tally vals)).1 = _
        rw [h1]
      · show (List.foldl bestStep (none, 0) (tally vals)).2 = _
        rw [h1]
        exact hg
      · show 0 < (List.foldl bestStep (none, 0) (tally vals)).2
        rw [h1]
        exact h2

/-- Two different values cannot together occur more often than the list is
long. -/
theorem count_add_count_le (l : List String) (v w : String) (h : v ≠ w) :
    l.count v + l.count w ≤ l.length := by
  induction l with
  | nil => simp
  | cons x rest ih =>
    simp only [List.count_cons, List.length_cons, beq_iff_eq]
    by_cases h1 : x = v
    · have h2 : ¬ x = w := by
        rw [h1]
        exact h
      rw [if_pos h1, if_neg h2]
      omega
    · by_cases h2 : x = w
      · rw [if_neg h1, if_pos h2]
        omega
      · rw [if_neg h1, if_neg h2]
        omega

/-- The result of `isTripleRow` from `(bestVal, bestCount)`. -/
theorem isTripleRow_eq (H : Host) (r : Row) :
    isTripleRow H r =
      match (best (tally [(Col.club, cardValue H r Col.club), (Col.dia, cardValue H r Col.dia),
        (Col.heart, cardValue H r Col.heart), (Col.spade, cardValue H r Col.spade)])).1 with
      | some bestVal =>
        if (best (tally [(Col.club, cardValue H r Col.club), (Col.dia, cardValue H r Col.dia),
            (Col.heart, cardValue H r Col.heart), (Col.spade, cardValue H r Col.spade)])).2 ≥ 3 ∧
            bestVal ≠ "" then
          some
            { value := bestVal
              size := (best (tally [(Col.club, cardValue H r Col.club), (Col.dia, cardValue H r Col.dia),
                (Col.heart, cardValue H r Col.heart), (Col.spade, cardValue H r Col.spade)])).2
              matchCols := [Col.club, Col.dia, Col.heart, Col.spade].filter
                (fun c => cardValue H r c = bestVal)
              missingCols := [Col.club, Col.dia, Col.heart, Col.spade].filter
                (fun c => cardValue H r c ≠ bestVal)
              suits :=
                { club := cardValue H r Col.club
                  dia := cardValue H r Col.dia
                  heart := cardValue H r Col.heart
                  spade := cardValue H r Col.spade } }
        else none
      | none => none := by
  simp only [isTripleRow, cardValue]
  cases (best (tally [(Col.club, normVal H r.club), (Col.dia, normVal H r.dia),
      (Col.heart, normVal H r.heart), (Col.spade, normVal H r.spade)])).1 with
  | none => rfl
  | some v =>
    simp only
    by_cases h1 : normVal H r.club = v <;> by_cases h2 : normVal H r.dia = v <;>
      by_cases h3 : normVal H r.heart = v <;> by_cases h4 : normVal H r.spade = v <;>
      simp [List.filter_cons, h1, h2, h3, h4]

/-- The row test: a triple is reported exactly for a non-blank value held by
at least three columns, and the report describes that value. -/
theorem isTripleRow_spec (H : Host) (r : Row) :
    ((isTripleRow H r).isSome = true ↔ ∃ v, v ≠ "" ∧ 3 ≤ (cardValues H r).count v) ∧
    ∀ t, isTripleRow H r = some t →
      t.value ≠ "" ∧ 3 ≤ (cardValues H r).count t.value ∧
      (∀ v, v ≠ "" → 3 ≤ (cardValues H r).count v → v = t.value) ∧
      t.size = (cardValues H r).count t.value ∧ (t.size = 3 ∨ t.size = 4) ∧
      t.matchCols = [Col.club, Col.dia, Col.heart, Col.spade].filter
        (fun c => cardValue H r c = t.value) ∧
      t.missingCols = [Col.club, Col.dia, Col.heart, Col.spade].filter
        (fun c => cardValue H r c ≠ t.value) := by
  have hspec := best_tally_spec [(Col.club, cardValue H r Col.club),
    (Col.dia, cardValue H r Col.dia), (Col.heart, cardValue H r Col.heart),
    (Col.spade, cardValue H r Col.spade)]
  have hvals : List.map Prod.snd [(Col.club, cardValue H r Col.club),
      (Col.dia, cardValue H r Col.dia), (Col.heart, cardValue H r Col.heart),
      (Col.spade, cardValue H r Col.spade)] = cardValues H r := rfl
  rw [hvals] at hspec
  obtain ⟨hmax, hbest⟩ := hspec
  have hlen : (cardValues H r).length = 4 := rfl
  have huniq : ∀ v w, 3 ≤ (cardValues H r).count v → 3 ≤ (cardValues H r).count w → v = w := by
    intro v w hv hw
    by_contra hne
    have := count_add_count_le (cardValues H r) v w hne
    omega
  rw [isTripleRow_eq]
  rcases hbest with h0 | ⟨v, hv1, hv2, hv3, hv4⟩
  · have h01 : (best (tally [(Col.club, cardValue H r Col.club),
        (Col.dia, cardValue H r Col.dia), (Col.heart, cardValue H r Col.heart),
        (Col.spade, cardValue H r Col.spade)])).1 = none := by rw [h0]
    have h02 : (best (tally [(Col.club, cardValue H r Col.club),
        (Col.dia, cardValue H r Col.dia), (Col.heart, cardValue H r Col.heart),
        (Col.spade, cardValue H r Col.spade)])).2 = 0 := by rw [h0]
    rw [h01]
    constructor
    · constructor
      · intro h
        simp at h
      · rintro ⟨v, hv, hc⟩
        have := hmax v hv
        omega
    · intro t ht
      simp at ht
  · rw [hv1]
    by_cases h3 : (best (tally [(Col.club, cardValue H r Col.club),
        (Col.dia, cardValue H r Col.dia), (Col.heart, cardValue H r Col.heart),
        (Col.spade, cardValue H r Col.spade)])).2 ≥ 3
    · have hcond : (best (tally [(Col.club, cardValue H r Col.club),
          (Col.dia, cardValue H r Col.dia), (Col.heart, cardValue H r Col.heart),
          (Col.spade, cardValue H r Col.spade)])).2 ≥ 3 ∧ v ≠ "" := ⟨h3, hv2⟩
      dsimp only
      rw [if_pos hcond]
      have hcnt : 3 ≤ (cardValues H r).count v := by omega
      constructor
      · constructor
        · intro _
          exact ⟨v, hv2, hcnt⟩
        · intro _
          rfl
      · intro t ht
        simp only [Option.some.injEq] at ht
        subst ht
        refine ⟨hv2, hcnt, ?_, hv3, ?_, rfl, rfl⟩
        · intro w _ hw
          exact huniq w v hw hcnt
        · have hle : (cardValues H r).count v ≤ (cardValues H r).length := List.count_le_length _ _
          show (best (tally [(Col.club, cardValue H r Col.club),
            (Col.dia, cardValue H r Col.dia), (Col.heart, cardValue H r Col.heart),
            (Col.spade, cardValue H r Col.spade)])).2 = 3 ∨ (best (tally [(Col.club, cardValue H r Col.club),
            (Col.dia, cardValue H r Col.dia), (Col.heart, cardValue H r Col.heart),
            (Col.spade, cardValue H r Col.spade)])).2 = 4
          omega
    · have hcond : ¬ ((best (tally [(Col.club, cardValue H r Col.club),
          (Col.dia, cardValue H r Col.dia), (Col.heart, cardValue H r Col.heart),
          (Col.spade, cardValue H r Col.spade)])).2 ≥ 3 ∧ v ≠ "") := fun h => h3 h.1
      dsimp only
      rw [if_neg hcond]
      constructor
      · constructor
        · intro h
          simp at h
        · rintro ⟨w, hw, hc⟩
          have := hmax w hw
          omega
      · intro t ht
        simp at ht

/-- The number of events with a given `idx` found from position `k` on: one
for a qualifying row, none otherwise. -/
theorem computeTriplesFrom_count (H : Host) (k : Nat) (rows : List Row) (j : Nat) :
    ((computeTriplesFrom H k rows).map (fun e => e.idx)).count j =
      if k ≤ j ∧ (rows[j - k]?.bind (isTripleRow H)).isSome = true then 1 else 0 := by
  induction rows generalizing k with
  | nil => simp [computeTriplesFrom]
  | cons r rest ih =>
    unfold computeTriplesFrom
    have hrest := ih (k + 1)
    by_cases hjk : j = k
    · subst hjk
      have h0 : ¬ (j + 1 ≤ j ∧ (rest[j - (j + 1)]?.bind (isTripleRow H)).isSome = true) := by
        intro h
        omega
      rw [if_neg h0] at hrest
      cases ht : isTripleRow H r with
      | none => simp [hrest, ht]
      | some t => simp [hrest, ht, List.count_cons]
    · by_cases hlt : k < j
      · have hidx : (r :: rest)[j - k]? = rest[j - (k + 1)]? := by
          have : j - k = (j - (k + 1)) + 1 := by omega
          rw [this, List.getElem?_cons_succ]
        have hkj : k ≤ j := by omega
        have hkj1 : k + 1 ≤ j := by omega
        rw [hidx]
        simp only [hkj, hkj1, true_and] at hrest ⊢
        cases ht : isTripleRow H r with
        | none => simpa using hrest
        | some t =>
          have hne : ¬ k = j := fun h => hjk h.symm
          simpa [List.count_cons, hne] using hrest
      · have hkj : ¬ k ≤ j := by omega
        have hkj1 : ¬ k + 1 ≤ j := by omega
        simp only [hkj, hkj1, false_and, if_false] at hrest ⊢
        cases ht : isTripleRow H r with
        | none => simpa using hrest
        | some t =>
          have hne : ¬ k = j := fun h => hjk h.symm
          simpa [List.count_cons, hne] using hrest

/-- Every event found from position `k` on reports the triple of the row at
its `idx`. -/
theorem computeTriplesFrom_event (H : Host) (k : Nat) (rows : List Row) :
    ∀ e ∈ computeTriplesFrom H k rows, ∃ r t, k ≤ e.idx ∧ rows[e.idx - k]? = some r ∧
      isTripleRow H r = some t ∧ e.value = t.value ∧ e.size = t.size ∧
      e.matchCols = t.matchCols ∧ e.missingCols = t.missingCols := by
  induction rows generalizing k with
  | nil => simp [computeTriplesFrom]
  | cons r rest ih =>
    intro e he
    unfold computeTriplesFrom at he
    have hstep : ∀ e ∈ computeTriplesFrom H (k + 1) rest, ∃ r2 t, k ≤ e.idx ∧
        (r :: rest)[e.idx - k]? = some r2 ∧ isTripleRow H r2 = some t ∧ e.value = t.value ∧
        e.size = t.size ∧ e.matchCols = t.matchCols ∧ e.missingCols = t.missingCols := by
      intro e he
      obtain ⟨r2, t, h1, h2, h3⟩ := ih (k + 1) e he
      refine ⟨r2, t, by omega, ?_, h3⟩
      have : e.idx - k = (e.idx - (k + 1)) + 1 := by omega
      rw [this, List.getElem?_cons_succ]
      exact h2
    cases ht : isTripleRow H r with
    | none =>
      rw [ht] at he
      exact hstep e he
    | some t =>
      rw [ht] at he
      rcases List.mem_cons.mp he with h | h
      · subst h
        exact ⟨r, t, le_refl _, by simp, ht, rfl, rfl, rfl, rfl⟩
      · exact hstep e h

/-- C6. `isTripleRow` reports a triple exactly when some non-blank normalized
value occurs in at least 3 of the four card columns; then `value` is that
value (the only one), `size` is its number of occurrences (3 or 4),
`matchCols` are the columns, in column order, whose normalized value equals
it and `missingCols` are the other columns.  `computeTriples` emits exactly
one event with `idx = i` for each qualifying row position `i` and none for
any other `i`, each event carries the report of the row at its `idx`, and
the events come in strictly ascending `idx`. -/
theorem event_detection_criterion (H : Host) (rows : List Row) :
    (∀ r, (isTripleRow H r).isSome = true ↔ ∃ v, v ≠ "" ∧ 3 ≤ (cardValues H r).count v) ∧
    (∀ r t, isTripleRow H r = some t →
      t.value ≠ "" ∧ 3 ≤ (cardValues H r).count t.value ∧
      (∀ v, v ≠ "" → 3 ≤ (cardValues H r).count v → v = t.value) ∧
      t.size = (cardValues H r).count t.value ∧ (t.size = 3 ∨ t.size = 4) ∧
      t.matchCols = [Col.club, Col.dia, Col.heart, Col.spade].filter
        (fun c => cardValue H r c = t.value) ∧
      t.missingCols = [Col.club, Col.dia, Col.heart, Col.spade].filter
        (fun c => cardValue H r c ≠ t.value)) ∧
    (∀ i, ((computeTriples H rows).map (fun e => e.idx)).count i =
      if (rows[i]?.bind (isTripleRow H)).isSome = true then 1 else 0) ∧
    (∀ e ∈ computeTriples H rows, ∃ r t, rows[e.idx]? = some r ∧ isTripleRow H r = some t ∧
      e.value = t.value ∧ e.size = t.size ∧ e.matchCols = t.matchCols ∧
      e.missingCols = t.missingCols) ∧
    (computeTriples H rows).Pairwise (fun a b => a.idx < b.idx) := by
  refine ⟨fun r => (isTripleRow_spec H r).1, fun r t ht => (isTripleRow_spec H r).2 t ht, ?_, ?_,
    computeTriplesFrom_sorted H 0 rows⟩
  · intro i
    have h := computeTriplesFrom_count H 0 rows i
    simpa [computeTriples] using h
  · intro e he
    obtain ⟨r, t, _, h2, h3⟩ := computeTriplesFrom_event H 0 rows e he
    exact ⟨r, t, by simpa using h2, h3⟩

/-! ## C11: the lag-conditioned collection -/

/-- The collecting loop of the lag summary is the index comprehension of the
specification. -/
theorem nextGapsForLag_eq_spec (gaps : List Gap) (L : Int) :
    nextGapsForLag gaps L = specNextGaps gaps L := by
  induction gaps with
  | nil => simp [nextGapsForLag, specNextGaps]
  | cons g rest ih =>
    cases rest with
    | nil => simp [nextGapsForLag, specNextGaps]
    | cons g2 rest2 =>
      have hlen : (g :: g2 :: rest2).length - 1 = ((g2 :: rest2).length - 1) + 1 := by
        simp
      have htail : specNextGaps (g :: g2 :: rest2) L =
          (if g.gap = L then [g2.gap] else []) ++ specNextGaps (g2 :: rest2) L := by
        unfold specNextGaps
        rw [hlen, List.range_succ_eq_map, List.filterMap_cons, List.filterMap_map]
        by_cases hg : g.gap = L
        · simp [hg, Function.comp_def]
        · simp [hg, Function.comp_def]
      rw [htail, ← ih]
      by_cases hg : g.gap = L
      · simp [nextGapsForLag, hg]
      · simp [nextGapsForLag, hg]

/-- Over indices that have a successor, the comprehension yields one value
per trigger index. -/
theorem specNextGaps_length_aux (gaps : List Gap) (L : Int) (l : List Nat)
    (hl : ∀ i ∈ l, i + 1 < gaps.length) :
    (l.filterMap
        (fun i =>
          match gaps[i]?, gaps[i + 1]? with
          | some g, some g2 => if g.gap = L then some g2.gap else none
          | _, _ => none)).length =
      (l.filter (fun i => decide ((gaps[i]?).map (fun g => g.gap) = some L))).length := by
  induction l with
  | nil => simp
  | cons i rest ih =>
    have hi : i + 1 < gaps.length := hl i (List.mem_cons_self _ _)
    have hi0 : i < gaps.length := by omega
    have ih2 := ih (fun j hj => hl j (List.mem_cons_of_mem _ hj))
    rw [List.filterMap_cons, List.filter_cons]
    simp only [List.getElem?_eq_getElem hi, List.getElem?_eq_getElem hi0, Option.map_some',
      Option.some.injEq, decide_eq_true_eq]
    by_cases hg : gaps[i].gap = L
    · simp only [hg, if_true, List.length_cons]
      rw [ih2]
    · simp only [hg, if_false]
      rw [ih2]

/-- C11. `summarizeNextGapsForExactLag(gaps, L)` summarises exactly the list
of `gaps[i+1].gap` over the indices `i < gaps.length - 1` with
`gaps[i].gap = L`, in index order: its `count` is the length of that list and
the number of such indices (the last gap is never a trigger), its `stats` and
`buckets` are those of that list, and without such an index it returns
`count = 0`, `stats = null`, `buckets = null`. -/
theorem lag_summary_collects (gaps : List Gap) (L : Int) :
    (summarizeNextGapsForExactLag gaps L).lag = L ∧
    (summarizeNextGapsForExactLag gaps L).count = (specNextGaps gaps L).length ∧
    (summarizeNextGapsForExactLag gaps L).count =
      ((List.range (gaps.length - 1)).filter
        (fun i => decide ((gaps[i]?).map (fun g => g.gap) = some L))).length ∧
    (specNextGaps gaps L = [] →
      summarizeNextGapsForExactLag gaps L =
        { lag := L, count := 0, stats := none, buckets := none }) ∧
    (∀ x rest, specNextGaps gaps L = x :: rest →
      summarizeNextGapsForExactLag gaps L =
        { lag := L
          count := (x :: rest).length
          stats := some (statsOf x rest)
          buckets := some (bucketPercents (bucketCounts (x :: rest)) (x :: rest).length) }) := by
  have hspec := nextGapsForLag_eq_spec gaps L
  have hcount : (summarizeNextGapsForExactLag gaps L).count = (specNextGaps gaps L).length := by
    unfold summarizeNextGapsForExactLag
    rw [hspec]
    cases specNextGaps gaps L with
    | nil => rfl
    | cons x rest => rfl
  refine ⟨?_, hcount, ?_, ?_, ?_⟩
  · unfold summarizeNextGapsForExactLag
    cases nextGapsForLag gaps L with
    | nil => rfl
    | cons x rest => rfl
  · rw [hcount]
    unfold specNextGaps
    apply specNextGaps_length_aux
    intro i hi
    rw [List.mem_range] at hi
    omega
  · intro hnil
    unfold summarizeNextGapsForExactLag
    rw [hspec, hnil]
  · intro x rest hcons
    unfold summarizeNextGapsForExactLag
    rw [hspec, hcons]

/-! ## C12: summary statistics -/

/-- The `Math.min` fold returns a least element. -/
theorem foldl_min_spec (x : Int) (rest : List Int) :
    rest.foldl (fun a b => if b < a then b else a) x ∈ x :: rest ∧
    ∀ g ∈ x :: rest, rest.foldl (fun a b => if b < a then b else a) x ≤ g := by
  induction rest generalizing x with
  | nil => simp
  | cons y ys ih =>
    rw [List.foldl_cons]
    obtain ⟨h1, h2⟩ := ih (if y < x then y else x)
    by_cases hyx : y < x
    · simp only [hyx, if_true] at h1 h2 ⊢
      refine ⟨List.mem_cons_of_mem _ h1, ?_⟩
      intro g hg
      rcases List.mem_cons.mp hg with h | h
      · have := h2 y (List.mem_cons_self _ _)
        omega
      · exact h2 g h
    · simp only [hyx, if_false] at h1 h2 ⊢
      constructor
      · rcases List.mem_cons.mp h1 with h | h
        · rw [h]
          exact List.mem_cons_self _ _
        · exact List.mem_cons_of_mem _ (List.mem_cons_of_mem _ h)
      · intro g hg
        rcases List.mem_cons.mp hg with h | h
        · rw [h]
          exact h2 x (List.mem_cons_self _ _)
        · rcases List.mem_cons.mp h with h' | h'
          · have := h2 x (List.mem_cons_self _ _)
            omega
          · exact h2 g (List.mem_cons_of_mem _ h')

/-- The `Math.max` fold returns a greatest element. -/
theorem foldl_max_spec (x : Int) (rest : List Int) :
    rest.foldl (fun a b => if b > a then b else a) x ∈ x :: rest ∧
    ∀ g ∈ x :: rest, g ≤ rest.foldl (fun a b => if b > a then b else a) x := by
  induction rest generalizing x with
  | nil => simp
  | cons y ys ih =>
    rw [List.foldl_cons]
    obtain ⟨h1, h2⟩ := ih (if y > x then y else x)
    by_cases hyx : y > x
    · simp only [hyx, if_true] at h1 h2 ⊢
      refine ⟨List.mem_cons_of_mem _ h1, ?_⟩
      intro g hg
      rcases List.mem_cons.mp hg with h | h
      · have := h2 y (List.mem_cons_self _ _)
        omega
      · exact h2 g h
    · simp only [hyx, if_false] at h1 h2 ⊢
      constructor
      · rcases List.mem_cons.mp h1 with h | h
        · rw [h]
          exact List.mem_cons_self _ _
        · exact List.mem_cons_of_mem _ (List.mem_cons_of_mem _ h)
      · intro g hg
        rcases List.mem_cons.mp hg with h | h
        · rw [h]
          exact h2 x (List.mem_cons_self _ _)
        · rcases List.mem_cons.mp h with h' | h'
          · have := h2 x (List.mem_cons_self _ _)
            omega
          · exact h2 g (List.mem_cons_of_mem _ h')

/-- The sort of `median` is the ascending arrangement. -/
theorem insertionSort_eq_of_sorted (next a : List Int) (hperm : a.Perm next)
    (hsorted : a.Sorted (fun x y => x ≤ y)) :
    next.insertionSort (fun x y => x ≤ y) = a :=
  List.eq_of_perm_of_sorted ((List.perm_insertionSort _ next).trans hperm.symm)
    (List.sorted_insertionSort _ next) hsorted

/-- The sum of the gaps lies between `count * m` and `count * M` when every
gap lies between `m` and `M`. -/
theorem sum_between (l : List Int) (m M : Int) (hm : ∀ g ∈ l, m ≤ g) (hM : ∀ g ∈ l, g ≤ M) :
    (l.length : Int) * m ≤ l.sum ∧ l.sum ≤ (l.length : Int) * M := by
  induction l with
  | nil => simp
  | cons x rest ih =>
    have h1 := hm x (List.mem_cons_self _ _)
    have h2 := hM x (List.mem_cons_self _ _)
    obtain ⟨i1, i2⟩ := ih (fun g hg => hm g (List.mem_cons_of_mem _ hg))
      (fun g hg => hM g (List.mem_cons_of_mem _ hg))
    simp only [List.length_cons, List.sum_cons]
    push_cast
    constructor <;> nlinarith

/-- The value of `median` on a non-empty list, read off its ascending
arrangement `a`. -/
theorem median_of_sorted (next a : List Int) (hne : next ≠ []) (hperm : a.Perm next)
    (hsorted : a.Sorted (fun x y => x ≤ y)) :
    ∃ m : ℚ, median next = some m ∧
      (next.length % 2 = 1 → ∃ x : Int, a[next.length / 2]? = some x ∧ m = x) ∧
      (next.length % 2 = 0 → ∃ x y : Int, a[next.length / 2 - 1]? = some x ∧
        a[next.length / 2]? = some y ∧ m = ((x : ℚ) + y) / 2) ∧
      ∀ lo hi : Int, (∀ g ∈ next, lo ≤ g) → (∀ g ∈ next, g ≤ hi) → (lo : ℚ) ≤ m ∧ m ≤ (hi : ℚ) := by
  have hsort := insertionSort_eq_of_sorted next a hperm hsorted
  have hlen : a.length = next.length := hperm.length_eq
  have hpos : 0 < next.length := List.length_pos.mpr hne
  have hne0 : ¬ next.length = 0 := by omega
  have hmid : next.length / 2 < a.length := by omega
  have hmem : ∀ i (hi : i < a.length), a[i] ∈ next := fun i hi =>
    hperm.subset (List.getElem_mem hi)
  by_cases hodd : next.length % 2 = 1
  · refine ⟨(a[next.length / 2] : Int), ?_, ?_, ?_, ?_⟩
    · simp only [median, hne0, if_false, hsort, hlen]
      have : ¬ next.length % 2 = 0 := by omega
      simp [List.getD_eq_getElem?_getD, List.getElem?_eq_getElem hmid, this]
    · intro _
      exact ⟨a[next.length / 2], List.getElem?_eq_getElem hmid, rfl⟩
    · intro h
      omega
    · intro lo hi hlo hhi
      have h1 := hlo _ (hmem _ hmid)
      have h2 := hhi _ (hmem _ hmid)
      exact ⟨by exact_mod_cast h1, by exact_mod_cast h2⟩
  · have heven : next.length % 2 = 0 := by omega
    have hmid1 : next.length / 2 - 1 < a.length := by omega
    refine ⟨(((a[next.length / 2 - 1] : Int) : ℚ) + (a[next.length / 2] : Int)) / 2, ?_, ?_, ?_, ?_⟩
    · simp only [median, hne0, if_false, hsort, hlen]
      simp [List.getD_eq_getElem?_getD, List.getElem?_eq_getElem hmid,
        List.getElem?_eq_getElem hmid1, heven]
    · intro h
      omega
    · intro _
      exact ⟨_, _, List.getElem?_eq_getElem hmid1, List.getElem?_eq_getElem hmid, rfl⟩
    · intro lo hi hlo hhi
      have h1 : (lo : ℚ) ≤ (a[next.length / 2 - 1] : Int) := by
        exact_mod_cast hlo _ (hmem _ hmid1)
      have h2 : (lo : ℚ) ≤ (a[next.length / 2] : Int) := by
        exact_mod_cast hlo _ (hmem _ hmid)
      have h3 : ((a[next.length / 2 - 1] : Int) : ℚ) ≤ hi := by
        exact_mod_cast hhi _ (hmem _ hmid1)
      have h4 : ((a[next.length / 2] : Int) : ℚ) ≤ hi := by
        exact_mod_cast hhi _ (hmem _ hmid)
      constructor <;> linarith

/-- The statistics of a non-empty list of gaps. -/
theorem statsReport_of_cons (x : Int) (rest : List Int) :
    StatsReport (x :: rest) (x :: rest).length (statsOf x rest) := by
  have hmin := foldl_min_spec x rest
  have hmax := foldl_max_spec x rest
  have hsum : List.foldl (fun a b => a + b) 0 (x :: rest) = (x :: rest).sum := by
    rw [List.sum_eq_foldl]
  have hpos : (0 : ℚ) < ((x :: rest).length : ℚ) := by
    have : 0 < (x :: rest).length := by simp
    exact_mod_cast this
  have hbetween := sum_between (x :: rest) _ _ hmin.2 hmax.2
  refine ⟨rfl, ?_, hmin, hmax, ?_, ?_, ?_, ?_⟩
  · simp only [statsOf]
    rw [hsum]
  · exact ⟨_, List.perm_insertionSort _ _, List.sorted_insertionSort _ _⟩
  · intro a hperm hsorted
    obtain ⟨m, hm, hodd, heven, hb⟩ :=
      median_of_sorted (x :: rest) a (List.cons_ne_nil _ _) hperm hsorted
    exact ⟨m, hm, hodd, heven, hb _ _ hmin.2 hmax.2⟩
  · simp only [statsOf]
    rw [hsum, le_div_iff₀ hpos]
    have := hbetween.1
    have h2 : (((x :: rest).length : Int) : ℚ) * ((rest.foldl (fun a b => if b < a then b else a) x : Int) : ℚ) ≤
        (((x :: rest).sum : Int) : ℚ) := by exact_mod_cast this
    push_cast at h2 ⊢
    linarith
  · simp only [statsOf]
    rw [hsum, div_le_iff₀ hpos]
    have := hbetween.2
    have h2 : (((x :: rest).sum : Int) : ℚ) ≤
        (((x :: rest).length : Int) : ℚ) * ((rest.foldl (fun a b => if b > a then b else a) x : Int) : ℚ) := by
      exact_mod_cast this
    push_cast at h2 ⊢
    linarith

/-- C12. Whenever `summarizeNextGapsForExactLag` or `summarizeAfterClusters`
has collected at least one gap: `count` is the number of collected gaps, `avg`
their sum divided by `count`, `min` and `max` their least and greatest
elements, `med` the middle element of their ascending arrangement for an odd
`count` and the average of the two middle elements for an even one; and
`min ≤ med ≤ max`, `min ≤ avg ≤ max`. -/
theorem summary_statistics (gaps : List Gap) (lagX : Int) (clusters : List Cluster) :
    (nextGapsForLag gaps lagX ≠ [] →
      ∃ st, (summarizeNextGapsForExactLag gaps lagX).stats = some st ∧
        StatsReport (nextGapsForLag gaps lagX) (summarizeNextGapsForExactLag gaps lagX).count st) ∧
    (gapsAfterClusters gaps clusters ≠ [] →
      ∃ st, (summarizeAfterClusters gaps clusters).stats = some st ∧
        StatsReport (gapsAfterClusters gaps clusters)
          (summarizeAfterClusters gaps clusters).count st) := by
  constructor
  · intro hne
    unfold summarizeNextGapsForExactLag
    cases hn : nextGapsForLag gaps lagX with
    | nil => exact absurd hn hne
    | cons x rest => exact ⟨_, rfl, statsReport_of_cons x rest⟩
  · intro hne
    unfold summarizeAfterClusters
    cases hn : gapsAfterClusters gaps clusters with
    | nil => exact absurd hn hne
    | cons x rest => exact ⟨_, rfl, statsReport_of_cons x rest⟩

/-- C12 at the gaps 1, 7, 1 with the lag 1 and at the cluster of the sample
events. -/
theorem summary_statistics_witness :
    nextGapsForLag sampleGaps 1 ≠ [] ∧
    gapsAfterClusters (gapsBetweenTriples sampleEvents) [sampleCluster] ≠ [] ∧
    (∃ st, (summarizeNextGapsForExactLag sampleGaps 1).stats = some st ∧
      (st.min : ℚ) ≤ st.avg ∧ st.avg ≤ (st.max : ℚ)) ∧
    ∃ st, (summarizeAfterClusters (gapsBetweenTriples sampleEvents) [sampleCluster]).stats =
        some st ∧ (st.min : ℚ) ≤ st.avg ∧ st.avg ≤ (st.max : ℚ) := by
  have h1 : nextGapsForLag sampleGaps 1 ≠ [] := by
    simp [nextGapsForLag, sampleGaps]
  have h2 : gapsAfterClusters (gapsBetweenTriples sampleEvents) [sampleCluster] ≠ [] := by
    simp [gapsAfterClusters, gapsBetweenTriples, sampleEvents, sampleCluster]
  obtain ⟨st, hst, hr⟩ := (summary_statistics sampleGaps 1 [sampleCluster]).1 h1
  obtain ⟨st2, hst2, hr2⟩ :=
    (summary_statistics (gapsBetweenTriples sampleEvents) 1 [sampleCluster]).2 h2
  exact ⟨h1, h2, ⟨st, hst, hr.2.2.2.2.2.2⟩, ⟨st2, hst2, hr2.2.2.2.2.2.2⟩⟩

/-! ## C13: clusters without a successor gap -/

/-- Clusters none of which has a gap after its end leave nothing to collect. -/
theorem gapsAfterClusters_nil (gaps : List Gap) (clusters : List Cluster)
    (hno : ∀ cl ∈ clusters, gaps[cl.endGapIndex + 1]? = none) :
    gapsAfterClusters gaps clusters = [] := by
  induction clusters with
  | nil => rfl
  | cons cl rest ih =>
    unfold gapsAfterClusters
    rw [hno cl (List.mem_cons_self _ _)]
    exact ih (fun c hc => hno c (List.mem_cons_of_mem _ hc))

/-- C13, as stated, fails: for two events at positions 3 and 4 the only
cluster ends at the last gap, and `summarizeAfterClusters` returns for it the
very result it returns for an empty cluster list. -/
theorem afterClusters_indistinct :
    detectClusters (gapsBetweenTriples [virtualEvent 3, virtualEvent 4]) 18 ≠ [] ∧
    (∀ cl ∈ detectClusters (gapsBetweenTriples [virtualEvent 3, virtualEvent 4]) 18,
      (gapsBetweenTriples [virtualEvent 3, virtualEvent 4])[cl.endGapIndex + 1]? = none) ∧
    ¬ (summarizeAfterClusters (gapsBetweenTriples [virtualEvent 3, virtualEvent 4])
        (detectClusters (gapsBetweenTriples [virtualEvent 3, virtualEvent 4]) 18) ≠
      summarizeAfterClusters (gapsBetweenTriples [virtualEvent 3, virtualEvent 4]) []) := by
  simp [detectClusters, detectLoop, growEnd, gapsBetweenTriples, virtualEvent,
    summarizeAfterClusters, gapsAfterClusters]

/-- C13, amended. When `clusters` is non-empty and no cluster has a gap after
its `endGapIndex`, `summarizeAfterClusters` returns `count = 0`,
`stats = null`, `buckets = null`, the same result as for an empty cluster
list; the two cases are told apart by the length of the cluster list, as
`behaviorCluster` in `doExport` does: its report carries the number of
clusters and a different message in each case. -/
theorem afterClusters_no_successor (H : Host) (gaps : List Gap) (clusters : List Cluster)
    (hne : clusters ≠ [])
    (hno : ∀ cl ∈ clusters, gaps[cl.endGapIndex + 1]? = none) :
    summarizeAfterClusters gaps clusters = { count := 0, stats := none, buckets := none } ∧
    summarizeAfterClusters gaps [] = { count := 0, stats := none, buckets := none } ∧
    ∀ fo1 fo2 : FileOnly, fo1.clusters = clusters →
      fo1.afterClusters = summarizeAfterClusters gaps clusters → fo2.clusters = [] →
      (behaviorCluster H fo1).found = clusters.length ∧
      (behaviorCluster H fo1).message =
        some "לא ניתן לחשב \"אחרי אשכול\" (אין נתונים לאחר סוף אשכול)" ∧
      (behaviorCluster H fo2).found = 0 ∧
      (behaviorCluster H fo2).message = some "לא נמצאו אשכולות היסטוריים בקובץ לפי ההגדרה" ∧
      behaviorCluster H fo1 ≠ behaviorCluster H fo2 := by
  have h1 : summarizeAfterClusters gaps clusters =
      { count := 0, stats := none, buckets := none } := by
    unfold summarizeAfterClusters
    rw [gapsAfterClusters_nil gaps clusters hno]
  have hlen : clusters.length ≠ 0 := fun h => hne (List.length_eq_zero.mp h)
  refine ⟨h1, rfl, ?_⟩
  intro fo1 fo2 hc1 ha1 hc2
  have hb1 : behaviorCluster H fo1 =
      { title := "התנהגות היסטורית – אשכול", found := clusters.length,
        message := some "לא ניתן לחשב \"אחרי אשכול\" (אין נתונים לאחר סוף אשכול)",
        avg := none, med := none, min := none, max := none, distribution := none } := by
    simp [behaviorCluster, hc1, ha1, h1, hlen]
  have hb2 : behaviorCluster H fo2 =
      { title := "התנהגות היסטורית – אשכול", found := 0,
        message := some "לא נמצאו אשכולות היסטוריים בקובץ לפי ההגדרה",
        avg := none, med := none, min := none, max := none, distribution := none } := by
    simp [behaviorCluster, hc2]
  refine ⟨by rw [hb1], by rw [hb1], by rw [hb2], by rw [hb2], ?_⟩
  rw [hb1, hb2]
  intro h
  have hf := congrArg BehaviorCluster.found h
  exact hlen hf

/-- C13, amended, at the cluster of two events at positions 3 and 4. -/
theorem afterClusters_no_successor_witness :
    detectClusters (gapsBetweenTriples [virtualEvent 3, virtualEvent 4]) 18 ≠ [] ∧
    (∀ cl ∈ detectClusters (gapsBetweenTriples [virtualEvent 3, virtualEvent 4]) 18,
      (gapsBetweenTriples [virtualEvent 3, virtualEvent 4])[cl.endGapIndex + 1]? = none) ∧
    summarizeAfterClusters (gapsBetweenTriples [virtualEvent 3, virtualEvent 4])
        (detectClusters (gapsBetweenTriples [virtualEvent 3, virtualEvent 4]) 18) =
      { count := 0, stats := none, buckets := none } := by
  have h1 : detectClusters (gapsBetweenTriples [virtualEvent 3, virtualEvent 4]) 18 ≠ [] := by
    simp [detectClusters, detectLoop, growEnd, gapsBetweenTriples, virtualEvent]
  have h2 : ∀ cl ∈ detectClusters (gapsBetweenTriples [virtualEvent 3, virtualEvent 4]) 18,
      (gapsBetweenTriples [virtualEvent 3, virtualEvent 4])[cl.endGapIndex + 1]? = none := by
    simp [detectClusters, detectLoop, growEnd, gapsBetweenTriples, virtualEvent]
  exact ⟨h1, h2, (afterClusters_no_successor sampleHost _ _ h1 h2).1⟩

/-! ## C14: the current cluster status -/

/-- The status is active exactly when some cluster ends at an event with the
`idx` of the last event. -/
theorem currentClusterStatus_isSome (events : List Event) (gaps : List Gap)
    (clusters : List Cluster) :
    (currentClusterStatus events gaps clusters).isSome = true ↔
      ∃ last, events.getLast? = some last ∧ ∃ c ∈ clusters, c.endEvent.idx = last.idx := by
  unfold currentClusterStatus
  cases hlast : events.getLast? with
  | none => simp
  | some last =>
    dsimp only
    cases hfind : clusters.find? (fun cl => decide (cl.endEvent.idx = last.idx)) with
    | none =>
      rw [List.find?_eq_none] at hfind
      constructor
      · intro h
        simp at h
      · rintro ⟨l2, hl2, c, hc, hidx⟩
        simp only [Option.some.injEq] at hl2
        subst hl2
        exact absurd (by simpa using hidx) (hfind c hc)
    | some c =>
      obtain ⟨hp, pre, post, hsplit, _⟩ := List.find?_eq_some.mp hfind
      have hcidx : c.endEvent.idx = last.idx := by simpa using hp
      constructor
      · intro _
        refine ⟨last, rfl, c, ?_, hcidx⟩
        rw [hsplit]
        simp
      · intro _
        rfl

/-- C14. `currentClusterStatus(events, gaps, clusters).active` is `true`
exactly when `events` is non-empty and some cluster's `endEvent` has the `idx`
of the last event; when active, `tripleCount`, `drawSpan` and `gaps` are those
of the first such cluster in list order. -/
theorem currentClusterStatus_active (events : List Event) (gaps : List Gap)
    (clusters : List Cluster) :
    ((currentClusterStatus events gaps clusters).isSome = true ↔
      events ≠ [] ∧ ∃ last, events.getLast? = some last ∧
        ∃ c ∈ clusters, c.endEvent.idx = last.idx) ∧
    ∀ now, currentClusterStatus events gaps clusters = some now →
      ∃ last pre c post, events.getLast? = some last ∧ clusters = pre ++ c :: post ∧
        (∀ c2 ∈ pre, c2.endEvent.idx ≠ last.idx) ∧ c.endEvent.idx = last.idx ∧
        now.tripleCount = c.tripleCount ∧ now.drawSpan = c.drawSpan ∧ now.gaps = c.gaps := by
  unfold currentClusterStatus
  cases hlast : events.getLast? with
  | none =>
    have hnil : events = [] := List.getLast?_eq_none_iff.mp hlast
    simp [hnil]
  | some last =>
    have hne : events ≠ [] := by
      intro h
      rw [h] at hlast
      simp at hlast
    dsimp only
    cases hfind : clusters.find? (fun cl => decide (cl.endEvent.idx = last.idx)) with
    | none =>
      rw [List.find?_eq_none] at hfind
      constructor
      · constructor
        · intro h
          simp at h
        · rintro ⟨_, l2, hl2, c, hc, hidx⟩
          simp only [Option.some.injEq] at hl2
          subst hl2
          exact absurd (by simpa using hidx) (hfind c hc)
      · intro now h
        simp at h
    | some c =>
      obtain ⟨hp, pre, post, hsplit, hpre⟩ := List.find?_eq_some.mp hfind
      have hcidx : c.endEvent.idx = last.idx := by simpa using hp
      constructor
      · constructor
        · intro _
          refine ⟨hne, last, rfl, c, ?_, hcidx⟩
          rw [hsplit]
          simp
        · intro _
          rfl
      · intro now h
        simp only [Option.some.injEq] at h
        subst h
        refine ⟨last, pre, c, post, rfl, hsplit, ?_, hcidx, rfl, rfl, rfl⟩
        intro c2 hc2
        have := hpre c2 hc2
        simpa using this

/-! ## C15: the manual-entry upsert -/

/-- C15. `addManualEntry` with a finite draw number `dn` and a choice `h`
runs the upsert; the list it produces has exactly one entry with
`drawNum = dn`, the new one with `hasTriple = h`; the entries of `prev` with
another `drawNum` are kept unchanged in the same order; pairwise distinct draw
numbers stay pairwise distinct; and inserting `(dn, false)` then `(dn, true)`
leaves exactly one entry for `dn`, with `hasTriple = true`. -/
theorem addManualEntry_upsert (H : Host) (prev : List ManualEntry) (dn : ℚ) (h : Bool)
    (now now2 : Nat) :
    (∀ mDraw, H.toNumber (H.trim mDraw) = some dn →
      addManualEntry H mDraw (some h) now prev = addManualEntryUpdate dn h now prev) ∧
    (addManualEntryUpdate dn h now prev).filter (fun x => decide (x.drawNum = dn)) =
      [{ drawNum := dn, hasTriple := h, createdAt := now }] ∧
    (addManualEntryUpdate dn h now prev).filter (fun x => decide (x.drawNum ≠ dn)) =
      prev.filter (fun x => decide (x.drawNum ≠ dn)) ∧
    ((prev.map (fun x => x.drawNum)).Nodup →
      ((addManualEntryUpdate dn h now prev).map (fun x => x.drawNum)).Nodup) ∧
    (addManualEntryUpdate dn true now2 (addManualEntryUpdate dn false now prev)).filter
        (fun x => decide (x.drawNum = dn)) =
      [{ drawNum := dn, hasTriple := true, createdAt := now2 }] := by
  have hkeep : ∀ (l : List ManualEntry),
      (l.filter (fun x => decide (x.drawNum ≠ dn))).filter (fun x => decide (x.drawNum = dn)) =
        [] := by
    intro l
    rw [List.filter_filter]
    apply List.filter_eq_nil_iff.mpr
    intro x _
    simp
  have hone : ∀ (b : Bool) (t : Nat) (l : List ManualEntry),
      (addManualEntryUpdate dn b t l).filter (fun x => decide (x.drawNum = dn)) =
        [{ drawNum := dn, hasTriple := b, createdAt := t }] := by
    intro b t l
    simp only [addManualEntryUpdate, List.filter_append, hkeep]
    simp
  refine ⟨?_, hone h now prev, ?_, ?_, hone true now2 _⟩
  · intro mDraw hm
    simp only [addManualEntry, hm]
  · simp only [addManualEntryUpdate, List.filter_append, List.filter_filter]
    simp
  · intro hnd
    simp only [addManualEntryUpdate, List.map_append, List.map_cons, List.map_nil]
    rw [List.nodup_append]
    refine ⟨?_, List.nodup_singleton _, ?_⟩
    · exact (List.filter_sublist _).map _ |>.nodup hnd
    · intro q hq hq2
      rw [List.mem_singleton] at hq2
      obtain ⟨x, hx, rfl⟩ := List.mem_map.mp hq
      have := (List.mem_filter.mp hx).2
      simp at this
      exact this hq2

/-! ## C16: the manual-entry reset -/

/-- After a successful load, `fileMeta.maxDraw` is `maxDrawNumber` of the
loaded sheet. -/
theorem onFile_maxDraw (H : Host) (name : String) (rows : List Row) (st : AppState)
    (hne : rows ≠ []) :
    (onFile H name rows none st).fileMeta.maxDraw = maxDrawNumber H rows ∧
    (onFile H name rows none st).manualEntries =
      onFileManualUpdate st.fileMeta.maxDraw (maxDrawNumber H rows) st.manualEntries := by
  have hlen : ¬ rows.length = 0 := fun h => hne (List.length_eq_zero.mp h)
  simp only [onFile, hlen, if_false, and_self]

/-- A sheet with a maximum draw number is not empty. -/
theorem ne_nil_of_maxDrawNumber (H : Host) (rows : List Row) (m : ℚ)
    (h : maxDrawNumber H rows = some m) : rows ≠ [] := by
  intro hnil
  rw [hnil] at h
  simp [maxDrawNumber] at h

/-- C16. After a sheet with maximum draw number `m1` has been loaded,
loading a sheet with maximum draw number `m2` (both by `maxDrawNumber`)
replaces the manual-entry list by the empty list when `m2 > m1` and leaves it
unchanged when `m2 ≤ m1`. -/
theorem onFile_reset_rule (H : Host) (st : AppState) (name1 name2 : String)
    (rows1 rows2 : List Row) (m1 m2 : ℚ)
    (h1 : maxDrawNumber H rows1 = some m1) (h2 : maxDrawNumber H rows2 = some m2) :
    (m2 > m1 →
      (onFile H name2 rows2 none (onFile H name1 rows1 none st)).manualEntries = []) ∧
    (m2 ≤ m1 →
      (onFile H name2 rows2 none (onFile H name1 rows1 none st)).manualEntries =
        (onFile H name1 rows1 none st).manualEntries) := by
  have hne1 := ne_nil_of_maxDrawNumber H rows1 m1 h1
  have hne2 := ne_nil_of_maxDrawNumber H rows2 m2 h2
  rw [(onFile_maxDraw H name2 rows2 _ hne2).2, (onFile_maxDraw H name1 rows1 st hne1).1, h1, h2]
  constructor
  · intro hgt
    simp [onFileManualUpdate, hgt]
  · intro hle
    have : ¬ m2 > m1 := not_lt.mpr hle
    simp [onFileManualUpdate, this]

/-- C16 at a sheet numbered up to 2 followed by a sheet numbered 3. -/
theorem onFile_reset_rule_witness :
    maxDrawNumber sampleHost [plainRow 10 "1", plainRow 20 "2"] = some 2 ∧
    maxDrawNumber sampleHost [plainRow 30 "3"] = some 3 ∧
    (onFile sampleHost "b" [plainRow 30 "3"] none
      (onFile sampleHost "a" [plainRow 10 "1", plainRow 20 "2"] none
        { fileName := "", rawRows := [], fileMeta := ⟨false, "", none⟩, error := "",
          manualEntries := [⟨3, true, 0⟩], showManual := false, mDraw := "",
          mHasTriple := none, showHist := false })).manualEntries = [] := by
  have h1 : maxDrawNumber sampleHost [plainRow 10 "1", plainRow 20 "2"] = some 2 := by
    simp [maxDrawNumber, drawNumber, cellText, sampleHost, plainRow]
  have h2 : maxDrawNumber sampleHost [plainRow 30 "3"] = some 3 := by
    simp [maxDrawNumber, drawNumber, cellText, sampleHost, plainRow]
  exact ⟨h1, h2, (onFile_reset_rule sampleHost _ "a" "b" _ _ 2 3 h1 h2).1 (by norm_num)⟩

/-! ## C17: the chronology method label -/

/-- C17, as stated, fails: on two rows without dates whose draw numbers are
2 and 1, the fallback to the draw numbers reports the method `"draw"`, not
`"draw-number"`. -/
theorem detectChronology_method_draw :
    2 ≤ undatedRows.length ∧
    parseDateSafe sampleHost Cell.missing = none ∧
    drawNumber sampleHost (.str "2") = some 2 ∧ drawNumber sampleHost (.str "1") = some 1 ∧
    (detectChronology sampleHost undatedRows).method = "draw" ∧
    (detectChronology sampleHost undatedRows).method ≠
      "draw-number" := by
  refine ⟨by decide, by decide, ?_, ?_, ?_, ?_⟩
  · simp [drawNumber, cellText, sampleHost]
  · simp [drawNumber, cellText, sampleHost]
  · simp [detectChronology, parseDateSafe, drawNumber, cellText, cellOf, sampleHost, undatedRows]
  · simp [detectChronology, parseDateSafe, drawNumber, cellText, cellOf, sampleHost, undatedRows]

/-- C17, amended. On at least two rows `detectChronology` reports the method
`"date"` when the first and last dates both parse, `"draw"` when one of them
does not parse and both draw numbers are finite, and `"unknown"` when one of
the dates does not parse and one of the draw numbers is not finite. -/
theorem detectChronology_method (H : Host) (rows : List Row) (first last : Row)
    (h2 : 2 ≤ rows.length) (hfirst : rows.head? = some first)
    (hlast : rows.getLast? = some last) :
    ((∃ a b, parseDateSafe H first.date = some a ∧ parseDateSafe H last.date = some b) →
      (detectChronology H rows).method = "date") ∧
    ((parseDateSafe H first.date = none ∨ parseDateSafe H last.date = none) →
      (∃ a b, drawNumber H first.draw = some a ∧ drawNumber H last.draw = some b) →
      (detectChronology H rows).method = "draw") ∧
    ((parseDateSafe H first.date = none ∨ parseDateSafe H last.date = none) →
      (drawNumber H first.draw = none ∨ drawNumber H last.draw = none) →
      (detectChronology H rows).method = "unknown") := by
  have h0 : 0 < rows.length := by omega
  have hl : rows.length - 1 < rows.length := by omega
  have hf : rows[0]? = some first := by
    rw [← hfirst, List.head?_eq_getElem?]
  have hla : rows[rows.length - 1]? = some last := by
    rw [← hlast, List.getLast?_eq_getElem?]
  have hc0 : ∀ col : Row → Cell, cellOf rows[0]? col = col first := by
    intro col
    rw [hf]
    rfl
  have hc1 : ∀ col : Row → Cell, cellOf rows[rows.length - 1]? col = col last := by
    intro col
    rw [hla]
    rfl
  refine ⟨?_, ?_, ?_⟩
  · rintro ⟨a, b, ha, hb⟩
    rw [detectChronology_date H rows h2 a b (by rw [hc0]; exact ha) (by rw [hc1]; exact hb)]
    by_cases hab : a > b
    · rw [if_pos hab]
    · rw [if_neg hab]
  · rintro hd ⟨a, b, ha, hb⟩
    rw [detectChronology_draw H rows h2 a b (by rw [hc0, hc1]; exact hd)
      (by rw [hc0]; exact ha) (by rw [hc1]; exact hb)]
    by_cases hab : a > b
    · rw [if_pos hab]
    · rw [if_neg hab]
  · intro hd hn
    rw [detectChronology_unknown H rows h2 (by rw [hc0, hc1]; exact hd)
      (by rw [hc0, hc1]; exact hn)]

/-- C17, amended, at two rows without dates numbered 2 and 1. -/
theorem detectChronology_method_witness :
    2 ≤ undatedRows.length ∧
    (detectChronology sampleHost undatedRows).method = "draw" := by
  have h := detectChronology_method sampleHost undatedRows
    { date := .missing, draw := .str "2", club := .missing, dia := .missing, heart := .missing,
      spade := .missing }
    { date := .missing, draw := .str "1", club := .missing, dia := .missing, heart := .missing,
      spade := .missing }
    (by decide) rfl rfl
  refine ⟨by decide, h.2.1 (Or.inl (by decide)) ⟨2, 1, ?_, ?_⟩⟩
  · simp [drawNumber, cellText, sampleHost]
  · simp [drawNumber, cellText, sampleHost]

/-! ## C18: scenario A -/

/-- A row without a non-blank value in three columns is not a triple. -/
theorem isTripleRow_none (H : Host) (r : Row)
    (h : ∀ v, v ≠ "" → (cardValues H r).count v ≤ 2) : isTripleRow H r = none := by
  cases ht : isTripleRow H r with
  | none => rfl
  | some t =>
    have hs : (isTripleRow H r).isSome = true := by rw [ht]; rfl
    obtain ⟨v, hv, hc⟩ := (isTripleRow_spec H r).1.mp hs
    have := h v hv
    omega

/-- A row with a non-blank value in three columns is a triple. -/
theorem isTripleRow_some (H : Host) (r : Row)
    (h : ∃ v, v ≠ "" ∧ 3 ≤ (cardValues H r).count v) : ∃ t, isTripleRow H r = some t := by
  have hs := (isTripleRow_spec H r).1.mpr h
  cases ht : isTripleRow H r with
  | none =>
    rw [ht] at hs
    simp at hs
  | some t => exact ⟨t, rfl⟩

/-- C18. Scenario A: for ten rows of which exactly those at positions 3 and
4 hold a non-blank normalized value in three of the four card columns, while
no other row holds a value in more than two, `computeTriples` returns exactly
two events, with `idx` 3 and 4, `gapsBetweenTriples` returns the single gap 1,
and `detectClusters(gaps, 18)` returns exactly one cluster, with
`startGapIndex = 0`, `tripleCount = 2` and `drawSpan = 1`. -/
theorem scenario_A (H : Host) (rows : List Row) (hlen : rows.length = 10)
    (htrip : ∀ i r, i = 3 ∨ i = 4 → rows[i]? = some r →
      ∃ v, v ≠ "" ∧ 3 ≤ (cardValues H r).count v)
    (hrest : ∀ i r, i ≠ 3 → i ≠ 4 → rows[i]? = some r →
      ∀ v, v ≠ "" → (cardValues H r).count v ≤ 2) :
    (computeTriples H rows).length = 2 ∧
    (computeTriples H rows).map (fun e => e.idx) = [3, 4] ∧
    (gapsBetweenTriples (computeTriples H rows)).map (fun g => g.gap) = [1] ∧
    ∃ c, detectClusters (gapsBetweenTriples (computeTriples H rows)) 18 = [c] ∧
      c.startGapIndex = 0 ∧ c.tripleCount = 2 ∧ c.drawSpan = 1 := by
  rcases rows with _ | ⟨r0, _ | ⟨r1, _ | ⟨r2, _ | ⟨r3, _ | ⟨r4, _ | ⟨r5, _ | ⟨r6, _ | ⟨r7,
    _ | ⟨r8, _ | ⟨r9, _ | ⟨r10, rest⟩⟩⟩⟩⟩⟩⟩⟩⟩⟩⟩ <;> simp at hlen
  have h0 := isTripleRow_none H r0 (hrest 0 r0 (by decide) (by decide) rfl)
  have h1 := isTripleRow_none H r1 (hrest 1 r1 (by decide) (by decide) rfl)
  have h2 := isTripleRow_none H r2 (hrest 2 r2 (by decide) (by decide) rfl)
  obtain ⟨t3, h3⟩ := isTripleRow_some H r3 (htrip 3 r3 (Or.inl rfl) rfl)
  obtain ⟨t4, h4⟩ := isTripleRow_some H r4 (htrip 4 r4 (Or.inr rfl) rfl)
  have h5 := isTripleRow_none H r5 (hrest 5 r5 (by decide) (by decide) rfl)
  have h6 := isTripleRow_none H r6 (hrest 6 r6 (by decide) (by decide) rfl)
  have h7 := isTripleRow_none H r7 (hrest 7 r7 (by decide) (by decide) rfl)
  have h8 := isTripleRow_none H r8 (hrest 8 r8 (by decide) (by decide) rfl)
  have h9 := isTripleRow_none H r9 (hrest 9 r9 (by decide) (by decide) rfl)
  have hev : computeTriples H [r0, r1, r2, r3, r4, r5, r6, r7, r8, r9] =
      [{ idx := 3, draw := cellText H r3.draw, drawNum := drawNumber H r3.draw, date := r3.date,
         value := t3.value, size := t3.size, matchCols := t3.matchCols,
         missingCols := t3.missingCols, suits := t3.suits },
       { idx := 4, draw := cellText H r4.draw, drawNum := drawNumber H r4.draw, date := r4.date,
         value := t4.value, size := t4.size, matchCols := t4.matchCols,
         missingCols := t4.missingCols, suits := t4.suits }] := by
    simp [computeTriples, computeTriplesFrom, h0, h1, h2, h3, h4, h5, h6, h7, h8, h9]
  rw [hev]
  refine ⟨rfl, rfl, ?_, ?_⟩
  · simp [gapsBetweenTriples]
  · simp [gapsBetweenTriples, detectClusters, detectLoop, growEnd]

/-- A plain sample row has no value in more than two columns. -/
theorem plainRow_count_le (t : Int) (n v : String) :
    (cardValues sampleHost (plainRow t n)).count v ≤ 2 := by
  have h : cardValues sampleHost (plainRow t n) = ["7", "8", "7", "9"] := by
    simp [cardValues, cardValue, normVal, sampleHost, plainRow]
  rw [h]
  simp only [List.count_cons, List.count_nil, beq_iff_eq]
  by_cases h7 : "7" = v
  · subst h7
    simp
  · simp [h7]
    split_ifs <;> simp_all

/-- A triple sample row holds "7" in three columns. -/
theorem tripleRow_count (t : Int) (n : String) :
    (cardValues sampleHost (tripleRow t n)).count "7" = 3 := by
  have h : cardValues sampleHost (tripleRow t n) = ["7", "7", "7", "9"] := by
    simp [cardValues, cardValue, normVal, sampleHost, tripleRow]
  rw [h]
  decide

/-- C18 at ten sample rows with three sevens in the fourth and fifth. -/
theorem scenario_A_witness :
    scenarioRows.length = 10 ∧
    (computeTriples sampleHost scenarioRows).map (fun e => e.idx) = [3, 4] ∧
    (gapsBetweenTriples (computeTriples sampleHost scenarioRows)).map (fun g => g.gap) = [1] := by
  have h := scenario_A sampleHost scenarioRows rfl
    (by
      rintro i r (rfl | rfl) h
      · simp [scenarioRows] at h
        subst h
        exact ⟨"7", by decide, by rw [tripleRow_count]⟩
      · simp [scenarioRows] at h
        subst h
        exact ⟨"7", by decide, by rw [tripleRow_count]⟩)
    (by
      intro i r h3 h4 h v _
      have hi : i < 10 := by
        by_contra hc
        rw [List.getElem?_eq_none (by simp [scenarioRows]; omega)] at h
        exact absurd h (by simp)
      interval_cases i <;> simp [scenarioRows] at h h3 h4 <;> subst h <;>
        exact plainRow_count_le _ _ _)
  exact ⟨rfl, h.2.1, h.2.2.1⟩

/-! ## C19: the active cluster on the raw gaps -/

/-- If some gap at index `s ≥ i` is 1 and every later gap is at most `T`, the
scan from `i` finds a cluster that ends at the last gap. -/
theorem detectLoop_complete (gaps : List Gap) (T : Int) (s : Nat) (hs : s < gaps.length)
    (h1 : gaps[s].gap = 1)
    (hle : ∀ j (hj : j < gaps.length), s < j → gaps[j].gap ≤ T) (i : Nat) :
    i ≤ s → ∃ c ∈ detectLoop gaps T i, c.endGapIndex + 1 = gaps.length := by
  induction i using detectLoop.induct gaps T with
  | case1 x h hne ih =>
    intro hxs
    have hx : x ≠ s := by
      intro hx
      subst hx
      exact hne h1
    rw [detectLoop, dif_pos h, if_pos hne]
    exact ih (by omega)
  | case2 x h heq r endGapIndex hend ih =>
    intro hxs
    rw [detectLoop, dif_pos h, if_neg heq]
    by_cases hse : s ≤ (growEnd gaps T x h).1
    · refine ⟨_, List.mem_cons_self _ _, ?_⟩
      show (growEnd gaps T x h).1 + 1 = gaps.length
      by_contra hcon
      have hlt : (growEnd gaps T x h).1 + 1 < gaps.length := by
        have := (growEnd gaps T x h).2.2
        omega
      have hstop := growEnd_stop gaps T x h _ (List.getElem?_eq_getElem hlt)
      have := hle _ hlt (by omega)
      omega
    · obtain ⟨c, hc, hce⟩ := ih (by
        show (growEnd gaps T x h).1 + 1 ≤ s
        omega)
      exact ⟨c, List.mem_cons_of_mem _ hc, hce⟩
  | case3 x h =>
    intro hxs
    omega

/-- C19. For events with strictly increasing `idx`, their gaps and any
threshold `T`, the status computed from `detectClusters(gaps, T)` is active
exactly when there is a gap index `s` with `gaps[s].gap = 1` such that every
gap at an index greater than `s` is at most `T`. -/
theorem active_iff_raw_gaps (events : List Event) (T : Int)
    (hsorted : events.Pairwise (fun a b => a.idx < b.idx)) :
    (currentClusterStatus events (gapsBetweenTriples events)
        (detectClusters (gapsBetweenTriples events) T)).isSome = true ↔
      ∃ (s : Nat) (g : Gap), (gapsBetweenTriples events)[s]? = some g ∧ g.gap = 1 ∧
        ∀ (j : Nat) (g2 : Gap), s < j → (gapsBetweenTriples events)[j]? = some g2 →
          g2.gap ≤ T := by
  rw [currentClusterStatus_isSome]
  have hglen := gapsBetweenTriples_length events
  constructor
  · rintro ⟨last, hlast, c, hc, hidx⟩
    obtain ⟨_, hse, hlt, ⟨g, hg, hg1, _⟩, ⟨ge, hge, hto⟩, hin, _⟩ :=
      detectLoop_shape (gapsBetweenTriples events) T 0 c hc
    refine ⟨c.startGapIndex, g, hg, hg1, ?_⟩
    intro j g2 hj hg2
    apply hin j g2 hj ?_ hg2
    obtain ⟨a, b, _, hb, hgab⟩ := gapsBetweenTriples_getElem? events _ ge hge
    have hjlt : j < (gapsBetweenTriples events).length := by
      by_contra hcon
      rw [List.getElem?_eq_none (by omega)] at hg2
      exact absurd hg2 (by simp)
    have hne : events ≠ [] := by
      intro h
      rw [h] at hlast
      simp at hlast
    have hpos : 0 < events.length := List.length_pos.mpr hne
    have hlastidx : events.length - 1 < events.length := by omega
    have hlast2 : events[events.length - 1] = last := by
      have := List.getLast?_eq_getElem? events
      rw [this, List.getElem?_eq_getElem hlastidx] at hlast
      simpa using hlast
    have hbidx : c.endGapIndex + 1 < events.length := by omega
    have hb2 : events[c.endGapIndex + 1] = b := by
      rw [List.getElem?_eq_getElem hbidx] at hb
      simpa using hb
    have hcb : c.endEvent = b := by rw [hto, hgab]
    by_contra hjc
    have hlt2 : c.endGapIndex + 1 < events.length - 1 := by omega
    have := List.pairwise_iff_getElem.mp hsorted _ _ hbidx hlastidx hlt2
    rw [hb2, hlast2, ← hcb, hidx] at this
    omega
  · rintro ⟨s, g, hg, hg1, hle⟩
    have hs : s < (gapsBetweenTriples events).length := by
      by_contra hcon
      rw [List.getElem?_eq_none (by omega)] at hg
      exact absurd hg (by simp)
    have hgs : (gapsBetweenTriples events)[s] = g := by
      rw [List.getElem?_eq_getElem hs] at hg
      simpa using hg
    obtain ⟨c, hc, hce⟩ := detectLoop_complete (gapsBetweenTriples events) T s hs
      (by rw [hgs]; exact hg1)
      (fun j hj hsj => hle j _ hsj (List.getElem?_eq_getElem hj)) 0 (Nat.zero_le _)
    obtain ⟨_, _, _, _, ⟨ge, hge, hto⟩, _⟩ :=
      detectLoop_shape (gapsBetweenTriples events) T 0 c hc
    obtain ⟨a, b, _, hb, hgab⟩ := gapsBetweenTriples_getElem? events _ ge hge
    have hlastidx : events.length - 1 < events.length := by omega
    refine ⟨events[events.length - 1], ?_, c, hc, ?_⟩
    · rw [List.getLast?_eq_getElem?, List.getElem?_eq_getElem hlastidx]
    · have hidx : c.endGapIndex + 1 = events.length - 1 := by omega
      rw [hidx, List.getElem?_eq_getElem hlastidx] at hb
      simp only [Option.some.injEq] at hb
      rw [hto, hgab, ← hb]

/-- C19 at four events at positions 3, 4, 9 and 40 with the threshold 18. -/
theorem active_iff_raw_gaps_witness :
    sampleEvents.Pairwise (fun a b => a.idx < b.idx) ∧
    ((currentClusterStatus sampleEvents (gapsBetweenTriples sampleEvents)
        (detectClusters (gapsBetweenTriples sampleEvents) 18)).isSome = true ↔
      ∃ (s : Nat) (g : Gap), (gapsBetweenTriples sampleEvents)[s]? = some g ∧ g.gap = 1 ∧
        ∀ (j : Nat) (g2 : Gap), s < j → (gapsBetweenTriples sampleEvents)[j]? = some g2 →
          g2.gap ≤ 18) := by
  have hs : sampleEvents.Pairwise (fun a b => a.idx < b.idx) := by
    simp [sampleEvents, virtualEvent]
  exact ⟨hs, active_iff_raw_gaps sampleEvents 18 hs⟩

/-! ## C20: gaps after clusters -/

/-- The values collected after clusters exceed `T` when every cluster stopped
before a gap above `T`. -/
theorem gapsAfterClusters_gt (gaps : List Gap) (T : Int) (clusters : List Cluster)
    (h : ∀ c ∈ clusters, ∀ g, gaps[c.endGapIndex + 1]? = some g → T < g.gap) :
    ∀ v ∈ gapsAfterClusters gaps clusters, T < v := by
  induction clusters with
  | nil => simp [gapsAfterClusters]
  | cons cl rest ih =>
    intro v hv
    have ih2 := ih (fun c hc => h c (List.mem_cons_of_mem _ hc))
    unfold gapsAfterClusters at hv
    cases hg : gaps[cl.endGapIndex + 1]? with
    | none =>
      rw [hg] at hv
      exact ih2 v hv
    | some g =>
      rw [hg] at hv
      rcases List.mem_cons.mp hv with hv1 | hv2
      · rw [hv1]
        exact h cl (List.mem_cons_self _ _) g hg
      · exact ih2 v hv2

/-- C20. Every value that `summarizeAfterClusters(gaps, detectClusters(gaps,
T))` collects is strictly greater than `T`; with the threshold 18, which is
the one `fileOnly` uses, a positive `count` comes with `min ≥ 19` and with the
percentages of the buckets `1-5` and `6-10` both 0. -/
theorem afterClusters_exceed_threshold (gaps : List Gap) (T : Int) :
    (∀ v ∈ gapsAfterClusters gaps (detectClusters gaps T), T < v) ∧
    ((summarizeAfterClusters gaps (detectClusters gaps 18)).count > 0 →
      ∃ st b, (summarizeAfterClusters gaps (detectClusters gaps 18)).stats = some st ∧
        (summarizeAfterClusters gaps (detectClusters gaps 18)).buckets = some b ∧
        19 ≤ st.min ∧ b.b1to5 = 0 ∧ b.b6to10 = 0) ∧
    ∀ (rows : List Row) (events : List Event),
      (fileOnlyFrom rows events).afterClusters =
        summarizeAfterClusters (gapsBetweenTriples events)
          (detectClusters (gapsBetweenTriples events) 18) := by
  have hgt : ∀ T2 : Int, ∀ v ∈ gapsAfterClusters gaps (detectClusters gaps T2), T2 < v := by
    intro T2
    apply gapsAfterClusters_gt
    intro c hc g hg
    exact (detectLoop_shape gaps T2 0 c hc).2.2.2.2.2.2.1 g hg
  refine ⟨hgt T, ?_, fun _ _ => rfl⟩
  intro hcount
  have h18 := hgt 18
  unfold summarizeAfterClusters at hcount ⊢
  cases hn : gapsAfterClusters gaps (detectClusters gaps 18) with
  | nil =>
    rw [hn] at hcount
    simp at hcount
  | cons x rest =>
    rw [hn] at h18
    refine ⟨_, _, rfl, rfl, ?_, ?_, ?_⟩
    · have hmin := (foldl_min_spec x rest).1
      have := h18 _ hmin
      show 19 ≤ rest.foldl (fun a b => if b < a then b else a) x
      omega
    · have hz : (bucketCounts (x :: rest)).b1to5 = 0 := by
        rw [bucketCounts_eq]
        apply List.countP_eq_zero.mpr
        intro g hg
        have := h18 g hg
        simp
        omega
      show bucketPercent (bucketCounts (x :: rest)).b1to5 (x :: rest).length = 0
      rw [hz]
      exact bucketPercent_zero _
    · have hz : (bucketCounts (x :: rest)).b6to10 = 0 := by
        rw [bucketCounts_eq]
        apply List.countP_eq_zero.mpr
        intro g hg
        have := h18 g hg
        simp
        omega
      show bucketPercent (bucketCounts (x :: rest)).b6to10 (x :: rest).length = 0
      rw [hz]
      exact bucketPercent_zero _

end Triples
